import Mathlib

/-!
# WordBrain solver: a shallow embedding

The development follows `wordbrain.cpp` (single-threaded solver) and
`wordbrain_multi.cpp` (the same search, seeded per worker from a range of
starting cells).

Modelling conventions.

* `std::string` is its sequence of characters, `List Char`.
* `unordered_set<T>` is a duplicate-free list; only membership is observable
  in the properties below, the enumeration order of the C++ container being
  unspecified.
* `vector<vector<char>>` is a list of rows.  A read outside the vector is
  undefined in C++; here it yields `GRID_OOB`, a character that is neither a
  letter nor the empty marker, and a write outside the vector changes nothing.
* An `int` is an integer.  Where the source converts between `size_t` and
  `int` (the bounds that `main` hands to the workers, the default `end` and
  the seeding loop of `wordbrain_multi.cpp`) the conversion is written out:
  `size_t` arithmetic is modulo `2^64`, and a `size_t` stored in an `int`
  keeps its low 32 bits.
* Loops that the C++ runs until a condition holds (`while (!st.empty())`, the
  restarting column scan of `adjustGrid`) and the recursion over stages run on
  a step budget `fuel`; `none` means that the budget was exhausted (or that
  `wordLengths` was indexed out of range).  Termination theorems show that a
  large enough budget always yields `some` result.
-/

namespace WordBrain

/-! ## Data model -/

/-- The marker of an emptied cell: `GRID_USED` in `wordbrain.cpp`,
`GRID_EMPTY` in `wordbrain_multi.cpp`. -/
def GRID_USED : Char := '-'

/-- The value of a read outside the grid (undefined behaviour in the source). -/
def GRID_OOB : Char := '\x00'

/-- A `std::string`. -/
abbrev Str := List Char

/-- The `vector<vector<char>>` board: a list of rows. -/
abbrev Grid := List (List Char)

/-- An `unordered_set<vector<string>>`. -/
abbrev Found := List (List Str)

/-- The struct `Point`: a block of the grid, `x` the row and `y` the column. -/
structure Point where
  x : Int
  y : Int
deriving DecidableEq

/-- The struct `Path`: the cells taken, in order, and the word they form. -/
structure Path where
  points : List Point
  word : Str
deriving DecidableEq

/-- `Path::insert`: append a cell and its letter. -/
def Path.insert (path : Path) (p : Point) (c : Char) : Path :=
  ⟨path.points ++ [p], path.word ++ [c]⟩

/-- The constructor `Path(p, c)`. -/
def Path.single (p : Point) (c : Char) : Path :=
  Path.insert ⟨[], []⟩ p c

/-- The constructor `Path(path, p, c)`. -/
def Path.extend (path : Path) (p : Point) (c : Char) : Path :=
  Path.insert ⟨path.points, path.word⟩ p c

/-- `Path::contains`. -/
def Path.contains (path : Path) (p : Point) : Bool :=
  decide (p ∈ path.points)

/-- `Path::size`. -/
def Path.size (path : Path) : Nat :=
  path.points.length

/-- `unordered_set::insert`: no effect when the element is present. -/
def setInsert {α : Type} [DecidableEq α] (s : List α) (a : α) : List α :=
  if a ∈ s then s else s ++ [a]

/-! ## readDict -/

/-- The inner `for` loop of `readDict` over one line: every character is
lower-cased and appended to `currentWord` (empty at the start of the line),
and the word so far is inserted into the partial dictionary. -/
def readLine (line : Str) (partialDictionary : List Str) : Str × List Str :=
  line.foldl
    (fun st ch => (st.1 ++ [ch.toLower], setInsert st.2 (st.1 ++ [ch.toLower])))
    ([], partialDictionary)

/-- `readDict`.  The file is `none` when it cannot be opened (result `0`, sets
untouched) and otherwise the list of its lines. -/
def readDict (file : Option (List Str)) (partialDictionary dictionary : List Str) :
    Int × List Str × List Str :=
  match file with
  | none => (0, partialDictionary, dictionary)
  | some lines =>
    let r := lines.foldl
      (fun st line =>
        let q := readLine line st.1
        (q.2, setInsert st.2 q.1))
      (partialDictionary, dictionary)
    (1, r.1, r.2)

/-! ## The grid -/

/-- `grid[r][c]` for indices of type `size_t`. -/
def Grid.cellAt (g : Grid) (r c : Nat) : Char :=
  (g.getD r []).getD c GRID_OOB

/-- `grid[r][c] = ch` for indices of type `size_t`. -/
def Grid.setAt (g : Grid) (r c : Nat) (ch : Char) : Grid :=
  g.set r ((g.getD r []).set c ch)

/-- `grid[x][y]` for `int` indices: a negative index is out of range. -/
def readCell (g : Grid) (x y : Int) : Char :=
  if 0 ≤ x ∧ 0 ≤ y then g.cellAt x.toNat y.toNat else GRID_OOB

/-- `grid[x][y] = ch` for `int` indices. -/
def writeCell (g : Grid) (x y : Int) (ch : Char) : Grid :=
  if 0 ≤ x ∧ 0 ≤ y then g.setAt x.toNat y.toNat ch else g

/-- The first loop of `adjustGrid`: every cell of the path becomes empty. -/
def markPath (grid : Grid) (points : List Point) : Grid :=
  points.foldl (fun g p => writeCell g p.x p.y GRID_USED) grid

/-- `swap(grid[j][i], grid[j+1][i])`. -/
def swapDown (g : Grid) (j i : Nat) : Grid :=
  (g.setAt j i (g.cellAt (j + 1) i)).setAt (j + 1) i (g.cellAt j i)

/-- The inner loop of `adjustGrid` for column `i`, from row `j`: a letter
with an empty cell right below it is swapped down and the scan restarts at the
top (`j = -1` followed by `j++`); the loop ends when `j` reaches
`grid.size() - 1`.  The loop is only entered when `grid.size() ≥ 1`, so the
unsigned subtraction does not wrap. -/
def settleColumn : Nat → Grid → Nat → Nat → Option Grid
  | 0, _, _, _ => none
  | fuel + 1, g, i, j =>
    if j < g.length - 1 then
      if (g.cellAt j i).isAlpha && g.cellAt (j + 1) i == GRID_USED then
        settleColumn fuel (swapDown g j i) i 0
      else
        settleColumn fuel g i (j + 1)
    else
      some g

/-- The outer loop of `adjustGrid` over the columns still to be settled. -/
def settleColumns (fuel : Nat) : Grid → List Nat → Option Grid
  | g, [] => some g
  | g, i :: cols =>
    match settleColumn fuel g i 0 with
    | none => none
    | some g' => settleColumns fuel g' cols

/-- `adjustGrid`: play a path in the grid, then let the letters fall. -/
def adjustGrid (fuel : Nat) (grid : Grid) (path : Path) : Option Grid :=
  settleColumns fuel (markPath grid path.points) (List.range grid.length)

/-! ## The search of `wordbrain.cpp` -/

/-- The test guarding a push in the neighbour loop: the cell is inside the
grid, not empty, and not yet on the path. -/
def canStep (grid : Grid) (cur : Path) (p : Point) : Bool :=
  decide (0 ≤ p.x) && decide (p.x < grid.length) &&
  decide (0 ≤ p.y) && decide (p.y < grid.length) &&
  (readCell grid p.x p.y != GRID_USED) && !cur.contains p

/-- One iteration of the neighbour loop. -/
def tryPush (grid : Grid) (cur : Path) (p : Point) (st : List Path) : List Path :=
  if canStep grid cur p then cur.extend p (readCell grid p.x p.y) :: st else st

/-- The nested `for i`, `for j` loop over the offsets `-1..1` around
`cur.points.back()`; the head of the list is the top of the stack. -/
def pushNeighbours (grid : Grid) (cur : Path) (st : List Path) : List Path :=
  match cur.points.getLast? with
  | none => st
  | some loc =>
    [(-1 : Int), 0, 1].foldl
      (fun st i =>
        [(-1 : Int), 0, 1].foldl
          (fun st j => tryPush grid cur ⟨loc.x + i, loc.y + j⟩ st) st)
      st

/-- One iteration of the seeding loop for row `i`, column `j`. -/
def trySeed (grid : Grid) (i j : Nat) (st : List Path) : List Path :=
  if grid.cellAt i j ≠ GRID_USED then Path.single ⟨i, j⟩ (grid.cellAt i j) :: st else st

/-- The stack after the seeding loops of `wordbrain.cpp`: one single-cell path
per non-empty cell. -/
def seedStack (grid : Grid) : List Path :=
  (List.range grid.length).foldl
    (fun st i => (List.range grid.length).foldl (fun st j => trySeed grid i j st) st)
    []

/-- The `while (!st.empty())` loop, shared by both programs up to the way the
neighbours are pushed (`expand`); `next` is the recursive call for the next
target length.  The test `cur.size() == wordLengths[targetLengthIndex]`
compares a `size_t` with an `int`: a negative length is converted to a value
of at least `2^64 - 2^31`, which no path size reaches, so the comparison is
taken in `Int`. -/
def searchLoop (next : Grid → List Str → Found → Option Found)
    (expand : Path → List Path → List Path) (L : Int) (grid : Grid)
    (partialDictionary dictionary : List Str) (currentWords : List Str) :
    Nat → List Path → Found → Option Found
  | 0, _, _ => none
  | _ + 1, [], foundWords => some foundWords
  | fuel + 1, cur :: st, foundWords =>
    if (cur.size : Int) = L then
      if cur.word ∈ dictionary then
        match adjustGrid fuel grid cur with
        | none => none
        | some newGrid =>
          match next newGrid (currentWords ++ [cur.word]) foundWords with
          | none => none
          | some foundWords' =>
            searchLoop next expand L grid partialDictionary dictionary currentWords
              fuel st foundWords'
      else
        searchLoop next expand L grid partialDictionary dictionary currentWords
          fuel st foundWords
    else if cur.word ∈ partialDictionary then
      searchLoop next expand L grid partialDictionary dictionary currentWords
        fuel (expand cur st) foundWords
    else
      searchLoop next expand L grid partialDictionary dictionary currentWords
        fuel st foundWords

/-- `findPossibilities` of `wordbrain.cpp`. -/
def findPossibilities : Nat → Nat → List Int → Grid → List Str → List Str →
    List Str → Found → Option Found
  | 0, _, _, _, _, _, _, _ => none
  | fuel + 1, targetLengthIndex, wordLengths, grid, partialDictionary, dictionary,
      currentWords, foundWords =>
    if currentWords.length = wordLengths.length then
      some (setInsert foundWords currentWords)
    else
      match wordLengths.get? targetLengthIndex with
      | none => none
      | some L =>
        searchLoop
          (fun g cw f =>
            findPossibilities fuel (targetLengthIndex + 1) wordLengths g
              partialDictionary dictionary cw f)
          (pushNeighbours grid) L grid partialDictionary dictionary currentWords
          fuel (seedStack grid) foundWords

/-! ## The search of `wordbrain_multi.cpp` -/

namespace Multi

/-- The comparison `a < grid.size()` of an `int` with a `size_t`: the `int` is
converted to `size_t`, so a negative value compares as a huge one. -/
def ltSize (a : Int) (n : Nat) : Bool :=
  decide (0 ≤ a) && decide (a < n)

/-- One of the eight unrolled neighbour checks: `inRange` is the part of the
condition that tests the bounds. -/
def pushIf (inRange : Bool) (grid : Grid) (cur : Path) (p : Point) (st : List Path) :
    List Path :=
  if inRange && (readCell grid p.x p.y != GRID_USED) && !cur.contains p then
    cur.extend p (readCell grid p.x p.y) :: st
  else st

/-- The eight unrolled neighbour checks, in source order. -/
def pushNeighbours (grid : Grid) (cur : Path) (st : List Path) : List Path :=
  match cur.points.getLast? with
  | none => st
  | some loc =>
    let n := grid.length
    let st := pushIf (ltSize (loc.x + 1) n && ltSize (loc.y + 1) n) grid cur
      ⟨loc.x + 1, loc.y + 1⟩ st
    let st := pushIf (ltSize (loc.x + 1) n) grid cur ⟨loc.x + 1, loc.y + 0⟩ st
    let st := pushIf (ltSize (loc.x + 1) n && decide (loc.y - 1 ≥ 0)) grid cur
      ⟨loc.x + 1, loc.y - 1⟩ st
    let st := pushIf (ltSize (loc.y + 1) n) grid cur ⟨loc.x + 0, loc.y + 1⟩ st
    let st := pushIf (decide (loc.y - 1 ≥ 0)) grid cur ⟨loc.x + 0, loc.y - 1⟩ st
    let st := pushIf (decide (loc.x - 1 ≥ 0) && ltSize (loc.y + 1) n) grid cur
      ⟨loc.x - 1, loc.y + 1⟩ st
    let st := pushIf (decide (loc.x - 1 ≥ 0)) grid cur ⟨loc.x - 1, loc.y + 0⟩ st
    let st := pushIf (decide (loc.x - 1 ≥ 0) && decide (loc.y - 1 ≥ 0)) grid cur
      ⟨loc.x - 1, loc.y - 1⟩ st
    st

/-- Arithmetic in `size_t` wraps modulo `2^64`. -/
def toSizeT (n : Nat) : Nat :=
  n % 2 ^ 64

/-- The conversion of an `int` to `size_t`, as in `k / grid.size()`: a
negative value becomes a huge one. -/
def intToSizeT (k : Int) : Nat :=
  (k % 2 ^ 64).toNat

/-- The conversion of a `size_t` value to `int`: the low 32 bits, read as a
signed number. -/
def toInt32 (n : Nat) : Int :=
  if n % 2 ^ 32 < 2 ^ 31 then ((n % 2 ^ 32 : Nat) : Int) else ((n % 2 ^ 32 : Nat) : Int) - 2 ^ 32

/-- The values of `k` visited by `for (int k = start; k < end; k++)`. -/
def kRange (start finish : Int) : List Int :=
  (List.range (finish - start).toNat).map (fun (d : Nat) => start + (d : Int))

/-- One iteration of the seeding loop, for the starting cell `k`:
`int i = k/grid.size(), j = k % grid.size();` divides in `size_t` and stores
the results in `int`s, then `grid[i][j]` is tested and pushed.  (With an
empty grid the division is by zero, which is undefined in C++; here it is the
division of `Nat`.) -/
def trySeedAt (grid : Grid) (k : Int) (st : List Path) : List Path :=
  let i : Int := toInt32 (intToSizeT k / grid.length)
  let j : Int := toInt32 (intToSizeT k % grid.length)
  if readCell grid i j ≠ GRID_USED then Path.single ⟨i, j⟩ (readCell grid i j) :: st else st

/-- The stack after the seeding loop: the starting cells `k` of
`[start, end)`.  For the pair `-1, -1` the function sets `start = 0` and
`end = grid.size() * grid.size()`, a `size_t` product stored in the `int`
`end`. -/
def seedStack (grid : Grid) (start finish : Int) : List Path :=
  let s : Int := if start = -1 ∧ finish = -1 then 0 else start
  let e : Int :=
    if start = -1 ∧ finish = -1 then toInt32 (toSizeT (grid.length * grid.length)) else finish
  (kRange s e).foldl (fun st k => trySeedAt grid k st) []

/-- `findPossibilities` of `wordbrain_multi.cpp`; the recursive call uses the
default `start = -1`, `end = -1`. -/
def findPossibilities : Nat → Nat → List Int → Grid → List Str → List Str →
    List Str → Found → Int → Int → Option Found
  | 0, _, _, _, _, _, _, _, _, _ => none
  | fuel + 1, targetLengthIndex, wordLengths, grid, partialDictionary, dictionary,
      currentWords, foundWords, start, finish =>
    if currentWords.length = wordLengths.length then
      some (setInsert foundWords currentWords)
    else
      match wordLengths.get? targetLengthIndex with
      | none => none
      | some L =>
        searchLoop
          (fun g cw f =>
            findPossibilities fuel (targetLengthIndex + 1) wordLengths g
              partialDictionary dictionary cw f (-1) (-1))
          (pushNeighbours grid) L grid partialDictionary dictionary currentWords
          fuel (seedStack grid start finish) foundWords

/-- The bound `i * grid.size() * grid.size() / numThreads` as `main`
computes it and hands it to a worker: the `int` counter `i` is converted to
`size_t`, the products and the quotient are taken in `size_t` (`numThreads`
is an `unsigned long`), and the quotient is converted to the `int` parameter
of `findPossibilities`. -/
def workerBound (gridSize numThreads i : Nat) : Int :=
  toInt32 (toSizeT (toSizeT (i * gridSize) * gridSize) / numThreads)

/-- The `start` argument handed to worker `i` by `main`:
`i * grid.size() * grid.size() / numThreads`. -/
def rangeStart (gridSize numThreads i : Nat) : Int :=
  workerBound gridSize numThreads i

/-- The `end` argument handed to worker `i` by `main`:
`(i+1) * grid.size() * grid.size() / numThreads`. -/
def rangeEnd (gridSize numThreads i : Nat) : Int :=
  workerBound gridSize numThreads (i + 1)

/-- The workers of `main`, run one after another on the shared result set. -/
def runWorkers (fuel : Nat) (numThreads : Nat) (wordLengths : List Int) (grid : Grid)
    (partialDictionary dictionary : List Str) : List Nat → Found → Option Found
  | [], foundWords => some foundWords
  | i :: rest, foundWords =>
    match findPossibilities fuel 0 wordLengths grid partialDictionary dictionary []
        foundWords (rangeStart grid.length numThreads i) (rangeEnd grid.length numThreads i) with
    | none => none
    | some foundWords' =>
      runWorkers fuel numThreads wordLengths grid partialDictionary dictionary rest foundWords'

/-- The search of `main` with `numThreads` workers, from an empty result set. -/
def searchAll (fuel : Nat) (numThreads : Nat) (wordLengths : List Int) (grid : Grid)
    (partialDictionary dictionary : List Str) : Option Found :=
  runWorkers fuel numThreads wordLengths grid partialDictionary dictionary
    (List.range numThreads) []

end Multi

/-! ## Vocabulary of the properties -/

/-- The cell lies inside the `grid.size() × grid.size()` board. -/
def inGrid (grid : Grid) (p : Point) : Prop :=
  0 ≤ p.x ∧ p.x < grid.length ∧ 0 ≤ p.y ∧ p.y < grid.length

/-- Two cells are 8-adjacent: their Chebyshev distance is exactly 1. -/
def adjacent (a b : Point) : Prop :=
  max (a.x - b.x).natAbs (a.y - b.y).natAbs = 1

/-- A path traces its word on a grid: it has at least one cell, its cells are
pairwise distinct, inside the grid and not empty, consecutive cells are
8-adjacent, and its word is the letters of its cells read in order. -/
structure TracesOn (grid : Grid) (p : Path) : Prop where
  nonempty : p.points ≠ []
  nodup : p.points.Nodup
  inside : ∀ pt ∈ p.points, inGrid grid pt ∧ readCell grid pt.x pt.y ≠ GRID_USED
  linked : p.points.Chain' adjacent
  spells : p.word = p.points.map (fun pt => readCell grid pt.x pt.y)

/-- The list of paths realizes the list of words from the given grid on: the
first path traces the first word on the grid, and the remaining paths realize
the remaining words on the grid that `adjustGrid` leaves for the first path. -/
inductive Realizes : Grid → List Path → List Str → Prop
  | nil (g : Grid) : Realizes g [] []
  | cons {g g' : Grid} {p : Path} {ps : List Path} {ws : List Str} {fuel : Nat} :
      TracesOn g p → adjustGrid fuel g p = some g' → Realizes g' ps ws →
      Realizes g (p :: ps) (p.word :: ws)

/-- Column `i` of the grid is settled: no letter has an empty cell right
below it. -/
def ColumnSettled (g : Grid) (i : Nat) : Prop :=
  ∀ j, j + 1 < g.length →
    ¬ ((g.cellAt j i).isAlpha = true ∧ g.cellAt (j + 1) i = GRID_USED)

/-- Column `i` of the grid, top to bottom. -/
def column (g : Grid) (i : Nat) : List Char :=
  g.map (fun row => row.getD i GRID_OOB)

/-- The potential of a column: every letter weighs its distance to the
bottom.  A swap of `adjustGrid` lowers it by one. -/
def potential : List Char → Nat
  | [] => 0
  | c :: t => (if c.isAlpha then t.length + 1 else 0) + potential t

/-- The number of non-empty cells of the grid. -/
def occupied (g : Grid) : Nat :=
  (g.map (fun row => row.countP (fun c => c != GRID_USED))).sum

/-- The search tree of one stage: `q` is reached from `p` by repeatedly
taking a pushed neighbour path (`kids`) of a path that is shorter or longer
than the target length and whose word is in the partial dictionary. -/
inductive Reach (kids : Path → List Path) (partialDictionary : List Str) (L : Int) :
    Path → Path → Prop
  | here (p : Path) : Reach kids partialDictionary L p p
  | step {p c q : Path} : (p.size : Int) ≠ L → p.word ∈ partialDictionary →
      c ∈ kids p → Reach kids partialDictionary L c q → Reach kids partialDictionary L p q

/-- What the loop inserts because of the stack entry `p`: the sequences that
the next stage (described by `N`) finds after a path of the target length,
reached from `p`, whose word is in the dictionary. -/
def Yield (kids : Path → List Path) (partialDictionary dictionary : List Str) (L : Int)
    (grid : Grid) (N : Grid → List Str → List Str → Prop) (currentWords : List Str)
    (p : Path) (seq : List Str) : Prop :=
  ∃ q, Reach kids partialDictionary L p q ∧ (q.size : Int) = L ∧ q.word ∈ dictionary ∧
    ∃ fuel g', adjustGrid fuel grid q = some g' ∧ N g' (currentWords ++ [q.word]) seq

/-- The sequences that a call of `findPossibilities` inserts, for a search
that pushes the neighbours `kids grid` and seeds every stage with
`seeds grid`. -/
inductive Sol (kids : Grid → Path → List Path) (seeds : Grid → List Path)
    (wordLengths : List Int) (partialDictionary dictionary : List Str) :
    Nat → Grid → List Str → List Str → Prop
  | done {idx : Nat} {grid : Grid} {cw : List Str} :
      cw.length = wordLengths.length →
      Sol kids seeds wordLengths partialDictionary dictionary idx grid cw cw
  | word {idx : Nat} {grid g' : Grid} {cw : List Str} {L : Int} {p q : Path}
      {seq : List Str} {fuel : Nat} :
      cw.length ≠ wordLengths.length → wordLengths.get? idx = some L →
      p ∈ seeds grid → Reach (kids grid) partialDictionary L p q →
      (q.size : Int) = L → q.word ∈ dictionary → adjustGrid fuel grid q = some g' →
      Sol kids seeds wordLengths partialDictionary dictionary (idx + 1) g'
        (cw ++ [q.word]) seq →
      Sol kids seeds wordLengths partialDictionary dictionary idx grid cw seq

/-- A path that the search can hold on a board of `n` rows: its cells are
pairwise distinct and inside the board. -/
def GoodPath (n : Nat) (p : Path) : Prop :=
  p.points.Nodup ∧ ∀ pt ∈ p.points, 0 ≤ pt.x ∧ pt.x < n ∧ 0 ≤ pt.y ∧ pt.y < n

/-- The number of loop iterations that a stack entry can still cause. -/
def pathWeight (n : Nat) (p : Path) : Nat :=
  10 ^ (n * n - p.size)

/-- The number of loop iterations that the stack can still cause. -/
def stackWeight (n : Nat) (st : List Path) : Nat :=
  (st.map (pathWeight n)).sum

/-- A step budget that settles one column of a board of `n` rows. -/
def settleFuel (n : Nat) : Nat :=
  (n * n + 1) * (n + 1) + 1

/-- A step budget for a call of `findPossibilities` with `k` words still to
find on a board of `n` rows. -/
def searchFuel (n : Nat) : Nat → Nat
  | 0 => 1
  | k + 1 => searchFuel n k + n * n * 10 ^ (n * n) + settleFuel n + 2

/-- The paths that the neighbour loop of `wordbrain.cpp` pushes for `cur`. -/
def kids (grid : Grid) (cur : Path) : List Path :=
  pushNeighbours grid cur []

/-- The paths that the unrolled neighbour checks of `wordbrain_multi.cpp`
push for `cur`. -/
def Multi.kids (grid : Grid) (cur : Path) : List Path :=
  Multi.pushNeighbours grid cur []

/-- The seeds of `wordbrain_multi.cpp` for the default `start`, `end`. -/
def Multi.seedAll (grid : Grid) : List Path :=
  Multi.seedStack grid (-1) (-1)

/-- The bound `i * dim * dim / K` of the partition of the starting cells, as
the number it denotes (no machine arithmetic). -/
def Multi.cut (dim K i : Nat) : Nat :=
  i * dim * dim / K

/-- What one call of `findPossibilities` inserts when its first stage is seeded
with `seedsTop` and the stages after it are described by `N`. -/
def StageFrom (kidsTop : Path → List Path) (seedsTop : List Path)
    (wordLengths : List Int) (partialDictionary dictionary : List Str)
    (N : Grid → List Str → List Str → Prop) (idx : Nat) (grid : Grid) (cw seq : List Str) :
    Prop :=
  (cw.length = wordLengths.length ∧ seq = cw) ∨
  (cw.length ≠ wordLengths.length ∧ ∃ L, wordLengths.get? idx = some L ∧
    ∃ p ∈ seedsTop, Yield kidsTop partialDictionary dictionary L grid N cw p seq)

instance (grid : Grid) (p : Point) : Decidable (inGrid grid p) :=
  inferInstanceAs (Decidable (0 ≤ p.x ∧ p.x < grid.length ∧ 0 ≤ p.y ∧ p.y < grid.length))

instance : DecidableRel adjacent := fun a b =>
  inferInstanceAs (Decidable (max (a.x - b.x).natAbs (a.y - b.y).natAbs = 1))

/-- The board of Scenario A: row 0 is `ca`, row 1 is `ts`. -/
def scenarioGrid : Grid := [['c', 'a'], ['t', 's']]

/-- The word list of Scenario A: `cat`, `cats`, `act`. -/
def scenarioWords : List Str := [['c', 'a', 't'], ['c', 'a', 't', 's'], ['a', 'c', 't']]

/-- The path `c(0,0) → a(0,1) → t(1,0)` of Scenario A. -/
def scenarioPath : Path := ⟨[⟨0, 0⟩, ⟨0, 1⟩, ⟨1, 0⟩], ['c', 'a', 't']⟩

/-- A board of 46341 rows of 46341 letters `a`: the smallest square board
whose number of cells, 2147488281, is not an `int`. -/
def largeBoard : Grid := List.replicate 46341 (List.replicate 46341 'a')

/-- The grid is square: every row has as many cells as there are rows. -/
def Square (g : Grid) : Prop :=
  ∀ row ∈ g, row.length = g.length

instance (g : Grid) : Decidable (Square g) :=
  inferInstanceAs (Decidable (∀ row ∈ g, row.length = g.length))

/-! ## The hash of the result set -/

/-- `Hash<vector<string>>::operator()`: the sum of the string hashes of the
words, in `size_t` arithmetic (modulo `2^64`).  The library hash
`std::hash<string>` is the parameter `strHash`. -/
def Hash (strHash : Str → Nat) (v : List Str) : Nat :=
  v.foldl (fun hash s => (hash + strHash s) % 2 ^ 64) 0

/-- Insertion into an `unordered_set` with a hash function: the hash only
pre-selects the stored elements that are then compared with `==`. -/
def hashInsert {α : Type} [DecidableEq α] (hash : α → Nat) (s : List α) (a : α) : List α :=
  if s.any (fun b => hash b == hash a && decide (b = a)) then s else s ++ [a]

/-! ## `main` -/

/-- `DEFAULT_DICT_PATH`. -/
def DEFAULT_DICT_PATH : Str := "dict_full.txt".toList

/-- The variables set by the argument loop of `main`. -/
structure Options where
  query : Bool
  dict_path : Str
  numThreads : Nat
deriving DecidableEq

/-- The argument loop of `main` in `wordbrain_multi.cpp`, over the arguments
after `argv[0]`; the head of the list is `argv[i]` and the next element, when
there is one, `argv[i + 1]`.  `NUM_THREADS` is the value of
`thread::hardware_concurrency()` and `stoul` the library conversion, `none`
when it throws.  The result is `none` when the program stops in the loop (a
failed `assert(i + 1 < argc)` or an exception of `stoul`). -/
def Multi.parseArgs (stoul : Str → Option Nat) (NUM_THREADS : Nat) :
    List Str → Options → Option Options
  | [], o => some o
  | a :: rest, o =>
    let o1 : Options := if a = "--noquery".toList then { o with query := false } else o
    let o2 : Option Options :=
      if a = "--threads".toList then
        match rest with
        | [] => none
        | v :: _ =>
          match stoul v with
          | none => none
          | some r => some { o1 with numThreads := min (max 1 r) NUM_THREADS }
      else some o1
    match o2 with
    | none => none
    | some o2 =>
      let o3 : Option Options :=
        if a = "--dict".toList then
          match rest with
          | [] => none
          | v :: _ => some { o2 with dict_path := v }
        else some o2
      match o3 with
      | none => none
      | some o3 => Multi.parseArgs stoul NUM_THREADS rest o3

/-- The options of `wordbrain_multi.cpp` for the given arguments: the loop
starts from `query = true`, `dict_path = DEFAULT_DICT_PATH`,
`numThreads = NUM_THREADS`. -/
def Multi.options (stoul : Str → Option Nat) (NUM_THREADS : Nat) (args : List Str) :
    Option Options :=
  Multi.parseArgs stoul NUM_THREADS args ⟨true, DEFAULT_DICT_PATH, NUM_THREADS⟩

/-! ## Standard input

`cin` is the sequence of characters still to be read together with its
failure flag.  Once an extraction has failed, every later extraction leaves
its variable untouched.  Memory is not bounded: a vector of any non-negative
size can be built. -/

/-- `INT_MAX`. -/
def INT_MAX : Int := 2147483647

/-- `INT_MIN`. -/
def INT_MIN : Int := -2147483648

/-- The state of `cin`: the characters not yet read, and whether an
extraction has failed (`failbit`). -/
structure Stream where
  rest : List Char
  failed : Bool
deriving DecidableEq

/-- White space of the "C" locale, which formatted extraction skips. -/
def isSpace (c : Char) : Bool :=
  c == ' ' || c == '\t' || c == '\n' || c == '\x0b' || c == '\x0c' || c == '\r'

/-- The number written by a run of decimal digits. -/
def digitsValue (ds : List Char) : Nat :=
  ds.foldl (fun v c => 10 * v + (c.toNat - '0'.toNat)) 0

/-- `cin >> x` for an `int x`: the value stored in `x` (`none` when `x` is
left untouched) and the stream afterwards.  On a failed stream, or when only
white space is left, nothing is stored and the stream fails.  Otherwise white
space is skipped and an optional sign and the digits after it are read: with
no digit, `0` is stored and the stream fails; a value outside `int` stores
`INT_MAX` or `INT_MIN` and the stream fails. -/
def extractInt (s : Stream) : Option Int × Stream :=
  if s.failed then (none, s)
  else
    match s.rest.dropWhile isSpace with
    | [] => (none, ⟨[], true⟩)
    | c :: r =>
      let body := if c = '-' ∨ c = '+' then r else c :: r
      let ds := body.takeWhile Char.isDigit
      let after := body.dropWhile Char.isDigit
      if ds = [] then (some 0, ⟨after, true⟩)
      else
        let v : Int := if c = '-' then -(digitsValue ds : Int) else (digitsValue ds : Int)
        if v > INT_MAX then (some INT_MAX, ⟨after, true⟩)
        else if v < INT_MIN then (some INT_MIN, ⟨after, true⟩)
        else (some v, ⟨after, false⟩)

/-- `cin >> c` for a `char c`: white space is skipped and the next character
is stored; on a failed stream, or when only white space is left, nothing is
stored and the stream fails. -/
def extractChar (s : Stream) : Option Char × Stream :=
  if s.failed then (none, s)
  else
    match s.rest.dropWhile isSpace with
    | [] => (none, ⟨[], true⟩)
    | c :: r => (some c, ⟨r, false⟩)

/-- The loop `for (int i = 0; i < numWords; i++) cin >> wordLengths[i];` on
the vector `wordLengths(numWords)`, whose entries start at 0. -/
def readLengths : Nat → Stream → List Int × Stream
  | 0, s => ([], s)
  | n + 1, s =>
    let r := extractInt s
    let rs := readLengths n r.2
    (r.1.getD 0 :: rs.1, rs.2)

/-- One row of the grid-reading loops: `cin >> grid[i][j]` followed by
`grid[i][j] = tolower(grid[i][j])`, on cells that start at `'\0'`. -/
def readRow : Nat → Stream → List Char × Stream
  | 0, s => ([], s)
  | n + 1, s =>
    let r := extractChar s
    let rs := readRow n r.2
    ((r.1.getD '\x00').toLower :: rs.1, rs.2)

/-- The outer grid-reading loop, for `n` rows of `dim` cells. -/
def readRows (dim : Nat) : Nat → Stream → Grid × Stream
  | 0, s => ([], s)
  | n + 1, s =>
    let r := readRow dim s
    let rs := readRows dim n r.2
    (r.1 :: rs.1, rs.2)

/-- The grid `grid(dim, vector<char>(dim))` after the reading loops. -/
def readGrid (dim : Nat) (s : Stream) : Grid :=
  (readRows dim dim s).1

/-- What `main` has when the search starts. -/
inductive Parsed where
  /-- `dim` or `numWords` was never stored: `main` uses an uninitialised
  `int`, which is undefined in C++. -/
  | undefined : Parsed
  /-- `numWords` or `dim` is negative: the constructor of `wordLengths` or of
  `grid` is asked for more elements than a vector can hold and throws; the
  exception is not caught and the program is terminated. -/
  | aborted : Parsed
  /-- The vectors `wordLengths` and `grid` that the search is called with. -/
  | ready (wordLengths : List Int) (grid : Grid) : Parsed
deriving DecidableEq

/-- The part of `main` between the dictionary and the search: `cin >> dim`,
`cin >> numWords`, the vector `wordLengths` and its reading loop, the vector
`grid` and its reading loops. -/
def readInput (stdin : List Char) : Parsed :=
  match extractInt ⟨stdin, false⟩ with
  | (none, _) => Parsed.undefined
  | (some dim, s1) =>
    match extractInt s1 with
    | (none, _) => Parsed.undefined
    | (some numWords, s2) =>
      if numWords < 0 then Parsed.aborted
      else if dim < 0 then Parsed.aborted
      else
        Parsed.ready (readLengths numWords.toNat s2).1
          (readGrid dim.toNat (readLengths numWords.toNat s2).2)

/-- How a run of `main` ends. -/
inductive Outcome where
  /-- The program returns from `main` with this exit status after printing
  these combinations. -/
  | returned (status : Int) (foundWords : Found) : Outcome
  /-- The program is terminated by an uncaught exception before the search. -/
  | aborted : Outcome
  /-- The run uses an uninitialised variable. -/
  | undefined : Outcome
deriving DecidableEq

/-- `main` of `wordbrain.cpp` after the argument loop: `dictFile` is the file
at `dict_path` (`none` when it cannot be opened) and `stdin` the characters
on standard input.  The result is `none` when the step budget of the search
is exhausted. -/
def main (fuel : Nat) (dictFile : Option (List Str)) (stdin : List Char) : Option Outcome :=
  let r := readDict dictFile [] []
  if r.1 = 0 then some (Outcome.returned 1 [])
  else
    match readInput stdin with
    | Parsed.undefined => some Outcome.undefined
    | Parsed.aborted => some Outcome.aborted
    | Parsed.ready wordLengths grid =>
      match findPossibilities fuel 0 wordLengths grid r.2.1 r.2.2 [] [] with
      | none => none
      | some foundWords => some (Outcome.returned 0 foundWords)

/-- `main` of `wordbrain_multi.cpp` after the argument loop, with the workers
run one after another. -/
def Multi.main (fuel : Nat) (numThreads : Nat) (dictFile : Option (List Str))
    (stdin : List Char) : Option Outcome :=
  let r := readDict dictFile [] []
  if r.1 = 0 then some (Outcome.returned 1 [])
  else
    match readInput stdin with
    | Parsed.undefined => some Outcome.undefined
    | Parsed.aborted => some Outcome.aborted
    | Parsed.ready wordLengths grid =>
      match Multi.searchAll fuel numThreads wordLengths grid r.2.1 r.2.2 with
      | none => none
      | some foundWords => some (Outcome.returned 0 foundWords)

/-- The characters that the extractions of `char`s still find on the stream:
none after a failure, otherwise the characters left that are not white
space. -/
def pending (s : Stream) : List Char :=
  if s.failed then [] else s.rest.filter (fun c => !isSpace c)

/-! ## The stack of the search, iteration by iteration -/

/-- The stack after one iteration of the `while (!st.empty())` loop: the top
path is popped, and its neighbours are pushed when its size differs from the
target length and its word is in the partial dictionary.  (What the iteration
does to `foundWords` plays no part in the stack.) -/
def stackStep (expand : Path → List Path → List Path) (L : Int)
    (partialDictionary : List Str) : List Path → List Path
  | [] => []
  | cur :: st =>
    if (cur.size : Int) = L then st
    else if cur.word ∈ partialDictionary then expand cur st
    else st

/-- The stack after `k` iterations of the loop. -/
def stackAfter (expand : Path → List Path → List Path) (L : Int)
    (partialDictionary : List Str) : Nat → List Path → List Path
  | 0, st => st
  | k + 1, st =>
    stackAfter expand L partialDictionary k (stackStep expand L partialDictionary st)

/-! ## Reference description of gravity -/

/-- Every cell of the grid holds a letter or the empty marker. -/
def LettersOnly (g : Grid) : Prop :=
  ∀ row ∈ g, ∀ c ∈ row, c.isAlpha = true ∨ c = GRID_USED

instance (g : Grid) : Decidable (LettersOnly g) :=
  inferInstanceAs (Decidable (∀ row ∈ g, ∀ c ∈ row, c.isAlpha = true ∨ c = GRID_USED))

/-- The letters of column `i` that are not on the path, top to bottom. -/
def survivors (grid : Grid) (path : Path) (i : Nat) : List Char :=
  ((List.range grid.length).filter
    (fun r => grid.cellAt r i != GRID_USED && !path.contains ⟨r, i⟩)).map
    (fun r => grid.cellAt r i)

/-- The number of distinct cells on the path that are not empty. -/
def cellsTaken (grid : Grid) (path : Path) : Nat :=
  (path.points.toFinset.filter (fun pt => readCell grid pt.x pt.y ≠ GRID_USED)).card

/-! ## The search with checked indices

The definitions of this section repeat the search with every subscript of
the source (`grid[..][..]`, `wordLengths[..]`, `cur.points.back()`)
evaluated by an accessor that fails with `Fault.badIndex` outside the
container, where the definitions above read `GRID_OOB` or leave the grid
untouched.  Conditions are evaluated left to right with the short-circuit of
`&&`, so a subscript behind a failed bounds test is not evaluated. -/

/-- How a checked run can stop without a result. -/
inductive Fault where
  | outOfFuel : Fault
  | badIndex : Fault
deriving DecidableEq

/-- The result of an unchecked run, seen as a checked one: `none` is an
exhausted step budget. -/
def liftResult {α : Type} : Option α → Except Fault α
  | none => Except.error Fault.outOfFuel
  | some a => Except.ok a

namespace Checked

/-- `grid[r][c]` as a value, for indices of type `size_t`. -/
def readAt (g : Grid) (r c : Nat) : Except Fault Char :=
  match g.get? r with
  | none => Except.error Fault.badIndex
  | some row =>
    match row.get? c with
    | none => Except.error Fault.badIndex
    | some ch => Except.ok ch

/-- `grid[r][c] = ch`, for indices of type `size_t`. -/
def writeAt (g : Grid) (r c : Nat) (ch : Char) : Except Fault Grid :=
  match g.get? r with
  | none => Except.error Fault.badIndex
  | some row =>
    if c < row.length then Except.ok (g.set r (row.set c ch)) else Except.error Fault.badIndex

/-- `grid[x][y]` as a value, for `int` indices: a negative index converts to
a huge `size_t`. -/
def readCell (g : Grid) (x y : Int) : Except Fault Char :=
  if 0 ≤ x ∧ 0 ≤ y then readAt g x.toNat y.toNat else Except.error Fault.badIndex

/-- `grid[x][y] = ch`, for `int` indices. -/
def writeCell (g : Grid) (x y : Int) (ch : Char) : Except Fault Grid :=
  if 0 ≤ x ∧ 0 ≤ y then writeAt g x.toNat y.toNat ch else Except.error Fault.badIndex

/-- The first loop of `adjustGrid`. -/
def markPath (grid : Grid) (points : List Point) : Except Fault Grid :=
  points.foldlM (fun g p => writeCell g p.x p.y GRID_USED) grid

/-- `swap(grid[j][i], grid[j+1][i])`. -/
def swapDown (g : Grid) (j i : Nat) : Except Fault Grid := do
  let a ← readAt g j i
  let b ← readAt g (j + 1) i
  let g1 ← writeAt g j i b
  writeAt g1 (j + 1) i a

/-- The test `isalpha(grid[j][i]) && grid[j + 1][i] == GRID_USED`. -/
def canFall (g : Grid) (j i : Nat) : Except Fault Bool := do
  let a ← readAt g j i
  if a.isAlpha then do
    let b ← readAt g (j + 1) i
    pure (b == GRID_USED)
  else pure false

/-- The inner loop of `adjustGrid` for column `i`, from row `j`. -/
def settleColumn : Nat → Grid → Nat → Nat → Except Fault Grid
  | 0, _, _, _ => Except.error Fault.outOfFuel
  | fuel + 1, g, i, j =>
    if j < g.length - 1 then
      match canFall g j i with
      | Except.error e => Except.error e
      | Except.ok true =>
        match swapDown g j i with
        | Except.error e => Except.error e
        | Except.ok g' => settleColumn fuel g' i 0
      | Except.ok false => settleColumn fuel g i (j + 1)
    else
      Except.ok g

/-- The outer loop of `adjustGrid`. -/
def settleColumns (fuel : Nat) : Grid → List Nat → Except Fault Grid
  | g, [] => Except.ok g
  | g, i :: cols =>
    match settleColumn fuel g i 0 with
    | Except.error e => Except.error e
    | Except.ok g' => settleColumns fuel g' cols

/-- `adjustGrid`. -/
def adjustGrid (fuel : Nat) (grid : Grid) (path : Path) : Except Fault Grid :=
  match markPath grid path.points with
  | Except.error e => Except.error e
  | Except.ok g => settleColumns fuel g (List.range grid.length)

/-- One iteration of the neighbour loop of `wordbrain.cpp`: the cell is read
only behind the four bounds tests, and read again for the pushed path. -/
def tryPush (grid : Grid) (cur : Path) (p : Point) (st : List Path) :
    Except Fault (List Path) :=
  if decide (0 ≤ p.x) && decide (p.x < grid.length) &&
      decide (0 ≤ p.y) && decide (p.y < grid.length) then do
    let ch ← readCell grid p.x p.y
    if ch != GRID_USED && !cur.contains p then do
      let ch' ← readCell grid p.x p.y
      pure (cur.extend p ch' :: st)
    else pure st
  else pure st

/-- The neighbour loop of `wordbrain.cpp`; `cur.points.back()` needs a
non-empty path. -/
def pushNeighbours (grid : Grid) (cur : Path) (st : List Path) : Except Fault (List Path) :=
  match cur.points.getLast? with
  | none => Except.error Fault.badIndex
  | some loc =>
    [(-1 : Int), 0, 1].foldlM
      (fun st i =>
        [(-1 : Int), 0, 1].foldlM
          (fun st j => tryPush grid cur ⟨loc.x + i, loc.y + j⟩ st) st)
      st

/-- One iteration of the seeding loop for row `i`, column `j`. -/
def trySeed (grid : Grid) (i j : Nat) (st : List Path) : Except Fault (List Path) := do
  let ch ← readAt grid i j
  if ch ≠ GRID_USED then do
    let ch' ← readAt grid i j
    pure (Path.single ⟨i, j⟩ ch' :: st)
  else pure st

/-- The seeding loops of `wordbrain.cpp`. -/
def seedStack (grid : Grid) : Except Fault (List Path) :=
  (List.range grid.length).foldlM
    (fun st i => (List.range grid.length).foldlM (fun st j => trySeed grid i j st) st)
    []

/-- The `while (!st.empty())` loop; `wordLengths[targetLengthIndex]` is
evaluated at every iteration. -/
def searchLoop (next : Grid → List Str → Found → Except Fault Found)
    (expand : Path → List Path → Except Fault (List Path)) (wordLengths : List Int)
    (targetLengthIndex : Nat) (grid : Grid)
    (partialDictionary dictionary : List Str) (currentWords : List Str) :
    Nat → List Path → Found → Except Fault Found
  | 0, _, _ => Except.error Fault.outOfFuel
  | _ + 1, [], foundWords => Except.ok foundWords
  | fuel + 1, cur :: st, foundWords =>
    match wordLengths.get? targetLengthIndex with
    | none => Except.error Fault.badIndex
    | some L =>
      if (cur.size : Int) = L then
        if cur.word ∈ dictionary then
          match adjustGrid fuel grid cur with
          | Except.error e => Except.error e
          | Except.ok newGrid =>
            match next newGrid (currentWords ++ [cur.word]) foundWords with
            | Except.error e => Except.error e
            | Except.ok foundWords' =>
              searchLoop next expand wordLengths targetLengthIndex grid partialDictionary
                dictionary currentWords fuel st foundWords'
        else
          searchLoop next expand wordLengths targetLengthIndex grid partialDictionary
            dictionary currentWords fuel st foundWords
      else if cur.word ∈ partialDictionary then
        match expand cur st with
        | Except.error e => Except.error e
        | Except.ok st' =>
          searchLoop next expand wordLengths targetLengthIndex grid partialDictionary
            dictionary currentWords fuel st' foundWords
      else
        searchLoop next expand wordLengths targetLengthIndex grid partialDictionary
          dictionary currentWords fuel st foundWords

/-- `findPossibilities` of `wordbrain.cpp`. -/
def findPossibilities : Nat → Nat → List Int → Grid → List Str → List Str →
    List Str → Found → Except Fault Found
  | 0, _, _, _, _, _, _, _ => Except.error Fault.outOfFuel
  | fuel + 1, targetLengthIndex, wordLengths, grid, partialDictionary, dictionary,
      currentWords, foundWords =>
    if currentWords.length = wordLengths.length then
      Except.ok (setInsert foundWords currentWords)
    else
      match seedStack grid with
      | Except.error e => Except.error e
      | Except.ok st =>
        searchLoop
          (fun g cw f =>
            findPossibilities fuel (targetLengthIndex + 1) wordLengths g
              partialDictionary dictionary cw f)
          (pushNeighbours grid) wordLengths targetLengthIndex grid partialDictionary
          dictionary currentWords fuel st foundWords

namespace Multi

/-- One of the eight unrolled neighbour checks: the cell is read only when
the bounds tests `inRange` of the check hold. -/
def pushIf (inRange : Bool) (grid : Grid) (cur : Path) (p : Point) (st : List Path) :
    Except Fault (List Path) :=
  if inRange then do
    let ch ← readCell grid p.x p.y
    if ch != GRID_USED && !cur.contains p then do
      let ch' ← readCell grid p.x p.y
      pure (cur.extend p ch' :: st)
    else pure st
  else pure st

/-- The eight unrolled neighbour checks, in source order. -/
def pushNeighbours (grid : Grid) (cur : Path) (st : List Path) : Except Fault (List Path) :=
  match cur.points.getLast? with
  | none => Except.error Fault.badIndex
  | some loc => do
    let n := grid.length
    let st ← pushIf (WordBrain.Multi.ltSize (loc.x + 1) n && WordBrain.Multi.ltSize (loc.y + 1) n)
      grid cur ⟨loc.x + 1, loc.y + 1⟩ st
    let st ← pushIf (WordBrain.Multi.ltSize (loc.x + 1) n) grid cur ⟨loc.x + 1, loc.y + 0⟩ st
    let st ← pushIf (WordBrain.Multi.ltSize (loc.x + 1) n && decide (loc.y - 1 ≥ 0)) grid cur
      ⟨loc.x + 1, loc.y - 1⟩ st
    let st ← pushIf (WordBrain.Multi.ltSize (loc.y + 1) n) grid cur ⟨loc.x + 0, loc.y + 1⟩ st
    let st ← pushIf (decide (loc.y - 1 ≥ 0)) grid cur ⟨loc.x + 0, loc.y - 1⟩ st
    let st ← pushIf (decide (loc.x - 1 ≥ 0) && WordBrain.Multi.ltSize (loc.y + 1) n) grid cur
      ⟨loc.x - 1, loc.y + 1⟩ st
    let st ← pushIf (decide (loc.x - 1 ≥ 0)) grid cur ⟨loc.x - 1, loc.y + 0⟩ st
    pushIf (decide (loc.x - 1 ≥ 0) && decide (loc.y - 1 ≥ 0)) grid cur
      ⟨loc.x - 1, loc.y - 1⟩ st

/-- One iteration of the seeding loop for the starting cell `k`, with the
conversions of `int i = k/grid.size(), j = k % grid.size()`. -/
def trySeedAt (grid : Grid) (k : Int) (st : List Path) : Except Fault (List Path) := do
  let i : Int := WordBrain.Multi.toInt32 (WordBrain.Multi.intToSizeT k / grid.length)
  let j : Int := WordBrain.Multi.toInt32 (WordBrain.Multi.intToSizeT k % grid.length)
  let ch ← readCell grid i j
  if ch ≠ GRID_USED then do
    let ch' ← readCell grid i j
    pure (Path.single ⟨i, j⟩ ch' :: st)
  else pure st

/-- The seeding loop of `wordbrain_multi.cpp`. -/
def seedStack (grid : Grid) (start finish : Int) : Except Fault (List Path) :=
  let s : Int := if start = -1 ∧ finish = -1 then 0 else start
  let e : Int :=
    if start = -1 ∧ finish = -1 then
      WordBrain.Multi.toInt32 (WordBrain.Multi.toSizeT (grid.length * grid.length))
    else finish
  (WordBrain.Multi.kRange s e).foldlM (fun st k => trySeedAt grid k st) []

/-- `findPossibilities` of `wordbrain_multi.cpp`. -/
def findPossibilities : Nat → Nat → List Int → Grid → List Str → List Str →
    List Str → Found → Int → Int → Except Fault Found
  | 0, _, _, _, _, _, _, _, _, _ => Except.error Fault.outOfFuel
  | fuel + 1, targetLengthIndex, wordLengths, grid, partialDictionary, dictionary,
      currentWords, foundWords, start, finish =>
    if currentWords.length = wordLengths.length then
      Except.ok (setInsert foundWords currentWords)
    else
      match seedStack grid start finish with
      | Except.error e => Except.error e
      | Except.ok st =>
        Checked.searchLoop
          (fun g cw f =>
            findPossibilities fuel (targetLengthIndex + 1) wordLengths g
              partialDictionary dictionary cw f (-1) (-1))
          (pushNeighbours grid) wordLengths targetLengthIndex grid partialDictionary
          dictionary currentWords fuel st foundWords

end Multi

end Checked

/-! ## Basic facts -/

theorem mem_setInsert {α : Type} [DecidableEq α] (s : List α) (a x : α) :
    x ∈ setInsert s a ↔ x ∈ s ∨ x = a := by
  unfold setInsert
  split
  · constructor
    · intro h; exact Or.inl h
    · rintro (h | rfl)
      · exact h
      · assumption
  · simp

/-! ## The partition of the starting cells -/

namespace Multi

theorem cut_eq (d K i : Nat) : cut d K i = i * (d * d) / K := by
  unfold cut; rw [Nat.mul_assoc]

theorem cut_mono (d K : Nat) {i j : Nat} (h : i ≤ j) : cut d K i ≤ cut d K j := by
  rw [cut_eq, cut_eq]
  exact Nat.div_le_div_right (Nat.mul_le_mul_right _ h)

theorem cut_zero (d K : Nat) : cut d K 0 = 0 := by
  simp [cut]

theorem cut_last (d K : Nat) (hK : 0 < K) : cut d K K = d * d := by
  rw [cut_eq]; exact Nat.mul_div_cancel_left _ hK

theorem cut_le (d K i : Nat) (hK : 0 < K) (hi : i ≤ K) : cut d K i ≤ d * d := by
  rw [← cut_last d K hK]
  exact cut_mono d K hi

theorem cut_size (d K i : Nat) :
    cut d K (i + 1) - cut d K i = d * d / K ∨ cut d K (i + 1) - cut d K i = d * d / K + 1 := by
  by_cases hK : K = 0
  · subst hK; simp [cut]
  have hK' : 0 < K := Nat.pos_of_ne_zero hK
  rw [cut_eq, cut_eq]
  have h : (i + 1) * (d * d) = i * (d * d) + d * d := by ring
  rw [h, Nat.add_div hK']
  generalize i * (d * d) / K = a
  generalize d * d / K = b
  split <;> omega

theorem cut_cover_aux (d K k : Nat) :
    ∀ m, k < cut d K m → ∃ i, i < m ∧ cut d K i ≤ k ∧ k < cut d K (i + 1) := by
  intro m
  induction m with
  | zero => intro h; rw [cut_zero] at h; omega
  | succ m ih =>
    intro h
    by_cases hm : k < cut d K m
    · obtain ⟨i, hi, h1, h2⟩ := ih hm
      exact ⟨i, by omega, h1, h2⟩
    · exact ⟨m, by omega, by omega, h⟩

theorem cut_last_size (d K : Nat) (hK : 0 < K) :
    cut d K (K - 1 + 1) - cut d K (K - 1) =
      d * d / K + (if d * d % K = 0 then 0 else 1) := by
  have hlast : cut d K (K - 1 + 1) = d * d := by
    have : K - 1 + 1 = K := by omega
    rw [this, cut_last d K hK]
  rw [hlast, cut_eq]
  generalize d * d = N
  obtain ⟨q, r, hr, rfl⟩ : ∃ q r, r < K ∧ N = K * q + r :=
    ⟨N / K, N % K, Nat.mod_lt _ hK, (Nat.div_add_mod N K).symm⟩
  have hq : (K * q + r) / K = q := by
    rw [Nat.mul_add_div hK, Nat.div_eq_of_lt hr]; simp
  have hm : (K * q + r) % K = r := by
    rw [Nat.mul_add_mod, Nat.mod_eq_of_lt hr]
  rw [hq, hm]
  obtain ⟨K', rfl⟩ : ∃ K', K = K' + 1 := ⟨K - 1, by omega⟩
  simp only [Nat.add_sub_cancel]
  by_cases h0 : r = 0
  · subst h0
    simp only [if_true, Nat.add_zero]
    have : K' * ((K' + 1) * q) = (K' + 1) * (K' * q) := by ring
    rw [this, Nat.mul_div_cancel_left _ (Nat.succ_pos _)]
    have : (K' + 1) * q = K' * q + q := by ring
    omega
  · simp only [h0, if_false]
    have e : K' * ((K' + 1) * q + r) = (K' + 1 - r) + (K' + 1) * (K' * q + r - 1) := by
      obtain ⟨r', rfl⟩ : ∃ r', r = r' + 1 := ⟨r - 1, by omega⟩
      obtain ⟨s, rfl⟩ : ∃ s, K' = r' + s := ⟨K' - r', by omega⟩
      have : r' + s + 1 - (r' + 1) = s := by omega
      rw [this]
      have : (r' + s) * q + (r' + 1) - 1 = (r' + s) * q + r' := by omega
      rw [this]
      ring
    rw [e, Nat.add_mul_div_left _ _ (Nat.succ_pos _)]
    have : (K' + 1 - r) / (K' + 1) = 0 := Nat.div_eq_of_lt (by omega)
    rw [this]
    have : (K' + 1) * q = K' * q + q := by ring
    omega

/-! ### The machine bounds -/

theorem toSizeT_of_lt (n : Nat) (h : n < 2 ^ 64) : toSizeT n = n :=
  Nat.mod_eq_of_lt h

theorem toInt32_of_lt (n : Nat) (h : n < 2 ^ 31) : toInt32 n = (n : Int) := by
  unfold toInt32
  have h1 : n % 2 ^ 32 = n := Nat.mod_eq_of_lt (by omega)
  rw [h1, if_pos h]

theorem toInt32_lt (n : Nat) : toInt32 n < 2 ^ 31 := by
  unfold toInt32
  have h1 : n % 2 ^ 32 < 2 ^ 32 := Nat.mod_lt _ (by decide)
  split <;> omega

theorem intToSizeT_of_nat (k : Nat) (h : k < 2 ^ 64) : intToSizeT (k : Int) = k := by
  unfold intToSizeT
  have : ((k : Int) % 2 ^ 64) = (k : Int) := Int.emod_eq_of_lt (by omega) (by omega)
  rw [this]
  simp

theorem workerBound_eq_cut (d K i : Nat) (hd : d * d < 2 ^ 31) (hK : K < 2 ^ 31)
    (hi : i ≤ K) : workerBound d K i = (cut d K i : Int) := by
  unfold workerBound cut
  have hb : i * d * d ≤ K * (d * d) := by
    rw [Nat.mul_assoc]; exact Nat.mul_le_mul_right _ hi
  have hb2 : K * (d * d) ≤ 2 ^ 31 * 2 ^ 31 :=
    Nat.mul_le_mul (Nat.le_of_lt hK) (Nat.le_of_lt hd)
  have h62 : i * d * d < 2 ^ 64 := by
    have : (2 : Nat) ^ 31 * 2 ^ 31 < 2 ^ 64 := by decide
    omega
  have h1 : i * d < 2 ^ 64 := by
    rcases Nat.eq_zero_or_pos d with hd0 | hd0
    · subst hd0; simp
    · have : i * d ≤ i * d * d := Nat.le_mul_of_pos_right _ hd0
      omega
  rw [toSizeT_of_lt _ h1, toSizeT_of_lt _ h62]
  apply toInt32_of_lt
  rcases Nat.eq_zero_or_pos K with hK0 | hK0
  · subst hK0
    have : i = 0 := by omega
    subst this
    simp
  · have h3 : i * d * d / K ≤ K * (d * d) / K := Nat.div_le_div_right hb
    rw [Nat.mul_div_cancel_left _ hK0] at h3
    omega

theorem rangeStart_eq_cut (d K i : Nat) (hd : d * d < 2 ^ 31) (hK : K < 2 ^ 31)
    (hi : i ≤ K) : rangeStart d K i = (cut d K i : Int) :=
  workerBound_eq_cut d K i hd hK hi

theorem rangeEnd_eq_cut (d K i : Nat) (hd : d * d < 2 ^ 31) (hK : K < 2 ^ 31)
    (hi : i < K) : rangeEnd d K i = (cut d K (i + 1) : Int) :=
  workerBound_eq_cut d K (i + 1) hd hK hi

/-- C9 as stated fails on a board of 46341 rows with one worker:
`dim * dim = 2147488281` does not fit the `int` parameter `end`, the worker is
handed the range `[0, -2147479015)`, and the ranges do not cover
`[0, dim * dim)`: the starting cell 0 is in no range. -/
theorem ranges_miss_cells_on_large_board :
    rangeStart 46341 1 0 = 0 ∧ rangeEnd 46341 1 0 = -2147479015 ∧
    ¬ (∀ k : Int, (0 ≤ k ∧ k < 46341 * 46341) ↔
        ∃ i, i < 1 ∧ rangeStart 46341 1 i ≤ k ∧ k < rangeEnd 46341 1 i) := by
  have h0 : rangeStart 46341 1 0 = 0 := by decide
  have h1 : rangeEnd 46341 1 0 = -2147479015 := by decide
  refine ⟨h0, h1, ?_⟩
  intro h
  obtain ⟨i, hi, _, h3⟩ := (h 0).1 ⟨by decide, by decide⟩
  have hi0 : i = 0 := by omega
  subst hi0
  rw [h1] at h3
  omega

/-- C9, amended.  For every board dimension with `dim * dim < 2^31` and every
worker count `1 ≤ K < 2^31` (the counter of the launching loop is an `int`)
the ranges `[rangeStart i, rangeEnd i)`, `i < K`, handed to the workers are
the ranges `[i * dim * dim / K, (i + 1) * dim * dim / K)`: they start at 0 and
end at `dim * dim`, are contiguous (each starts where the previous one ends),
are pairwise disjoint, cover `[0, dim * dim)` exactly, and have sizes that
differ by at most one. -/
theorem partition_ranges (dim K : Nat) (hdim : dim * dim < 2 ^ 31) (hK : 1 ≤ K)
    (hK2 : K < 2 ^ 31) :
    (∀ i, i < K → rangeStart dim K i = ((i * dim * dim / K : Nat) : Int) ∧
      rangeEnd dim K i = (((i + 1) * dim * dim / K : Nat) : Int)) ∧
    rangeStart dim K 0 = 0 ∧ rangeEnd dim K (K - 1) = ((dim * dim : Nat) : Int) ∧
    (∀ i, i + 1 < K → rangeStart dim K (i + 1) = rangeEnd dim K i) ∧
    (∀ i, i < K → rangeStart dim K i ≤ rangeEnd dim K i) ∧
    (∀ i j (k : Int), i < j → j < K → rangeStart dim K i ≤ k → k < rangeEnd dim K i →
      ¬ (rangeStart dim K j ≤ k ∧ k < rangeEnd dim K j)) ∧
    (∀ k : Int, (0 ≤ k ∧ k < ((dim * dim : Nat) : Int)) ↔
      ∃ i, i < K ∧ rangeStart dim K i ≤ k ∧ k < rangeEnd dim K i) ∧
    (∀ i j, i < K → j < K →
      rangeEnd dim K i - rangeStart dim K i ≤ rangeEnd dim K j - rangeStart dim K j + 1) := by
  have hs : ∀ i, i ≤ K → rangeStart dim K i = (cut dim K i : Int) :=
    fun i hi => rangeStart_eq_cut dim K i hdim hK2 hi
  have he : ∀ i, i < K → rangeEnd dim K i = (cut dim K (i + 1) : Int) :=
    fun i hi => rangeEnd_eq_cut dim K i hdim hK2 hi
  refine ⟨fun i hi => ⟨hs i (Nat.le_of_lt hi), he i hi⟩, ?_, ?_, fun i _ => rfl, ?_, ?_, ?_, ?_⟩
  · rw [hs 0 (Nat.zero_le _), cut_zero]; rfl
  · rw [he (K - 1) (by omega)]
    have : K - 1 + 1 = K := by omega
    rw [this, cut_last dim K hK]
  · intro i hi
    rw [hs i (Nat.le_of_lt hi), he i hi]
    exact Int.ofNat_le.2 (cut_mono dim K (Nat.le_add_right i 1))
  · intro i j k hij hj _ hk hjk
    rw [he i (by omega)] at hk
    rw [hs j (Nat.le_of_lt hj)] at hjk
    have h := cut_mono dim K (show i + 1 ≤ j from hij)
    omega
  · intro k
    constructor
    · rintro ⟨hk0, hk⟩
      obtain ⟨k', rfl⟩ : ∃ k' : Nat, k = (k' : Int) := ⟨k.toNat, by omega⟩
      have hk' : k' < cut dim K K := by rw [cut_last dim K hK]; omega
      obtain ⟨i, hi, h1, h2⟩ := cut_cover_aux dim K k' K hk'
      refine ⟨i, hi, ?_, ?_⟩
      · rw [hs i (Nat.le_of_lt hi)]; omega
      · rw [he i hi]; omega
    · rintro ⟨i, hi, h1, h2⟩
      rw [hs i (Nat.le_of_lt hi)] at h1
      rw [he i hi] at h2
      have h := cut_le dim K (i + 1) hK hi
      omega
  · intro i j hi hj
    rw [hs i (Nat.le_of_lt hi), he i hi, hs j (Nat.le_of_lt hj), he j hj]
    have hmi := cut_mono dim K (Nat.le_add_right i 1)
    have hmj := cut_mono dim K (Nat.le_add_right j 1)
    rcases cut_size dim K i with h1 | h1 <;> rcases cut_size dim K j with h2 | h2 <;> omega

/-- Witness of the amended C9 on a 3 × 3 board with two workers: the ranges
are `[0, 4)` and `[4, 9)`. -/
theorem partition_ranges_witness :
    3 * 3 < 2 ^ 31 ∧ 1 ≤ 2 ∧ 2 < 2 ^ 31 ∧
    rangeStart 3 2 0 = 0 ∧ rangeEnd 3 2 0 = 4 ∧ rangeStart 3 2 1 = 4 ∧ rangeEnd 3 2 1 = 9 ∧
    (∀ k : Int, (0 ≤ k ∧ k < ((3 * 3 : Nat) : Int)) ↔
      ∃ i, i < 2 ∧ rangeStart 3 2 i ≤ k ∧ k < rangeEnd 3 2 i) :=
  ⟨by decide, by decide, by decide, by decide, by decide, by decide, by decide,
    (partition_ranges 3 2 (by decide) (by decide) (by decide)).2.2.2.2.2.2.1⟩

/-- C10 as stated fails.  On a 4 × 4 board with six workers the ranges hold
2, 3, 3, 2, 3, 3 indices, so a range other than the last holds more than
`16 / 6 = 2` indices, and the last holds 3, not `2 + 16 % 6 = 6`.  On a board
of 46341 rows with one worker the only range is `[0, -2147479015)`, which
holds no index. -/
theorem last_range_absorbs_remainder_fails :
    ¬ ((∀ i, i + 1 < 6 → rangeEnd 4 6 i - rangeStart 4 6 i = ((4 * 4 / 6 : Nat) : Int)) ∧
       rangeEnd 4 6 (6 - 1) - rangeStart 4 6 (6 - 1) = ((4 * 4 / 6 + 4 * 4 % 6 : Nat) : Int)) ∧
    (List.range 6).map (fun i => rangeEnd 4 6 i - rangeStart 4 6 i) = [2, 3, 3, 2, 3, 3] ∧
    (kRange (rangeStart 46341 1 0) (rangeEnd 46341 1 0)).length = 0 ∧
    rangeEnd 46341 1 (1 - 1) - rangeStart 46341 1 (1 - 1) ≠
      ((46341 * 46341 / 1 + 46341 * 46341 % 1 : Nat) : Int) := by
  refine ⟨?_, by decide, by decide, by decide⟩
  intro h
  have h1 := h.1 1 (by decide)
  revert h1
  decide

/-- C10, amended.  For every board dimension with `dim * dim < 2^31` and every
worker count `1 ≤ K < 2^31` the remainder of the division is spread over the
ranges: every range holds `dim * dim / K` or `dim * dim / K + 1` indices, and
the last range holds `dim * dim / K` indices when `K` divides `dim * dim` and
one more otherwise. -/
theorem range_sizes_balanced (dim K : Nat) (hdim : dim * dim < 2 ^ 31) (hK : 1 ≤ K)
    (hK2 : K < 2 ^ 31) :
    (∀ i, i < K →
      rangeEnd dim K i - rangeStart dim K i = ((dim * dim / K : Nat) : Int) ∨
      rangeEnd dim K i - rangeStart dim K i = ((dim * dim / K + 1 : Nat) : Int)) ∧
    (∀ i, i < K → (kRange (rangeStart dim K i) (rangeEnd dim K i)).length = dim * dim / K ∨
      (kRange (rangeStart dim K i) (rangeEnd dim K i)).length = dim * dim / K + 1) ∧
    rangeEnd dim K (K - 1) - rangeStart dim K (K - 1) =
      ((dim * dim / K + (if dim * dim % K = 0 then 0 else 1) : Nat) : Int) := by
  have hs : ∀ i, i ≤ K → rangeStart dim K i = (cut dim K i : Int) :=
    fun i hi => rangeStart_eq_cut dim K i hdim hK2 hi
  have he : ∀ i, i < K → rangeEnd dim K i = (cut dim K (i + 1) : Int) :=
    fun i hi => rangeEnd_eq_cut dim K i hdim hK2 hi
  refine ⟨?_, ?_, ?_⟩
  · intro i hi
    rw [hs i (Nat.le_of_lt hi), he i hi]
    have hm := cut_mono dim K (Nat.le_add_right i 1)
    rcases cut_size dim K i with h1 | h1
    · left; omega
    · right; omega
  · intro i hi
    have hlen : (kRange (rangeStart dim K i) (rangeEnd dim K i)).length =
        (rangeEnd dim K i - rangeStart dim K i).toNat := by simp [kRange]
    rw [hlen, hs i (Nat.le_of_lt hi), he i hi]
    have hm := cut_mono dim K (Nat.le_add_right i 1)
    rcases cut_size dim K i with h1 | h1
    · left; omega
    · right; omega
  · rw [hs (K - 1) (by omega), he (K - 1) (by omega)]
    have hm := cut_mono dim K (Nat.le_add_right (K - 1) 1)
    have := cut_last_size dim K hK
    omega

/-- Witness of the amended C10 on a 4 × 4 board with six workers. -/
theorem range_sizes_balanced_witness :
    4 * 4 < 2 ^ 31 ∧ 1 ≤ 6 ∧ 6 < 2 ^ 31 ∧
    ((∀ i, i < 6 →
      rangeEnd 4 6 i - rangeStart 4 6 i = ((4 * 4 / 6 : Nat) : Int) ∨
      rangeEnd 4 6 i - rangeStart 4 6 i = ((4 * 4 / 6 + 1 : Nat) : Int)) ∧
    (∀ i, i < 6 → (kRange (rangeStart 4 6 i) (rangeEnd 4 6 i)).length = 4 * 4 / 6 ∨
      (kRange (rangeStart 4 6 i) (rangeEnd 4 6 i)).length = 4 * 4 / 6 + 1) ∧
    rangeEnd 4 6 (6 - 1) - rangeStart 4 6 (6 - 1) =
      ((4 * 4 / 6 + (if 4 * 4 % 6 = 0 then 0 else 1) : Nat) : Int)) :=
  ⟨by decide, by decide, by decide,
    range_sizes_balanced 4 6 (by decide) (by decide) (by decide)⟩

end Multi

/-! ## readDict -/

theorem readLine_foldl (line : Str) :
    ∀ (cw : Str) (pd : List Str),
      (line.foldl
        (fun (st : Str × List Str) ch =>
          (st.1 ++ [ch.toLower], setInsert st.2 (st.1 ++ [ch.toLower])))
        (cw, pd)).1 = cw ++ line.map Char.toLower ∧
      ∀ s, s ∈ (line.foldl
        (fun (st : Str × List Str) ch =>
          (st.1 ++ [ch.toLower], setInsert st.2 (st.1 ++ [ch.toLower])))
        (cw, pd)).2 ↔
        s ∈ pd ∨ ∃ t, t ≠ [] ∧ t <+: line.map Char.toLower ∧ s = cw ++ t := by
  induction line with
  | nil =>
    intro cw pd
    refine ⟨by simp, fun s => ?_⟩
    simp only [List.foldl_nil, List.map_nil, List.prefix_nil]
    constructor
    · intro h; exact Or.inl h
    · rintro (h | ⟨t, h1, h2, _⟩)
      · exact h
      · exact absurd h2 h1
  | cons ch rest ih =>
    intro cw pd
    obtain ⟨ih1, ih2⟩ := ih (cw ++ [ch.toLower]) (setInsert pd (cw ++ [ch.toLower]))
    refine ⟨by simp only [List.foldl_cons, ih1]; simp, fun s => ?_⟩
    simp only [List.foldl_cons, ih2, mem_setInsert, List.map_cons]
    constructor
    · rintro ((h | h) | ⟨t, _, h2, h3⟩)
      · exact Or.inl h
      · exact Or.inr ⟨[ch.toLower], by simp, by simp, h⟩
      · refine Or.inr ⟨ch.toLower :: t, by simp, ?_, by simp [h3]⟩
        exact (List.prefix_cons_inj _).2 h2
    · rintro (h | ⟨t, h1, h2, h3⟩)
      · exact Or.inl (Or.inl h)
      · cases t with
        | nil => exact absurd rfl h1
        | cons a t =>
          obtain ⟨rfl, h2'⟩ := List.cons_prefix_cons.1 h2
          cases t with
          | nil => exact Or.inl (Or.inr h3)
          | cons b t => exact Or.inr ⟨b :: t, by simp, h2', by simp [h3]⟩

theorem readLine_fst (line : Str) (pd : List Str) :
    (readLine line pd).1 = line.map Char.toLower := by
  have h := (readLine_foldl line [] pd).1
  simpa [readLine] using h

theorem mem_readLine (line : Str) (pd : List Str) (s : Str) :
    s ∈ (readLine line pd).2 ↔ s ∈ pd ∨ (s ≠ [] ∧ s <+: line.map Char.toLower) := by
  have h := (readLine_foldl line [] pd).2 s
  unfold readLine
  rw [h]
  constructor
  · rintro (h | ⟨t, h1, h2, h3⟩)
    · exact Or.inl h
    · simp only [List.nil_append] at h3
      subst h3
      exact Or.inr ⟨h1, h2⟩
  · rintro (h | ⟨h1, h2⟩)
    · exact Or.inl h
    · exact Or.inr ⟨s, h1, h2, by simp⟩

theorem readDict_foldl (lines : List Str) :
    ∀ (pd dict : List Str),
      (∀ s, s ∈ (lines.foldl
          (fun (st : List Str × List Str) line =>
            ((readLine line st.1).2, setInsert st.2 (readLine line st.1).1))
          (pd, dict)).1 ↔
        s ∈ pd ∨ ∃ line ∈ lines, s ≠ [] ∧ s <+: line.map Char.toLower) ∧
      (∀ w, w ∈ (lines.foldl
          (fun (st : List Str × List Str) line =>
            ((readLine line st.1).2, setInsert st.2 (readLine line st.1).1))
          (pd, dict)).2 ↔
        w ∈ dict ∨ ∃ line ∈ lines, w = line.map Char.toLower) := by
  induction lines with
  | nil => intro pd dict; simp
  | cons line rest ih =>
    intro pd dict
    obtain ⟨ih1, ih2⟩ := ih (readLine line pd).2 (setInsert dict (readLine line pd).1)
    constructor
    · intro s
      rw [List.foldl_cons, ih1]
      simp only [mem_readLine, List.mem_cons, exists_eq_or_imp]
      tauto
    · intro w
      rw [List.foldl_cons, ih2]
      simp only [mem_setInsert, readLine_fst, List.mem_cons, exists_eq_or_imp]
      tauto

theorem mem_readDict_prefixes (lines : List Str) (s : Str) :
    s ∈ (readDict (some lines) [] []).2.1 ↔
      ∃ line ∈ lines, s ≠ [] ∧ s <+: line.map Char.toLower := by
  have h := (readDict_foldl lines [] []).1 s
  simpa [readDict] using h

theorem mem_readDict_full (lines : List Str) (w : Str) :
    w ∈ (readDict (some lines) [] []).2.2 ↔ ∃ line ∈ lines, w = line.map Char.toLower := by
  have h := (readDict_foldl lines [] []).2 w
  simpa [readDict] using h

/-- C8 as stated fails for the empty string: after reading the one-word list
`cat`, the word `cat` of the full-word set begins with the empty string, but
the empty string is not in the prefix set. -/
theorem empty_prefix_not_indexed :
    ¬ (([] : Str) ∈ (readDict (some ["cat".toList]) [] []).2.1 ↔
        ∃ w ∈ (readDict (some ["cat".toList]) [] []).2.2, ([] : Str) <+: w) := by
  intro h
  have h1 : ([] : Str) ∉ (readDict (some ["cat".toList]) [] []).2.1 := by decide
  exact h1 (h.2 ⟨"cat".toList, by decide, List.nil_prefix⟩)

/-- C8, amended.  After `readDict` has read a word list into empty sets it
returns 1, a string is in the prefix set if and only if it is non-empty and
some word of the full-word set begins with it (it may be that word itself),
and the full-word set is exactly the set of lower-cased lines of the list. -/
theorem readDict_sets (lines : List Str) :
    (readDict (some lines) [] []).1 = 1 ∧
    (∀ s, s ∈ (readDict (some lines) [] []).2.1 ↔
      s ≠ [] ∧ ∃ w ∈ (readDict (some lines) [] []).2.2, s <+: w) ∧
    (∀ w, w ∈ (readDict (some lines) [] []).2.2 ↔
      ∃ line ∈ lines, w = line.map Char.toLower) := by
  refine ⟨rfl, fun s => ?_, mem_readDict_full lines⟩
  rw [mem_readDict_prefixes]
  constructor
  · rintro ⟨line, hl, hs, hp⟩
    exact ⟨hs, line.map Char.toLower, (mem_readDict_full lines _).2 ⟨line, hl, rfl⟩, hp⟩
  · rintro ⟨hs, w, hw, hp⟩
    obtain ⟨line, hl, rfl⟩ := (mem_readDict_full lines w).1 hw
    exact ⟨line, hl, hs, hp⟩

/-! ## Reading and writing cells -/

theorem length_setAt (g : Grid) (r c : Nat) (ch : Char) : (g.setAt r c ch).length = g.length := by
  simp [Grid.setAt]

theorem getD_setAt (g : Grid) (r c r' : Nat) (ch : Char) :
    (g.setAt r c ch).getD r' [] = if r' = r then (g.getD r []).set c ch else g.getD r' [] := by
  unfold Grid.setAt
  by_cases h : r' = r
  · subst h
    by_cases hr : r' < g.length
    · simp [List.getD_eq_getElem?_getD, List.getElem?_set, hr]
    · have hr' : g.length ≤ r' := Nat.le_of_not_lt hr
      simp [List.getD_eq_getElem?_getD, List.getElem?_set, hr,
        List.getElem?_eq_none hr']
  · have h' : r ≠ r' := fun e => h e.symm
    simp [List.getD_eq_getElem?_getD, List.getElem?_set, h, h']

theorem rowLength_setAt (g : Grid) (r c r' : Nat) (ch : Char) :
    ((g.setAt r c ch).getD r' []).length = (g.getD r' []).length := by
  rw [getD_setAt]
  split
  · subst_vars; simp
  · rfl

theorem cellAt_setAt_ne (g : Grid) (r c r' c' : Nat) (ch : Char) (h : ¬ (r' = r ∧ c' = c)) :
    (g.setAt r c ch).cellAt r' c' = g.cellAt r' c' := by
  unfold Grid.cellAt
  rw [getD_setAt]
  split
  · subst_vars
    have hc : c ≠ c' := fun e => h ⟨rfl, e.symm⟩
    simp [List.getD_eq_getElem?_getD, List.getElem?_set, hc]
  · rfl

theorem cellAt_setAt_eq (g : Grid) (r c : Nat) (ch : Char)
    (hc : c < (g.getD r []).length) : (g.setAt r c ch).cellAt r c = ch := by
  unfold Grid.cellAt
  rw [getD_setAt]
  rw [List.getD_eq_getElem?_getD] at hc
  simp [List.getD_eq_getElem?_getD, List.getElem?_set, hc]

theorem inRange_of_cellAt_ne (g : Grid) (r c : Nat) (h : g.cellAt r c ≠ GRID_OOB) :
    r < g.length ∧ c < (g.getD r []).length := by
  unfold Grid.cellAt at h
  have hc : c < (g.getD r []).length := by
    by_contra hc
    exact h (List.getD_eq_default _ _ (Nat.le_of_not_lt hc))
  refine ⟨?_, hc⟩
  by_contra hr
  rw [List.getD_eq_default _ _ (Nat.le_of_not_lt hr)] at hc
  simp at hc

theorem isAlpha_ne_oob {c : Char} (h : c.isAlpha = true) : c ≠ GRID_OOB := by
  rintro rfl
  revert h
  decide

theorem isAlpha_ne_used {c : Char} (h : c.isAlpha = true) : c ≠ GRID_USED := by
  rintro rfl
  revert h
  decide

theorem used_ne_oob : GRID_USED ≠ GRID_OOB := by decide

theorem column_length (g : Grid) (i : Nat) : (column g i).length = g.length := by
  simp [column]

theorem column_getD (g : Grid) (i r : Nat) : (column g i).getD r GRID_OOB = g.cellAt r i := by
  unfold column Grid.cellAt
  by_cases hr : r < g.length
  · simp [List.getD_eq_getElem?_getD, List.getElem?_map, List.getElem?_eq_getElem hr]
  · have hr' : g.length ≤ r := Nat.le_of_not_lt hr
    simp [List.getD_eq_getElem?_getD, List.getElem?_eq_none hr']

theorem column_setAt_ne (g : Grid) (r c i : Nat) (ch : Char) (h : c ≠ i) :
    column (g.setAt r c ch) i = column g i := by
  apply List.ext_getElem
  · simp [column_length, length_setAt]
  · intro n h1 h2
    have e1 := column_getD (g.setAt r c ch) i n
    have e2 := column_getD g i n
    rw [List.getD_eq_getElem _ _ h1] at e1
    rw [List.getD_eq_getElem _ _ h2] at e2
    rw [e1, e2]
    exact cellAt_setAt_ne g r c n i ch (fun hh => h hh.2.symm)

theorem column_setAt_eq (g : Grid) (r c : Nat) (ch : Char)
    (hc : c < (g.getD r []).length) :
    column (g.setAt r c ch) c = (column g c).set r ch := by
  apply List.ext_getElem
  · simp [column_length, length_setAt]
  · intro n h1 h2
    have e1 := column_getD (g.setAt r c ch) c n
    rw [List.getD_eq_getElem _ _ h1] at e1
    rw [e1, List.getElem_set]
    split
    · rename_i heq
      subst heq
      exact cellAt_setAt_eq g r c ch hc
    · rename_i hne
      have h3 : n < (column g c).length := by simpa using h2
      have e2 := column_getD g c n
      rw [List.getD_eq_getElem _ _ h3] at e2
      rw [e2]
      exact cellAt_setAt_ne g r c n c ch (fun hh => hne hh.1.symm)

/-! ## The swap of `adjustGrid` -/

theorem length_swapDown (g : Grid) (j i : Nat) : (swapDown g j i).length = g.length := by
  simp [swapDown, length_setAt]

theorem column_swapDown_ne (g : Grid) (j i c : Nat) (h : i ≠ c) :
    column (swapDown g j i) c = column g c := by
  unfold swapDown
  rw [column_setAt_ne _ _ _ _ _ h, column_setAt_ne _ _ _ _ _ h]

theorem column_swapDown_eq (g : Grid) (j i : Nat)
    (ha : g.cellAt j i ≠ GRID_OOB) (hb : g.cellAt (j + 1) i ≠ GRID_OOB) :
    column (swapDown g j i) i =
      ((column g i).set j (g.cellAt (j + 1) i)).set (j + 1) (g.cellAt j i) := by
  unfold swapDown
  have h1 := (inRange_of_cellAt_ne g j i ha).2
  have h2 := (inRange_of_cellAt_ne g (j + 1) i hb).2
  rw [column_setAt_eq _ _ _ _ (by rw [rowLength_setAt]; exact h2), column_setAt_eq _ _ _ _ h1]

theorem swap_decomp {α : Type} (d a b : α) :
    ∀ (l : List α) (j : Nat), j + 1 < l.length → l.getD j d = a → l.getD (j + 1) d = b →
      ∃ pre post, pre.length = j ∧ l = pre ++ a :: b :: post ∧
        (l.set j b).set (j + 1) a = pre ++ b :: a :: post := by
  intro l
  induction l with
  | nil => intro j h; simp at h
  | cons x t ih =>
    intro j hj h1 h2
    cases j with
    | zero =>
      cases t with
      | nil => simp at hj
      | cons y t' =>
        simp only [List.getD_cons_zero, List.getD_cons_succ] at h1 h2
        subst h1 h2
        exact ⟨[], t', rfl, rfl, rfl⟩
    | succ j =>
      simp only [List.getD_cons_succ] at h1 h2
      obtain ⟨pre, post, hl, he, hs⟩ := ih j (by simpa using hj) h1 h2
      refine ⟨x :: pre, post, by simp [hl], by rw [he]; rfl, ?_⟩
      simp only [List.set_cons_succ, hs, List.cons_append]

theorem potential_cons (c : Char) (t : List Char) :
    potential (c :: t) = (if c.isAlpha then t.length + 1 else 0) + potential t := rfl

theorem potential_swap (a : Char) (ha : a.isAlpha = true) (post : List Char) :
    ∀ pre : List Char,
      potential (pre ++ a :: GRID_USED :: post) =
        potential (pre ++ GRID_USED :: a :: post) + 1 := by
  have hu : GRID_USED.isAlpha = false := by decide
  intro pre
  induction pre with
  | nil => simp [potential, ha, hu]; omega
  | cons x t ih =>
    have hl : (t ++ a :: GRID_USED :: post).length = (t ++ GRID_USED :: a :: post).length := by
      simp
    rw [List.cons_append, List.cons_append, potential_cons, potential_cons, ih, hl]
    omega

theorem potential_le (l : List Char) : potential l ≤ l.length * l.length := by
  induction l with
  | nil => simp [potential]
  | cons c t ih =>
    simp only [potential, List.length_cons]
    have : (t.length + 1) * (t.length + 1) = t.length * t.length + 2 * t.length + 1 := by ring
    split <;> omega

theorem swapDown_column (g : Grid) (j i : Nat) (ha : (g.cellAt j i).isAlpha = true)
    (hb : g.cellAt (j + 1) i = GRID_USED) :
    ∃ pre post, pre.length = j ∧
      column g i = pre ++ g.cellAt j i :: GRID_USED :: post ∧
      column (swapDown g j i) i = pre ++ GRID_USED :: g.cellAt j i :: post := by
  have hb' : g.cellAt (j + 1) i ≠ GRID_OOB := by rw [hb]; exact used_ne_oob
  have hlen : j + 1 < (column g i).length := by
    rw [column_length]; exact (inRange_of_cellAt_ne g (j + 1) i hb').1
  obtain ⟨pre, post, h1, h2, h3⟩ :=
    swap_decomp GRID_OOB (g.cellAt j i) GRID_USED (column g i) j hlen
      (column_getD g i j) (by rw [column_getD, hb])
  refine ⟨pre, post, h1, h2, ?_⟩
  rw [column_swapDown_eq g j i (isAlpha_ne_oob ha) hb', hb]
  exact h3

theorem potential_swapDown (g : Grid) (j i : Nat) (ha : (g.cellAt j i).isAlpha = true)
    (hb : g.cellAt (j + 1) i = GRID_USED) :
    potential (column g i) = potential (column (swapDown g j i) i) + 1 := by
  obtain ⟨pre, post, _, h2, h3⟩ := swapDown_column g j i ha hb
  rw [h2, h3]
  exact potential_swap _ ha post pre

/-! ## The column loop of `adjustGrid` -/

theorem settleColumn_length :
    ∀ (fuel : Nat) (g : Grid) (i j : Nat) (g' : Grid),
      settleColumn fuel g i j = some g' → g'.length = g.length := by
  intro fuel
  induction fuel with
  | zero => intro g i j g' h; simp [settleColumn] at h
  | succ fuel ih =>
    intro g i j g' h
    unfold settleColumn at h
    split at h
    · split at h
      · rw [ih _ _ _ _ h, length_swapDown]
      · exact ih _ _ _ _ h
    · simp at h; rw [h]

theorem settleColumn_other :
    ∀ (fuel : Nat) (g : Grid) (i j : Nat) (g' : Grid),
      settleColumn fuel g i j = some g' → ∀ c, i ≠ c → column g' c = column g c := by
  intro fuel
  induction fuel with
  | zero => intro g i j g' h; simp [settleColumn] at h
  | succ fuel ih =>
    intro g i j g' h c hc
    unfold settleColumn at h
    split at h
    · split at h
      · rw [ih _ _ _ _ h c hc, column_swapDown_ne g j i c hc]
      · exact ih _ _ _ _ h c hc
    · simp at h; rw [h]

theorem settleColumn_settled :
    ∀ (fuel : Nat) (g : Grid) (i j : Nat) (g' : Grid),
      settleColumn fuel g i j = some g' →
      (∀ j', j' < j → ¬ ((g.cellAt j' i).isAlpha = true ∧ g.cellAt (j' + 1) i = GRID_USED)) →
      ColumnSettled g' i := by
  intro fuel
  induction fuel with
  | zero => intro g i j g' h; simp [settleColumn] at h
  | succ fuel ih =>
    intro g i j g' h hinv
    unfold settleColumn at h
    split at h
    · split at h
      · exact ih _ _ _ _ h (fun j' hj' => absurd hj' (Nat.not_lt_zero _))
      · rename_i hsw
        refine ih _ _ _ _ h (fun j' hj' => ?_)
        rcases Nat.lt_succ_iff_lt_or_eq.1 hj' with h1 | h1
        · exact hinv j' h1
        · subst h1
          intro hh
          apply hsw
          simp [hh.1, hh.2]
    · rename_i hj
      simp at h
      subst h
      intro j' hj' 
      exact hinv j' (by omega)

theorem settleColumn_total :
    ∀ (fuel : Nat) (g : Grid) (i j : Nat),
      potential (column g i) * (g.length + 1) + (g.length - j) < fuel →
      ∃ g', settleColumn fuel g i j = some g' := by
  intro fuel
  induction fuel with
  | zero => intro g i j h; omega
  | succ fuel ih =>
    intro g i j h
    unfold settleColumn
    split
    · rename_i hj
      split
      · rename_i hsw
        simp only [Bool.and_eq_true, beq_iff_eq] at hsw
        have hp := potential_swapDown g j i hsw.1 hsw.2
        apply ih
        rw [length_swapDown]
        rw [hp] at h
        have : (potential (column (swapDown g j i) i) + 1) * (g.length + 1) =
            potential (column (swapDown g j i) i) * (g.length + 1) + (g.length + 1) := by ring
        omega
      · apply ih
        omega
    · exact ⟨g, rfl⟩

theorem settleColumn_det :
    ∀ (f1 f2 : Nat) (g : Grid) (i j : Nat) (a b : Grid),
      settleColumn f1 g i j = some a → settleColumn f2 g i j = some b → a = b := by
  intro f1
  induction f1 with
  | zero => intro f2 g i j a b h; simp [settleColumn] at h
  | succ f1 ih =>
    intro f2 g i j a b h1 h2
    cases f2 with
    | zero => simp [settleColumn] at h2
    | succ f2 =>
      unfold settleColumn at h1 h2
      split at h1
      · rename_i hj
        rw [if_pos hj] at h2
        split at h1
        · rename_i hsw
          rw [if_pos hsw] at h2
          exact ih _ _ _ _ _ _ h1 h2
        · rename_i hsw
          rw [if_neg hsw] at h2
          exact ih _ _ _ _ _ _ h1 h2
      · rename_i hj
        rw [if_neg hj] at h2
        simp at h1 h2
        rw [← h1, ← h2]

/-! ## adjustGrid -/

theorem settleColumns_length (fuel : Nat) :
    ∀ (cols : List Nat) (g g' : Grid), settleColumns fuel g cols = some g' →
      g'.length = g.length := by
  intro cols
  induction cols with
  | nil => intro g g' h; simp [settleColumns] at h; rw [h]
  | cons i cols ih =>
    intro g g' h
    unfold settleColumns at h
    split at h
    · simp at h
    · rename_i g1 h1
      rw [ih _ _ h, settleColumn_length _ _ _ _ _ h1]

theorem settleColumns_det (f1 f2 : Nat) :
    ∀ (cols : List Nat) (g a b : Grid), settleColumns f1 g cols = some a →
      settleColumns f2 g cols = some b → a = b := by
  intro cols
  induction cols with
  | nil => intro g a b h1 h2; simp [settleColumns] at h1 h2; rw [← h1, ← h2]
  | cons i cols ih =>
    intro g a b h1 h2
    unfold settleColumns at h1 h2
    split at h1
    · simp at h1
    · rename_i g1 e1
      split at h2
      · simp at h2
      · rename_i g2 e2
        have := settleColumn_det _ _ _ _ _ _ _ e1 e2
        subst this
        exact ih _ _ _ h1 h2

theorem settleColumns_total (fuel : Nat) :
    ∀ (cols : List Nat) (g : Grid), settleFuel g.length ≤ fuel →
      ∃ g', settleColumns fuel g cols = some g' := by
  intro cols
  induction cols with
  | nil => intro g _; exact ⟨g, rfl⟩
  | cons i cols ih =>
    intro g hf
    have hp := potential_le (column g i)
    rw [column_length] at hp
    obtain ⟨g1, h1⟩ := settleColumn_total fuel g i 0 (by
      unfold settleFuel at hf
      have := Nat.mul_le_mul_right (g.length + 1) hp
      have e : (g.length * g.length + 1) * (g.length + 1) =
        g.length * g.length * (g.length + 1) + (g.length + 1) := by ring
      omega)
    have hl := settleColumn_length _ _ _ _ _ h1
    obtain ⟨g2, h2⟩ := ih g1 (by rw [hl]; exact hf)
    exact ⟨g2, by unfold settleColumns; rw [h1]; exact h2⟩

theorem columnSettled_congr (g g' : Grid) (i : Nat) (hl : g'.length = g.length)
    (hc : column g' i = column g i) (h : ColumnSettled g i) : ColumnSettled g' i := by
  intro j hj
  rw [← column_getD g' i j, ← column_getD g' i (j + 1), hc, column_getD, column_getD]
  exact h j (by rw [← hl]; exact hj)

theorem settleColumns_settled (fuel : Nat) :
    ∀ (cols : List Nat) (g g' : Grid), cols.Nodup → settleColumns fuel g cols = some g' →
      (∀ i ∈ cols, ColumnSettled g' i) ∧ (∀ c, c ∉ cols → column g' c = column g c) := by
  intro cols
  induction cols with
  | nil =>
    intro g g' _ h
    simp [settleColumns] at h
    subst h
    simp
  | cons i cols ih =>
    intro g g' hnd h
    unfold settleColumns at h
    split at h
    · simp at h
    · rename_i g1 h1
      obtain ⟨hi, hnd'⟩ := List.nodup_cons.1 hnd
      obtain ⟨ih1, ih2⟩ := ih g1 g' hnd' h
      constructor
      · intro c hc
        rcases List.mem_cons.1 hc with rfl | hc
        · have hs := settleColumn_settled _ _ _ _ _ h1 (fun j' hj' => absurd hj' (Nat.not_lt_zero _))
          exact columnSettled_congr g1 g' c (settleColumns_length _ _ _ _ h) (ih2 c hi) hs
        · exact ih1 c hc
      · intro c hc
        simp only [List.mem_cons, not_or] at hc
        rw [ih2 c hc.2]
        exact settleColumn_other _ _ _ _ _ h1 c (fun e => hc.1 e.symm)

theorem length_writeCell (g : Grid) (x y : Int) (ch : Char) :
    (writeCell g x y ch).length = g.length := by
  unfold writeCell
  split
  · exact length_setAt _ _ _ _
  · rfl

theorem markPath_length (pts : List Point) :
    ∀ g : Grid, (markPath g pts).length = g.length := by
  induction pts with
  | nil => intro g; rfl
  | cons p pts ih =>
    intro g
    simp only [markPath, List.foldl_cons]
    have := ih (writeCell g p.x p.y GRID_USED)
    simp only [markPath] at this
    rw [this, length_writeCell]

theorem adjustGrid_length (fuel : Nat) (grid : Grid) (path : Path) (g' : Grid)
    (h : adjustGrid fuel grid path = some g') : g'.length = grid.length := by
  unfold adjustGrid at h
  rw [settleColumns_length _ _ _ _ h, markPath_length]

theorem adjustGrid_det (f1 f2 : Nat) (grid : Grid) (path : Path) (a b : Grid)
    (h1 : adjustGrid f1 grid path = some a) (h2 : adjustGrid f2 grid path = some b) : a = b :=
  settleColumns_det f1 f2 _ _ _ _ h1 h2

theorem adjustGrid_total (fuel : Nat) (grid : Grid) (path : Path)
    (hf : settleFuel grid.length ≤ fuel) : ∃ g', adjustGrid fuel grid path = some g' := by
  unfold adjustGrid
  exact settleColumns_total fuel _ _ (by rw [markPath_length]; exact hf)

/-- C4.  For every grid and every path, `adjustGrid` returns a grid as soon
as its step budget is `settleFuel grid.size()`, and in the returned grid no
column has an empty cell directly below a letter: for every column `i` and
every row `j` with `j + 1` inside the grid, it is not the case that cell
`(j, i)` holds a letter and cell `(j + 1, i)` is empty. -/
theorem adjustGrid_settled (grid : Grid) (path : Path) (fuel : Nat)
    (hf : settleFuel grid.length ≤ fuel) :
    ∃ g', adjustGrid fuel grid path = some g' ∧ g'.length = grid.length ∧
      ∀ i j, i < g'.length → j + 1 < g'.length →
        ¬ ((g'.cellAt j i).isAlpha = true ∧ g'.cellAt (j + 1) i = GRID_USED) := by
  obtain ⟨g', h⟩ := adjustGrid_total fuel grid path hf
  have hl := adjustGrid_length _ _ _ _ h
  refine ⟨g', h, hl, fun i j hi hj => ?_⟩
  unfold adjustGrid at h
  have hs := (settleColumns_settled fuel _ _ _ (List.nodup_range _) h).1 i
    (by rw [List.mem_range, ← hl]; exact hi)
  exact hs j hj

/-- Witness of C4: the letter `t` is played on the board `ca / ts`. -/
theorem adjustGrid_settled_witness :
    settleFuel ([['c', 'a'], ['t', 's']] : Grid).length ≤ 16 ∧
    ∃ g', adjustGrid 16 [['c', 'a'], ['t', 's']] ⟨[⟨1, 0⟩], ['t']⟩ = some g' ∧
      g'.length = ([['c', 'a'], ['t', 's']] : Grid).length ∧
      ∀ i j, i < g'.length → j + 1 < g'.length →
        ¬ ((g'.cellAt j i).isAlpha = true ∧ g'.cellAt (j + 1) i = GRID_USED) :=
  ⟨by decide, adjustGrid_settled _ _ 16 (by decide)⟩

/-! ## Pushing onto the stack -/

theorem foldl_push_append {α β : Type} (f : β → List α → List α)
    (hf : ∀ b a st, f b (a ++ st) = f b a ++ st) (bs : List β) :
    ∀ a st, bs.foldl (fun s b => f b s) (a ++ st) = bs.foldl (fun s b => f b s) a ++ st := by
  induction bs with
  | nil => intro a st; rfl
  | cons b bs ih =>
    intro a st
    simp only [List.foldl_cons]
    rw [hf, ih]

theorem mem_foldl_push {α β : Type} (f : β → List α → List α)
    (hf : ∀ b a st, f b (a ++ st) = f b a ++ st) (bs : List β) :
    ∀ a x, x ∈ bs.foldl (fun s b => f b s) a ↔ x ∈ a ∨ ∃ b ∈ bs, x ∈ f b [] := by
  induction bs with
  | nil => intro a x; simp
  | cons b bs ih =>
    intro a x
    simp only [List.foldl_cons]
    rw [ih]
    have e : f b a = f b [] ++ a := by
      have := hf b [] a
      simpa using this
    rw [e]
    simp only [List.mem_append, List.mem_cons, exists_eq_or_imp]
    tauto

theorem length_foldl_push {α β : Type} (f : β → List α → List α) (k : Nat)
    (hf : ∀ b a, (f b a).length ≤ a.length + k) (bs : List β) :
    ∀ a, (bs.foldl (fun s b => f b s) a).length ≤ a.length + bs.length * k := by
  induction bs with
  | nil => intro a; simp
  | cons b bs ih =>
    intro a
    simp only [List.foldl_cons, List.length_cons]
    have h1 := ih (f b a)
    have h2 := hf b a
    have : (bs.length + 1) * k = bs.length * k + k := by ring
    omega

/-! ## The stack loop -/

theorem reach_eq_of_size {kids : Path → List Path} {pd : List Str} {L : Int} {p q : Path}
    (hs : (p.size : Int) = L) (h : Reach kids pd L p q) : q = p := by
  cases h with
  | here => rfl
  | step h1 _ _ _ => exact absurd hs h1

theorem yield_of_size_eq {kids : Path → List Path} {pd dict : List Str} {L : Int} {grid : Grid}
    {N : Grid → List Str → List Str → Prop} {cw : List Str} {p : Path} {seq : List Str}
    (hs : (p.size : Int) = L) :
    Yield kids pd dict L grid N cw p seq ↔
      p.word ∈ dict ∧ ∃ fuel g', adjustGrid fuel grid p = some g' ∧ N g' (cw ++ [p.word]) seq := by
  constructor
  · rintro ⟨q, hr, _, hd, hn⟩
    have := reach_eq_of_size hs hr
    subst this
    exact ⟨hd, hn⟩
  · rintro ⟨hd, hn⟩
    exact ⟨p, Reach.here p, hs, hd, hn⟩

theorem yield_of_size_ne {kids : Path → List Path} {pd dict : List Str} {L : Int} {grid : Grid}
    {N : Grid → List Str → List Str → Prop} {cw : List Str} {p : Path} {seq : List Str}
    (hs : (p.size : Int) ≠ L) :
    Yield kids pd dict L grid N cw p seq ↔
      p.word ∈ pd ∧ ∃ c ∈ kids p, Yield kids pd dict L grid N cw c seq := by
  constructor
  · rintro ⟨q, hr, hq, hd, hn⟩
    cases hr with
    | here => exact absurd hq hs
    | step _ h2 h3 h4 => exact ⟨h2, _, h3, q, h4, hq, hd, hn⟩
  · rintro ⟨hp, c, hc, q, hr, hq, hd, hn⟩
    exact ⟨q, Reach.step hs hp hc hr, hq, hd, hn⟩

theorem searchLoop_spec (next : Grid → List Str → Found → Option Found)
    (expand : Path → List Path → List Path) (kids : Path → List Path) (L : Int) (grid : Grid)
    (pd dict : List Str) (cw : List Str) (N : Grid → List Str → List Str → Prop)
    (hexp : ∀ cur st, expand cur st = kids cur ++ st)
    (hnext : ∀ g w f r, next g (cw ++ [w]) f = some r →
      ∀ seq, seq ∈ r ↔ seq ∈ f ∨ N g (cw ++ [w]) seq) :
    ∀ (fuel : Nat) (st : List Path) (found r : Found),
      searchLoop next expand L grid pd dict cw fuel st found = some r →
      ∀ seq, seq ∈ r ↔ seq ∈ found ∨ ∃ p ∈ st, Yield kids pd dict L grid N cw p seq := by
  intro fuel
  induction fuel with
  | zero => intro st found r h; simp [searchLoop] at h
  | succ fuel ih =>
    intro st found r h seq
    cases st with
    | nil =>
      simp only [searchLoop, Option.some.injEq] at h
      subst h
      simp
    | cons cur st =>
      simp only [searchLoop] at h
      simp only [List.mem_cons, exists_eq_or_imp]
      split at h
      · rename_i hs
        rw [yield_of_size_eq hs]
        split at h
        · rename_i hd
          split at h
          · simp at h
          · rename_i g' hg
            split at h
            · simp at h
            · rename_i f' hf
              rw [ih _ _ _ h seq, hnext _ _ _ _ hf seq]
              constructor
              · rintro ((h1 | h1) | h1)
                · exact Or.inl h1
                · exact Or.inr (Or.inl ⟨hd, fuel, g', hg, h1⟩)
                · exact Or.inr (Or.inr h1)
              · rintro (h1 | ⟨_, f2, g2, hg2, h1⟩ | h1)
                · exact Or.inl (Or.inl h1)
                · have := adjustGrid_det _ _ _ _ _ _ hg hg2
                  subst this
                  exact Or.inl (Or.inr h1)
                · exact Or.inr h1
        · rename_i hd
          rw [ih _ _ _ h seq]
          constructor
          · rintro (h1 | h1)
            · exact Or.inl h1
            · exact Or.inr (Or.inr h1)
          · rintro (h1 | ⟨h1, _⟩ | h1)
            · exact Or.inl h1
            · exact absurd h1 hd
            · exact Or.inr h1
      · rename_i hs
        rw [yield_of_size_ne hs]
        split at h
        · rename_i hp
          rw [ih _ _ _ h seq, hexp]
          simp only [List.mem_append]
          constructor
          · rintro (h1 | ⟨p, hp1 | hp1, hy⟩)
            · exact Or.inl h1
            · exact Or.inr (Or.inl ⟨hp, p, hp1, hy⟩)
            · exact Or.inr (Or.inr ⟨p, hp1, hy⟩)
          · rintro (h1 | ⟨_, c, hc, hy⟩ | ⟨p, hp1, hy⟩)
            · exact Or.inl h1
            · exact Or.inr ⟨c, Or.inl hc, hy⟩
            · exact Or.inr ⟨p, Or.inr hp1, hy⟩
        · rename_i hp
          rw [ih _ _ _ h seq]
          constructor
          · rintro (h1 | h1)
            · exact Or.inl h1
            · exact Or.inr (Or.inr h1)
          · rintro (h1 | ⟨h1, _⟩ | h1)
            · exact Or.inl h1
            · exact absurd h1 hp
            · exact Or.inr h1

/-! ## The recursion over the stages -/

theorem sol_iff (kids : Grid → Path → List Path) (seeds : Grid → List Path)
    (lengths : List Int) (pd dict : List Str) (idx : Nat) (grid : Grid) (cw seq : List Str) :
    Sol kids seeds lengths pd dict idx grid cw seq ↔
      StageFrom (kids grid) (seeds grid) lengths pd dict
        (Sol kids seeds lengths pd dict (idx + 1)) idx grid cw seq := by
  constructor
  · intro h
    cases h with
    | done h => exact Or.inl ⟨h, rfl⟩
    | word h1 h2 h3 h4 h5 h6 h7 h8 =>
      exact Or.inr ⟨h1, _, h2, _, h3, _, h4, h5, h6, _, _, h7, h8⟩
  · rintro (⟨h, rfl⟩ | ⟨h1, L, h2, p, h3, q, h4, h5, h6, fuel, g', h7, h8⟩)
    · exact Sol.done h
    · exact Sol.word h1 h2 h3 h4 h5 h6 h7 h8

theorem tryPush_append (grid : Grid) (cur : Path) (p : Point) (a st : List Path) :
    tryPush grid cur p (a ++ st) = tryPush grid cur p a ++ st := by
  unfold tryPush
  split <;> rfl

theorem pushNeighbours_eq (grid : Grid) (cur : Path) (st : List Path) :
    pushNeighbours grid cur st = kids grid cur ++ st := by
  unfold kids pushNeighbours
  cases cur.points.getLast? with
  | none => rfl
  | some loc =>
    simp only
    have h := foldl_push_append
      (fun (i : Int) (s : List Path) =>
        [(-1 : Int), 0, 1].foldl (fun s j => tryPush grid cur ⟨loc.x + i, loc.y + j⟩ s) s)
      (fun i a s => foldl_push_append
        (fun (j : Int) (s : List Path) => tryPush grid cur ⟨loc.x + i, loc.y + j⟩ s)
        (fun j a s => tryPush_append grid cur _ a s) _ a s)
      [(-1 : Int), 0, 1] [] st
    simpa using h

theorem pushIf_append (c : Bool) (grid : Grid) (cur : Path) (p : Point) (a st : List Path) :
    Multi.pushIf c grid cur p (a ++ st) = Multi.pushIf c grid cur p a ++ st := by
  unfold Multi.pushIf
  split <;> rfl

theorem multi_pushNeighbours_eq (grid : Grid) (cur : Path) (st : List Path) :
    Multi.pushNeighbours grid cur st = Multi.kids grid cur ++ st := by
  unfold Multi.kids Multi.pushNeighbours
  cases cur.points.getLast? with
  | none => rfl
  | some loc =>
    simp only
    rw [← List.nil_append st]
    simp only [pushIf_append]
    simp

theorem findPossibilities_spec (lengths : List Int) (pd dict : List Str) :
    ∀ (fuel idx : Nat) (grid : Grid) (cw : List Str) (found r : Found),
      findPossibilities fuel idx lengths grid pd dict cw found = some r →
      ∀ seq, seq ∈ r ↔ seq ∈ found ∨ Sol kids seedStack lengths pd dict idx grid cw seq := by
  intro fuel
  induction fuel with
  | zero => intro idx grid cw found r h; simp [findPossibilities] at h
  | succ fuel ih =>
    intro idx grid cw found r h seq
    rw [sol_iff]
    unfold findPossibilities at h
    unfold StageFrom
    split at h
    · rename_i hb
      simp only [Option.some.injEq] at h
      subst h
      rw [mem_setInsert]
      simp [hb]
    · rename_i hb
      split at h
      · simp at h
      · rename_i L hL
        have := searchLoop_spec _ _ (kids grid) L grid pd dict cw
          (Sol kids seedStack lengths pd dict (idx + 1))
          (pushNeighbours_eq grid)
          (fun g w f r hr => ih (idx + 1) g (cw ++ [w]) f r hr)
          _ _ _ _ h seq
        rw [this]
        rw [List.get?_eq_getElem?] at hL
        simp [hb, hL]

theorem multi_findPossibilities_spec (lengths : List Int) (pd dict : List Str) :
    ∀ (fuel idx : Nat) (grid : Grid) (cw : List Str) (found r : Found) (start finish : Int),
      Multi.findPossibilities fuel idx lengths grid pd dict cw found start finish = some r →
      ∀ seq, seq ∈ r ↔ seq ∈ found ∨
        StageFrom (Multi.kids grid) (Multi.seedStack grid start finish) lengths pd dict
          (Sol Multi.kids Multi.seedAll lengths pd dict (idx + 1)) idx grid cw seq := by
  intro fuel
  induction fuel with
  | zero => intro idx grid cw found r s e h; simp [Multi.findPossibilities] at h
  | succ fuel ih =>
    intro idx grid cw found r s e h seq
    unfold Multi.findPossibilities at h
    unfold StageFrom
    split at h
    · rename_i hb
      simp only [Option.some.injEq] at h
      subst h
      rw [mem_setInsert]
      simp [hb]
    · rename_i hb
      split at h
      · simp at h
      · rename_i L hL
        have := searchLoop_spec _ _ (Multi.kids grid) L grid pd dict cw
          (Sol Multi.kids Multi.seedAll lengths pd dict (idx + 1))
          (multi_pushNeighbours_eq grid)
          (fun g w f r hr seq => by
            rw [sol_iff]
            exact ih (idx + 1) g (cw ++ [w]) f r (-1) (-1) hr seq)
          _ _ _ _ h seq
        rw [this]
        rw [List.get?_eq_getElem?] at hL
        simp [hb, hL]

/-! ## The pushed neighbours and the seeds -/

theorem mem_kids (grid : Grid) (cur c : Path) :
    c ∈ kids grid cur ↔
      ∃ loc, cur.points.getLast? = some loc ∧
        ∃ i ∈ [(-1 : Int), 0, 1], ∃ j ∈ [(-1 : Int), 0, 1],
          canStep grid cur ⟨loc.x + i, loc.y + j⟩ = true ∧
          c = cur.extend ⟨loc.x + i, loc.y + j⟩ (readCell grid (loc.x + i) (loc.y + j)) := by
  unfold kids pushNeighbours
  cases cur.points.getLast? with
  | none => simp
  | some loc =>
    simp only [Option.some.injEq, exists_eq_left']
    rw [mem_foldl_push
      (fun (i : Int) (s : List Path) =>
        [(-1 : Int), 0, 1].foldl (fun s j => tryPush grid cur ⟨loc.x + i, loc.y + j⟩ s) s)
      (fun i a s => foldl_push_append
        (fun (j : Int) (s : List Path) => tryPush grid cur ⟨loc.x + i, loc.y + j⟩ s)
        (fun j a s => tryPush_append grid cur _ a s) _ a s)]
    simp only [List.not_mem_nil, false_or]
    refine exists_congr (fun i => and_congr_right (fun _ => ?_))
    rw [mem_foldl_push
      (fun (j : Int) (s : List Path) => tryPush grid cur ⟨loc.x + i, loc.y + j⟩ s)
      (fun j a s => tryPush_append grid cur _ a s)]
    simp only [List.not_mem_nil, false_or]
    refine exists_congr (fun j => and_congr_right (fun _ => ?_))
    unfold tryPush
    split <;> simp_all

theorem kids_length_le (grid : Grid) (cur : Path) : (kids grid cur).length ≤ 9 := by
  unfold kids pushNeighbours
  cases cur.points.getLast? with
  | none => simp
  | some loc =>
    have h := length_foldl_push
      (fun (i : Int) (s : List Path) =>
        [(-1 : Int), 0, 1].foldl (fun s j => tryPush grid cur ⟨loc.x + i, loc.y + j⟩ s) s) 3
      (fun i a => by
        have := length_foldl_push
          (fun (j : Int) (s : List Path) => tryPush grid cur ⟨loc.x + i, loc.y + j⟩ s) 1
          (fun j a => by simp only [tryPush]; split <;> simp) [(-1 : Int), 0, 1] a
        simpa using this)
      [(-1 : Int), 0, 1] []
    simpa using h

theorem trySeed_append (grid : Grid) (i j : Nat) (a st : List Path) :
    trySeed grid i j (a ++ st) = trySeed grid i j a ++ st := by
  unfold trySeed
  split <;> rfl

theorem mem_trySeed (grid : Grid) (i j : Nat) (p : Path) :
    p ∈ trySeed grid i j [] ↔
      grid.cellAt i j ≠ GRID_USED ∧ p = Path.single ⟨i, j⟩ (grid.cellAt i j) := by
  unfold trySeed
  split <;> simp_all

theorem mem_seedStack (grid : Grid) (p : Path) :
    p ∈ seedStack grid ↔
      ∃ i, i < grid.length ∧ ∃ j, j < grid.length ∧
        grid.cellAt i j ≠ GRID_USED ∧ p = Path.single ⟨i, j⟩ (grid.cellAt i j) := by
  unfold seedStack
  rw [mem_foldl_push
    (fun (i : Nat) (s : List Path) =>
      (List.range grid.length).foldl (fun s j => trySeed grid i j s) s)
    (fun i a s => foldl_push_append
      (fun (j : Nat) (s : List Path) => trySeed grid i j s)
      (fun j a s => trySeed_append grid i j a s) _ a s)]
  simp only [List.not_mem_nil, false_or, List.mem_range]
  refine exists_congr (fun i => and_congr_right (fun _ => ?_))
  rw [mem_foldl_push
    (fun (j : Nat) (s : List Path) => trySeed grid i j s)
    (fun j a s => trySeed_append grid i j a s)]
  simp only [List.not_mem_nil, false_or, List.mem_range, mem_trySeed]

theorem seedStack_length_le (grid : Grid) :
    (seedStack grid).length ≤ grid.length * grid.length := by
  unfold seedStack
  have h := length_foldl_push
    (fun (i : Nat) (s : List Path) =>
      (List.range grid.length).foldl (fun s j => trySeed grid i j s) s) grid.length
    (fun i a => by
      have := length_foldl_push
        (fun (j : Nat) (s : List Path) => trySeed grid i j s) 1
        (fun j a => by simp only [trySeed]; split <;> simp) (List.range grid.length) a
      simpa using this)
    (List.range grid.length) []
  simpa using h

theorem readCell_cast (grid : Grid) (i j : Nat) :
    readCell grid (i : Int) (j : Int) = grid.cellAt i j := by
  simp [readCell]

theorem canStep_iff (grid : Grid) (cur : Path) (p : Point) :
    canStep grid cur p = true ↔
      inGrid grid p ∧ readCell grid p.x p.y ≠ GRID_USED ∧ p ∉ cur.points := by
  unfold canStep inGrid Path.contains
  simp only [Bool.and_eq_true, decide_eq_true_eq, bne_iff_ne, ne_eq, Bool.not_eq_true',
    decide_eq_false_iff_not]
  tauto

/-! ## Paths of the search trace their words -/

theorem adjacent_offset (loc : Point) (i j : Int) (hi : i ∈ [(-1 : Int), 0, 1])
    (hj : j ∈ [(-1 : Int), 0, 1]) (hne : ¬ (i = 0 ∧ j = 0)) :
    adjacent loc ⟨loc.x + i, loc.y + j⟩ := by
  unfold adjacent
  simp only [List.mem_cons, List.mem_singleton, List.not_mem_nil, or_false] at hi hj
  show max (loc.x - (loc.x + i)).natAbs (loc.y - (loc.y + j)).natAbs = 1
  omega

theorem offset_of_adjacent (a b : Point) (h : adjacent a b) :
    ∃ i ∈ [(-1 : Int), 0, 1], ∃ j ∈ [(-1 : Int), 0, 1], b = ⟨a.x + i, a.y + j⟩ := by
  unfold adjacent at h
  refine ⟨b.x - a.x, ?_, b.y - a.y, ?_, ?_⟩
  · simp only [List.mem_cons, List.mem_singleton, List.not_mem_nil, or_false]
    omega
  · simp only [List.mem_cons, List.mem_singleton, List.not_mem_nil, or_false]
    omega
  · cases b
    simp

theorem tracesOn_single (grid : Grid) (i j : Nat) (hi : i < grid.length) (hj : j < grid.length)
    (hc : grid.cellAt i j ≠ GRID_USED) :
    TracesOn grid (Path.single ⟨i, j⟩ (grid.cellAt i j)) := by
  refine ⟨by simp [Path.single, Path.insert], by simp [Path.single, Path.insert], ?_,
    by simp [Path.single, Path.insert], by simp [Path.single, Path.insert, readCell_cast]⟩
  intro pt hpt
  simp only [Path.single, Path.insert, List.nil_append, List.mem_singleton] at hpt
  subst hpt
  refine ⟨⟨?_, ?_, ?_, ?_⟩, ?_⟩
  · exact Int.natCast_nonneg i
  · exact Int.ofNat_lt.2 hi
  · exact Int.natCast_nonneg j
  · exact Int.ofNat_lt.2 hj
  · rw [readCell_cast]; exact hc

theorem mem_of_getLast? {α : Type} {l : List α} {a : α} (h : l.getLast? = some a) : a ∈ l := by
  obtain ⟨ys, rfl⟩ := List.getLast?_eq_some_iff.1 h
  simp

theorem tracesOn_kid (grid : Grid) (cur c : Path) (ht : TracesOn grid cur)
    (hc : c ∈ kids grid cur) : TracesOn grid c := by
  obtain ⟨loc, hloc, i, hi, j, hj, hstep, rfl⟩ := (mem_kids grid cur c).1 hc
  obtain ⟨hin, hne, hnot⟩ := (canStep_iff grid cur _).1 hstep
  have hmem := mem_of_getLast? hloc
  have hij : ¬ (i = 0 ∧ j = 0) := by
    rintro ⟨rfl, rfl⟩
    apply hnot
    simpa using hmem
  refine ⟨by simp [Path.extend, Path.insert], ?_, ?_, ?_, ?_⟩
  · simp only [Path.extend, Path.insert]
    rw [List.nodup_append]
    refine ⟨ht.nodup, by simp, ?_⟩
    intro x hx hx'
    simp only [List.mem_singleton] at hx'
    subst hx'
    exact hnot hx
  · intro pt hpt
    simp only [Path.extend, Path.insert, List.mem_append, List.mem_singleton] at hpt
    rcases hpt with hpt | rfl
    · exact ht.inside pt hpt
    · exact ⟨hin, hne⟩
  · simp only [Path.extend, Path.insert]
    rw [List.chain'_append]
    refine ⟨ht.linked, by simp, ?_⟩
    intro x hx y hy
    rw [hloc] at hx
    simp only [Option.mem_def, Option.some.injEq] at hx
    simp only [List.head?_cons, Option.mem_def, Option.some.injEq] at hy
    subst hx hy
    exact adjacent_offset _ i j hi hj hij
  · simp only [Path.extend, Path.insert, List.map_append, List.map_cons, List.map_nil]
    rw [ht.spells]

theorem reach_tracesOn (grid : Grid) (pd : List Str) (L : Int) (p q : Path)
    (hr : Reach (kids grid) pd L p q) : TracesOn grid p → TracesOn grid q := by
  induction hr with
  | here => exact id
  | step _ _ hc _ ih => exact fun ht => ih (tracesOn_kid grid _ _ ht hc)

theorem reach_of_initial (grid : Grid) (pd : List Str) (L : Int) :
    ∀ (rest pre : List Point), pre ≠ [] →
      TracesOn grid ⟨pre ++ rest, (pre ++ rest).map (fun pt => readCell grid pt.x pt.y)⟩ →
      ((pre ++ rest).length : Int) = L →
      (∀ s : Str, s ≠ [] → s <+: (pre ++ rest).map (fun pt => readCell grid pt.x pt.y) →
        s ∈ pd) →
      Reach (kids grid) pd L ⟨pre, pre.map (fun pt => readCell grid pt.x pt.y)⟩
        ⟨pre ++ rest, (pre ++ rest).map (fun pt => readCell grid pt.x pt.y)⟩ := by
  intro rest
  induction rest with
  | nil =>
    intro pre _ _ _ _
    rw [List.append_nil]
    exact Reach.here _
  | cons pt rest ih =>
    intro pre hpre ht hL hpd
    have hassoc : pre ++ pt :: rest = (pre ++ [pt]) ++ rest := by simp
    obtain ⟨loc, hloc⟩ : ∃ loc, pre.getLast? = some loc := by
      cases h : pre.getLast? with
      | none => exact absurd (List.getLast?_eq_none_iff.1 h) hpre
      | some loc => exact ⟨loc, rfl⟩
    have hnd := ht.nodup
    have hch := ht.linked
    simp only at hnd hch
    have hadj : adjacent loc pt := by
      rw [List.chain'_append] at hch
      exact hch.2.2 loc hloc pt (by simp)
    obtain ⟨i, hi, j, hj, hptij⟩ := offset_of_adjacent loc pt hadj
    have hnot : pt ∉ pre := by
      rw [List.nodup_append] at hnd
      intro hmem
      exact hnd.2.2 hmem (List.mem_cons_self _ _)
    have hin := ht.inside pt (by simp)
    refine Reach.step ?_ ?_ ?_ (by
      have := ih (pre ++ [pt]) (by simp) (by rw [← hassoc]; exact ht)
        (by rw [← hassoc]; exact hL) (by rw [← hassoc]; exact hpd)
      rw [← hassoc] at this
      exact this)
    · simp only [Path.size]
      rw [← hL]
      simp only [List.length_append, List.length_cons]
      omega
    · apply hpd
      · simpa using hpre
      · rw [List.map_append]
        exact List.prefix_append _ _
    · rw [mem_kids]
      subst hptij
      refine ⟨loc, hloc, i, hi, j, hj, ?_, ?_⟩
      · rw [canStep_iff]
        exact ⟨hin.1, hin.2, hnot⟩
      · simp [Path.extend, Path.insert]

theorem tracesOn_reached (grid : Grid) (pd : List Str) (q : Path) (ht : TracesOn grid q)
    (hpd : ∀ s : Str, s ≠ [] → s <+: q.word → s ∈ pd) :
    ∃ p ∈ seedStack grid, Reach (kids grid) pd (q.size : Int) p q := by
  obtain ⟨pts, w⟩ := q
  have hw : w = pts.map (fun pt => readCell grid pt.x pt.y) := ht.spells
  subst hw
  cases pts with
  | nil => exact absurd rfl ht.nonempty
  | cons p0 rest =>
    have hin := ht.inside p0 (by simp)
    obtain ⟨⟨h1, h2, h3, h4⟩, h5⟩ := hin
    have hx : ((p0.x.toNat : Nat) : Int) = p0.x := Int.toNat_of_nonneg h1
    have hy : ((p0.y.toNat : Nat) : Int) = p0.y := Int.toNat_of_nonneg h3
    have hcell : grid.cellAt p0.x.toNat p0.y.toNat = readCell grid p0.x p0.y := by
      rw [← readCell_cast, hx, hy]
    refine ⟨⟨[p0], [readCell grid p0.x p0.y]⟩, ?_, ?_⟩
    · rw [mem_seedStack]
      refine ⟨p0.x.toNat, by omega, p0.y.toNat, by omega, by rw [hcell]; exact h5, ?_⟩
      rw [hcell, hx, hy]
      simp [Path.single, Path.insert]
    · exact reach_of_initial grid pd _ rest [p0] (by simp) ht rfl hpd

/-! ## The inserted sequences are the realizable ones -/

theorem drop_eq_cons {α : Type} (l : List α) (i : Nat) (a : α) (t : List α)
    (h : l.drop i = a :: t) : l.get? i = some a ∧ l.drop (i + 1) = t ∧ i < l.length := by
  refine ⟨?_, ?_, ?_⟩
  · rw [List.get?_eq_getElem?, ← List.head?_drop, h]; rfl
  · rw [← List.tail_drop, h]; rfl
  · by_contra hlt
    rw [List.drop_eq_nil_of_le (Nat.le_of_not_lt hlt)] at h
    exact List.noConfusion h

theorem tracesOn_seed (grid : Grid) (p : Path) (h : p ∈ seedStack grid) : TracesOn grid p := by
  obtain ⟨i, hi, j, hj, hc, rfl⟩ := (mem_seedStack grid p).1 h
  exact tracesOn_single grid i j hi hj hc

theorem sol_realizes (lengths : List Int) (pd dict : List Str) (idx : Nat) (grid : Grid)
    (cw seq : List Str) (h : Sol kids seedStack lengths pd dict idx grid cw seq) :
    cw.length = idx →
    ∃ ps ws, seq = cw ++ ws ∧ Realizes grid ps ws ∧
      ps.map (fun p => (p.size : Int)) = lengths.drop idx ∧ (∀ w ∈ ws, w ∈ dict) := by
  induction h with
  | done hb =>
    intro hidx
    refine ⟨[], [], by simp, Realizes.nil _, ?_, by simp⟩
    rw [List.drop_eq_nil_of_le (by omega)]
    rfl
  | @word idx grid g' cw L p q seq fuel hb hL hseed hreach hsize hdict hadj _ ih =>
    intro hidx
    obtain ⟨ps, ws, hseq, hreal, hmap, hws⟩ := ih (by simp [hidx])
    have htr := reach_tracesOn grid pd L p q hreach (tracesOn_seed grid p hseed)
    obtain ⟨hlt, hget⟩ := List.get?_eq_some.1 hL
    refine ⟨q :: ps, q.word :: ws, by simp [hseq], Realizes.cons htr hadj hreal, ?_, ?_⟩
    · rw [List.drop_eq_getElem_cons hlt, List.map_cons, hmap, hsize]
      congr 1
      simpa using hget.symm
    · intro w hw
      rcases List.mem_cons.1 hw with rfl | hw
      · exact hdict
      · exact hws w hw

theorem realizes_sol (lengths : List Int) (pd dict : List Str)
    (hpd : ∀ w ∈ dict, ∀ s : Str, s ≠ [] → s <+: w → s ∈ pd) (grid : Grid)
    (ps : List Path) (ws : List Str) (h : Realizes grid ps ws) :
    ∀ (idx : Nat) (cw : List Str), cw.length = idx →
      ps.map (fun p => (p.size : Int)) = lengths.drop idx → idx ≤ lengths.length →
      (∀ w ∈ ws, w ∈ dict) →
      Sol kids seedStack lengths pd dict idx grid cw (cw ++ ws) := by
  induction h with
  | nil g =>
    intro idx cw hidx hmap hle _
    rw [List.append_nil]
    apply Sol.done
    have := List.drop_eq_nil_iff.1 hmap.symm
    omega
  | @cons g g' p ps ws fuel htr hadj _ ih =>
    intro idx cw hidx hmap hle hws
    obtain ⟨hget, hdrop, hlt⟩ := drop_eq_cons lengths idx _ _ hmap.symm
    have hw : p.word ∈ dict := hws _ (List.mem_cons_self _ _)
    obtain ⟨seed, hseed, hreach⟩ := tracesOn_reached g pd p htr (hpd _ hw)
    have hrec := ih (idx + 1) (cw ++ [p.word]) (by simp [hidx]) hdrop.symm hlt
      (fun w hw' => hws w (List.mem_cons_of_mem _ hw'))
    rw [List.append_assoc] at hrec
    exact Sol.word (by omega) hget hseed hreach rfl hw hadj hrec

theorem realizes_words (grid : Grid) (ps : List Path) (ws : List Str)
    (h : Realizes grid ps ws) :
    List.Forall₂ (fun p w => (w.length : Int) = (p.size : Int)) ps ws := by
  induction h with
  | nil => exact List.Forall₂.nil
  | cons htr _ _ ih =>
    refine List.Forall₂.cons ?_ ih
    rw [htr.spells]
    simp [Path.size]

/-! ## Termination of the search -/

theorem goodPath_size_le (n : Nat) (p : Path) (h : GoodPath n p) : p.size ≤ n * n := by
  obtain ⟨hnd, hin⟩ := h
  have hnd' : (p.points.map (fun pt => (pt.x.toNat, pt.y.toNat))).Nodup := by
    refine List.Nodup.map_on ?_ hnd
    intro a ha b hb hab
    have h1 := hin a ha
    have h2 := hin b hb
    simp only [Prod.mk.injEq] at hab
    cases a; cases b
    simp only [Point.mk.injEq]
    simp only at h1 h2 hab
    omega
  have hsub : p.points.map (fun pt => (pt.x.toNat, pt.y.toNat)) ⊆
      List.product (List.range n) (List.range n) := by
    intro ab hab
    obtain ⟨pt, hpt, rfl⟩ := List.mem_map.1 hab
    have h1 := hin pt hpt
    rw [List.pair_mem_product, List.mem_range, List.mem_range]
    omega
  have := (List.subperm_of_subset hnd' hsub).length_le
  have e : ((List.range n).product (List.range n)).length = n * n := by
    have := List.length_product (List.range n) (List.range n)
    simpa using this
  rw [e, List.length_map] at this
  exact this

theorem tracesOn_good (grid : Grid) (p : Path) (h : TracesOn grid p) :
    GoodPath grid.length p :=
  ⟨h.nodup, fun pt hpt => (h.inside pt hpt).1⟩

theorem good_kids (grid : Grid) (cur c : Path) (hg : GoodPath grid.length cur)
    (hc : c ∈ kids grid cur) : GoodPath grid.length c ∧ c.size = cur.size + 1 := by
  obtain ⟨loc, _, i, _, j, _, hstep, rfl⟩ := (mem_kids grid cur c).1 hc
  obtain ⟨hin, _, hnot⟩ := (canStep_iff grid cur _).1 hstep
  refine ⟨⟨?_, ?_⟩, by simp [Path.extend, Path.insert, Path.size]⟩
  · simp only [Path.extend, Path.insert]
    rw [List.nodup_append]
    refine ⟨hg.1, by simp, ?_⟩
    intro x hx hx'
    simp only [List.mem_singleton] at hx'
    subst hx'
    exact hnot hx
  · intro pt hpt
    simp only [Path.extend, Path.insert, List.mem_append, List.mem_singleton] at hpt
    rcases hpt with hpt | rfl
    · exact hg.2 pt hpt
    · exact hin

theorem pathWeight_pos (n : Nat) (p : Path) : 0 < pathWeight n p := by
  unfold pathWeight
  positivity

theorem stackWeight_cons (n : Nat) (p : Path) (st : List Path) :
    stackWeight n (p :: st) = pathWeight n p + stackWeight n st := by
  simp [stackWeight]

theorem stackWeight_append (n : Nat) (a b : List Path) :
    stackWeight n (a ++ b) = stackWeight n a + stackWeight n b := by
  simp [stackWeight]

theorem stackWeight_le (n W : Nat) (st : List Path) (h : ∀ p ∈ st, pathWeight n p ≤ W) :
    stackWeight n st ≤ st.length * W := by
  induction st with
  | nil => simp [stackWeight]
  | cons p st ih =>
    rw [stackWeight_cons, List.length_cons]
    have h1 := h p (List.mem_cons_self _ _)
    have h2 := ih (fun q hq => h q (List.mem_cons_of_mem _ hq))
    have : (st.length + 1) * W = st.length * W + W := by ring
    omega

theorem kids_weight_lt (n : Nat) (cur : Path) (ks : List Path) (_ : GoodPath n cur)
    (hgood : ∀ c ∈ ks, GoodPath n c ∧ c.size = cur.size + 1) (hlen : ks.length ≤ 9) :
    stackWeight n ks < pathWeight n cur := by
  cases ks with
  | nil => simpa [stackWeight] using pathWeight_pos n cur
  | cons c0 ks' =>
    have h0 := hgood c0 (List.mem_cons_self _ _)
    have hle := goodPath_size_le n c0 h0.1
    obtain ⟨d, hd⟩ : ∃ d, n * n - cur.size = d + 1 := ⟨n * n - cur.size - 1, by omega⟩
    have hw : ∀ c ∈ c0 :: ks', pathWeight n c ≤ 10 ^ d := by
      intro c hc
      have := (hgood c hc).2
      unfold pathWeight
      have e : n * n - c.size = d := by omega
      rw [e]
    have h1 := stackWeight_le n (10 ^ d) _ hw
    have h2 : (c0 :: ks').length * 10 ^ d ≤ 9 * 10 ^ d := Nat.mul_le_mul_right _ hlen
    have h3 : pathWeight n cur = 10 * 10 ^ d := by
      unfold pathWeight
      rw [hd, pow_succ]
      ring
    have h4 : 0 < 10 ^ d := by positivity
    omega

theorem searchLoop_total (next : Grid → List Str → Found → Option Found)
    (expand : Path → List Path → List Path) (kids : Path → List Path) (L : Int) (grid : Grid)
    (pd dict : List Str) (cw : List Str) (n : Nat) (hn : grid.length = n)
    (hexp : ∀ cur st, expand cur st = kids cur ++ st)
    (hgood : ∀ cur, GoodPath n cur → ∀ c ∈ kids cur, GoodPath n c ∧ c.size = cur.size + 1)
    (hlen : ∀ cur, (kids cur).length ≤ 9)
    (hnext : ∀ g w f, g.length = n → ∃ r, next g (cw ++ [w]) f = some r) :
    ∀ (fuel : Nat) (st : List Path) (found : Found), (∀ p ∈ st, GoodPath n p) →
      stackWeight n st + settleFuel n < fuel →
      ∃ r, searchLoop next expand L grid pd dict cw fuel st found = some r := by
  intro fuel
  induction fuel with
  | zero => intro st found _ h; omega
  | succ fuel ih =>
    intro st found hst hf
    cases st with
    | nil => exact ⟨found, by simp [searchLoop]⟩
    | cons cur st =>
      rw [stackWeight_cons] at hf
      have hpos := pathWeight_pos n cur
      have hst' : ∀ p ∈ st, GoodPath n p := fun p hp => hst p (List.mem_cons_of_mem _ hp)
      have hcur := hst cur (List.mem_cons_self _ _)
      simp only [searchLoop]
      split
      · split
        · obtain ⟨g', hg⟩ := adjustGrid_total fuel grid cur (by rw [hn]; omega)
          obtain ⟨f', hf'⟩ := hnext g' cur.word found
            (by rw [adjustGrid_length _ _ _ _ hg, hn])
          rw [hg]
          simp only
          rw [hf']
          simp only
          exact ih st f' hst' (by omega)
        · exact ih st found hst' (by omega)
      · split
        · rw [hexp]
          have hk := kids_weight_lt n cur (kids cur) hcur (hgood cur hcur) (hlen cur)
          apply ih
          · intro p hp
            rcases List.mem_append.1 hp with hp | hp
            · exact (hgood cur hcur p hp).1
            · exact hst' p hp
          · rw [stackWeight_append]
            omega
        · exact ih st found hst' (by omega)

theorem seedStack_weight (grid : Grid) :
    stackWeight grid.length (seedStack grid) ≤
      grid.length * grid.length * 10 ^ (grid.length * grid.length) := by
  have h1 := stackWeight_le grid.length (10 ^ (grid.length * grid.length)) (seedStack grid)
    (fun p _ => by
      unfold pathWeight
      exact Nat.pow_le_pow_right (by decide) (Nat.sub_le _ _))
  have h2 := Nat.mul_le_mul_right (10 ^ (grid.length * grid.length)) (seedStack_length_le grid)
  omega

theorem findPossibilities_total (lengths : List Int) (pd dict : List Str) (n : Nat) :
    ∀ (k fuel idx : Nat) (grid : Grid) (cw : List Str) (found : Found),
      grid.length = n → cw.length = idx → idx + k = lengths.length → searchFuel n k ≤ fuel →
      ∃ r, findPossibilities fuel idx lengths grid pd dict cw found = some r := by
  intro k
  induction k with
  | zero =>
    intro fuel idx grid cw found _ hcw hk hf
    cases fuel with
    | zero => simp [searchFuel] at hf
    | succ fuel =>
      unfold findPossibilities
      rw [if_pos (by omega)]
      exact ⟨_, rfl⟩
  | succ k ih =>
    intro fuel idx grid cw found hn hcw hk hf
    cases fuel with
    | zero => simp [searchFuel] at hf
    | succ fuel =>
      unfold findPossibilities
      rw [if_neg (by omega)]
      have hlt : idx < lengths.length := by omega
      have hget : lengths.get? idx = some lengths[idx] := by
        rw [List.get?_eq_getElem?]; exact List.getElem?_eq_getElem hlt
      rw [hget]
      simp only
      unfold searchFuel at hf
      apply searchLoop_total _ _ (kids grid) _ grid pd dict cw n hn (pushNeighbours_eq grid)
        (fun cur hc c hcm => by subst hn; exact good_kids grid cur c hc hcm)
        (kids_length_le grid)
        (fun g w f hg => ih fuel (idx + 1) g (cw ++ [w]) f hg (by simp [hcw]) (by omega)
          (by omega))
      · intro p hp
        subst hn
        exact tracesOn_good grid p (tracesOn_seed grid p hp)
      · have := seedStack_weight grid
        rw [hn] at this
        omega

/-! ## The contract of `findPossibilities` -/

theorem forall2_lengths (dict : List Str) :
    ∀ (ps : List Path) (ws : List Str),
      List.Forall₂ (fun p w => ((w.length : Nat) : Int) = (p.size : Int)) ps ws →
      (∀ w ∈ ws, w ∈ dict) →
      List.Forall₂ (fun (w : Str) (L : Int) => w ∈ dict ∧ (w.length : Int) = L) ws
        (ps.map (fun p => (p.size : Int))) := by
  intro ps ws h
  induction h with
  | nil => intro _; exact List.Forall₂.nil
  | cons h1 _ ih =>
    intro hd
    exact List.Forall₂.cons ⟨hd _ (List.mem_cons_self _ _), h1⟩
      (ih (fun w hw => hd w (List.mem_cons_of_mem _ hw)))

theorem found_iff_realizes (lengths : List Int) (grid : Grid) (pd dict : List Str)
    (fuel : Nat) (found : Found)
    (h : findPossibilities fuel 0 lengths grid pd dict [] [] = some found) (seq : List Str)
    (hs : seq ∈ found) :
    ∃ ps, Realizes grid ps seq ∧ ps.map (fun p => (p.size : Int)) = lengths ∧
      ∀ w ∈ seq, w ∈ dict := by
  have h1 := (findPossibilities_spec lengths pd dict fuel 0 grid [] [] found h seq).1 hs
  simp only [List.not_mem_nil, false_or] at h1
  obtain ⟨ps, ws, hseq, hreal, hmap, hws⟩ := sol_realizes lengths pd dict 0 grid [] seq h1 rfl
  simp only [List.nil_append] at hseq
  subst hseq
  exact ⟨ps, hreal, by simpa using hmap, hws⟩

/-- C2.  For every grid, every list of target lengths and every pair of
sets, a call `findPossibilities(0, lengths, grid, ..., {}, foundWords)` on an
empty result set returns (for every step budget from `searchFuel` on), and
each sequence in the result has exactly `lengths.size()` words, the word at
every position `i` being a member of the full-word set with exactly
`lengths[i]` characters. -/
theorem found_words_valid (lengths : List Int) (grid : Grid) (pd dict : List Str)
    (fuel : Nat) (hf : searchFuel grid.length lengths.length ≤ fuel) :
    ∃ found, findPossibilities fuel 0 lengths grid pd dict [] [] = some found ∧
      ∀ seq ∈ found, seq.length = lengths.length ∧
        ∀ (i : Nat) (h1 : i < seq.length) (h2 : i < lengths.length),
          seq.get ⟨i, h1⟩ ∈ dict ∧ ((seq.get ⟨i, h1⟩).length : Int) = lengths.get ⟨i, h2⟩ := by
  obtain ⟨found, h⟩ := findPossibilities_total lengths pd dict grid.length lengths.length
    fuel 0 grid [] [] rfl rfl (by simp) hf
  refine ⟨found, h, fun seq hs => ?_⟩
  obtain ⟨ps, hreal, hmap, hws⟩ := found_iff_realizes lengths grid pd dict fuel found h seq hs
  have h2 := forall2_lengths dict ps seq (realizes_words grid ps seq hreal) hws
  rw [hmap] at h2
  exact List.forall₂_iff_get.1 h2

/-- Witness of C2 on the board `ca / ts` with target lengths `[3]`. -/
theorem found_words_valid_witness :
    searchFuel scenarioGrid.length ([3] : List Int).length ≤ 50000 ∧
    ∃ found, findPossibilities 50000 0 [3] scenarioGrid
        (readDict (some scenarioWords) [] []).2.1 (readDict (some scenarioWords) [] []).2.2
        [] [] = some found ∧
      ∀ seq ∈ found, seq.length = ([3] : List Int).length ∧
        ∀ (i : Nat) (h1 : i < seq.length) (h2 : i < ([3] : List Int).length),
          seq.get ⟨i, h1⟩ ∈ (readDict (some scenarioWords) [] []).2.2 ∧
          ((seq.get ⟨i, h1⟩).length : Int) = ([3] : List Int).get ⟨i, h2⟩ :=
  ⟨by decide, found_words_valid _ _ _ _ 50000 (by decide)⟩

/-- C3.  For every sequence that `findPossibilities(0, ...)` leaves in an
initially empty result set there are paths, one per word, that realize it:
the path of word `k` lies on the board as it stands at stage `k` (the input
grid after `adjustGrid` has been applied in turn for the paths of the words
before it), its cells are inside the board, not empty and pairwise distinct,
consecutive cells are 8-adjacent, and its letters read in order are word
`k`. -/
theorem found_words_traced (lengths : List Int) (grid : Grid) (pd dict : List Str)
    (fuel : Nat) (hf : searchFuel grid.length lengths.length ≤ fuel) :
    ∃ found, findPossibilities fuel 0 lengths grid pd dict [] [] = some found ∧
      ∀ seq ∈ found, ∃ ps, Realizes grid ps seq := by
  obtain ⟨found, h⟩ := findPossibilities_total lengths pd dict grid.length lengths.length
    fuel 0 grid [] [] rfl rfl (by simp) hf
  refine ⟨found, h, fun seq hs => ?_⟩
  obtain ⟨ps, hreal, _, _⟩ := found_iff_realizes lengths grid pd dict fuel found h seq hs
  exact ⟨ps, hreal⟩

/-- Witness of C3 on the board `ca / ts` with target lengths `[3]`. -/
theorem found_words_traced_witness :
    searchFuel scenarioGrid.length ([3] : List Int).length ≤ 50000 ∧
    ∃ found, findPossibilities 50000 0 [3] scenarioGrid
        (readDict (some scenarioWords) [] []).2.1 (readDict (some scenarioWords) [] []).2.2
        [] [] = some found ∧
      ∀ seq ∈ found, ∃ ps, Realizes scenarioGrid ps seq :=
  ⟨by decide, found_words_traced _ _ _ _ 50000 (by decide)⟩

/-- C1.  Completeness of the search.  Let the full-word and prefix sets be
built by `readDict` from one word list.  If paths `ps` realize the words `seq`
from the input grid on (path `k` has pairwise distinct, in-bounds, non-empty,
consecutively 8-adjacent cells on the grid that `adjustGrid` leaves after the
paths before it, and spells word `k`), the number of cells of path `k` is the
target length `k`, and every word is in the full-word set, then `seq` is in
the result of `findPossibilities(0, lengths, grid, ..., {}, {})`. -/
theorem search_complete (lines : List Str) (lengths : List Int) (grid : Grid)
    (ps : List Path) (seq : List Str) (fuel : Nat)
    (hR : Realizes grid ps seq)
    (hlen : ps.map (fun p => (p.size : Int)) = lengths)
    (hdict : ∀ w ∈ seq, w ∈ (readDict (some lines) [] []).2.2)
    (hf : searchFuel grid.length lengths.length ≤ fuel) :
    ∃ found, findPossibilities fuel 0 lengths grid (readDict (some lines) [] []).2.1
        (readDict (some lines) [] []).2.2 [] [] = some found ∧ seq ∈ found := by
  obtain ⟨found, h⟩ := findPossibilities_total lengths (readDict (some lines) [] []).2.1
    (readDict (some lines) [] []).2.2 grid.length lengths.length
    fuel 0 grid [] [] rfl rfl (by simp) hf
  refine ⟨found, h, ?_⟩
  rw [findPossibilities_spec lengths _ _ fuel 0 grid [] [] found h seq]
  right
  have hpd : ∀ w ∈ (readDict (some lines) [] []).2.2, ∀ s : Str, s ≠ [] → s <+: w →
      s ∈ (readDict (some lines) [] []).2.1 := by
    intro w hw s hs hp
    rw [mem_readDict_prefixes]
    obtain ⟨line, hl, rfl⟩ := (mem_readDict_full lines w).1 hw
    exact ⟨line, hl, hs, hp⟩
  have := realizes_sol lengths _ _ hpd grid ps seq hR 0 [] rfl (by simpa using hlen)
    (Nat.zero_le _) hdict
  simpa using this

theorem scenarioPath_traces : TracesOn scenarioGrid scenarioPath :=
  ⟨by decide, by decide, by decide, by simp [scenarioPath, adjacent], by decide⟩

/-- Witness of C1: the path `c(0,0) → a(0,1) → t(1,0)` on the board `ca / ts`
realizes the word `cat`. -/
theorem search_complete_witness :
    Realizes scenarioGrid [scenarioPath] [['c', 'a', 't']] ∧
    [scenarioPath].map (fun p => (p.size : Int)) = [3] ∧
    (∀ w ∈ [['c', 'a', 't']], w ∈ (readDict (some scenarioWords) [] []).2.2) ∧
    searchFuel scenarioGrid.length ([3] : List Int).length ≤ 50000 ∧
    ∃ found, findPossibilities 50000 0 [3] scenarioGrid
        (readDict (some scenarioWords) [] []).2.1 (readDict (some scenarioWords) [] []).2.2
        [] [] = some found ∧ [['c', 'a', 't']] ∈ found :=
  have hR : Realizes scenarioGrid [scenarioPath] [['c', 'a', 't']] :=
    @Realizes.cons scenarioGrid [['-', '-'], ['-', 's']] scenarioPath [] [] 16
      scenarioPath_traces (by decide) (Realizes.nil _)
  ⟨hR, by decide, by decide, by decide,
    search_complete scenarioWords [3] scenarioGrid [scenarioPath] [['c', 'a', 't']] 50000
      hR (by decide) (by decide) (by decide)⟩

/-- C6 as stated fails: on the board `ca / ts` with target lengths `[3]` and
the words `cat`, `cats`, `act` the search also finds `act`, traced
`a(0,1) → c(0,0) → t(1,0)`, so the result set is not `{[cat]}`. -/
theorem scenario_A_finds_act :
    ∃ found, findPossibilities 100 0 [3] scenarioGrid
        (readDict (some scenarioWords) [] []).2.1 (readDict (some scenarioWords) [] []).2.2
        [] [] = some found ∧
      [['a', 'c', 't']] ∈ found ∧ ¬ (∀ seq, seq ∈ found ↔ seq = [['c', 'a', 't']]) := by
  refine ⟨[[['a', 'c', 't']], [['c', 'a', 't']]], by decide, by decide, ?_⟩
  intro h
  have := (h [['a', 'c', 't']]).1 (by decide)
  revert this
  decide

/-- C6, amended.  On the board `ca / ts` with target lengths `[3]` and the
words `cat`, `cats`, `act` the search returns, and whatever the step budget
its result set is exactly `{[cat], [act]}`. -/
theorem scenario_A_result :
    findPossibilities 100 0 [3] scenarioGrid
        (readDict (some scenarioWords) [] []).2.1 (readDict (some scenarioWords) [] []).2.2
        [] [] = some [[['a', 'c', 't']], [['c', 'a', 't']]] ∧
    ∀ fuel found, findPossibilities fuel 0 [3] scenarioGrid
        (readDict (some scenarioWords) [] []).2.1 (readDict (some scenarioWords) [] []).2.2
        [] [] = some found →
      ∀ seq, seq ∈ found ↔ (seq = [['c', 'a', 't']] ∨ seq = [['a', 'c', 't']]) := by
  have h100 : findPossibilities 100 0 [3] scenarioGrid
        (readDict (some scenarioWords) [] []).2.1 (readDict (some scenarioWords) [] []).2.2
        [] [] = some [[['a', 'c', 't']], [['c', 'a', 't']]] := by decide
  refine ⟨h100, fun fuel found h seq => ?_⟩
  have e1 := findPossibilities_spec [3] _ _ fuel 0 scenarioGrid [] [] found h seq
  have e2 := findPossibilities_spec [3] _ _ 100 0 scenarioGrid [] [] _ h100 seq
  clear h
  rw [e1, ← e2]
  clear e1 e2
  simp only [List.mem_cons, List.mem_singleton, List.not_mem_nil, or_false]
  exact or_comm

/-! ## Counting the non-empty cells -/

theorem sum_map_set {α : Type} (f : α → Nat) :
    ∀ (l : List α) (r : Nat) (x : α) (hr : r < l.length),
      ((l.set r x).map f).sum + f l[r] = (l.map f).sum + f x := by
  intro l
  induction l with
  | nil => intro r x hr; simp at hr
  | cons a t ih =>
    intro r x hr
    cases r with
    | zero => simp; omega
    | succ r =>
      have := ih r x (by simpa using hr)
      simp only [List.set_cons_succ, List.map_cons, List.sum_cons, List.getElem_cons_succ]
      omega

theorem countP_set_add (p : Char → Bool) :
    ∀ (l : List Char) (c : Nat) (ch : Char) (hc : c < l.length),
      (l.set c ch).countP p + (if p l[c] then 1 else 0) =
        l.countP p + (if p ch then 1 else 0) := by
  intro l
  induction l with
  | nil => intro c ch hc; simp at hc
  | cons a t ih =>
    intro c ch hc
    cases c with
    | zero =>
      simp only [List.set_cons_zero, List.countP_cons, List.getElem_cons_zero]
      omega
    | succ c =>
      have := ih c ch (by simpa using hc)
      simp only [List.set_cons_succ, List.countP_cons, List.getElem_cons_succ]
      omega

theorem occupied_setAt (g : Grid) (r c : Nat) (ch : Char) (hr : r < g.length)
    (hc : c < (g.getD r []).length) :
    occupied (g.setAt r c ch) + (if (g.cellAt r c != GRID_USED) = true then 1 else 0) =
      occupied g + (if (ch != GRID_USED) = true then 1 else 0) := by
  unfold occupied Grid.setAt
  have h1 := sum_map_set (fun row : List Char => row.countP (fun c => c != GRID_USED)) g r
    ((g.getD r []).set c ch) hr
  have e : g[r] = g.getD r [] := (List.getD_eq_getElem g [] hr).symm
  have h2 := countP_set_add (fun c => c != GRID_USED) (g.getD r []) c ch hc
  have e2 : (g.getD r [])[c] = g.cellAt r c := (List.getD_eq_getElem _ GRID_OOB hc).symm
  rw [e2] at h2
  simp only at h1
  rw [e] at h1
  omega

theorem occupied_swapDown (g : Grid) (j i : Nat) (ha : (g.cellAt j i).isAlpha = true)
    (hb : g.cellAt (j + 1) i = GRID_USED) : occupied (swapDown g j i) = occupied g := by
  have hb' : g.cellAt (j + 1) i ≠ GRID_OOB := by rw [hb]; exact used_ne_oob
  obtain ⟨hr1, hc1⟩ := inRange_of_cellAt_ne g j i (isAlpha_ne_oob ha)
  obtain ⟨hr2, hc2⟩ := inRange_of_cellAt_ne g (j + 1) i hb'
  unfold swapDown
  have h1 := occupied_setAt g j i (g.cellAt (j + 1) i) hr1 hc1
  have h2 := occupied_setAt (g.setAt j i (g.cellAt (j + 1) i)) (j + 1) i (g.cellAt j i)
    (by rw [length_setAt]; exact hr2) (by rw [rowLength_setAt]; exact hc2)
  rw [cellAt_setAt_ne g j i (j + 1) i _ (by omega)] at h2
  have hne : (g.cellAt j i != GRID_USED) = true := by
    simpa using isAlpha_ne_used ha
  rw [hb] at h1 h2 ⊢
  rw [hne] at h1 h2
  simp only [bne_self_eq_false, Bool.false_eq_true, if_false, if_true] at h1 h2
  omega

theorem square_setAt (g : Grid) (r c : Nat) (ch : Char) (h : Square g) :
    Square (g.setAt r c ch) := by
  intro row hrow
  rw [length_setAt]
  obtain ⟨k, hk, rfl⟩ := List.getElem_of_mem hrow
  have hk' : k < g.length := by rw [length_setAt] at hk; exact hk
  have e := rowLength_setAt g r c k ch
  rw [List.getD_eq_getElem _ _ hk, List.getD_eq_getElem _ _ hk'] at e
  rw [e]
  exact h _ (List.getElem_mem hk')

theorem square_swapDown (g : Grid) (j i : Nat) (h : Square g) : Square (swapDown g j i) :=
  square_setAt _ _ _ _ (square_setAt _ _ _ _ h)

theorem settleColumn_occupied :
    ∀ (fuel : Nat) (g : Grid) (i j : Nat) (g' : Grid),
      settleColumn fuel g i j = some g' → Square g →
      occupied g' = occupied g ∧ Square g' := by
  intro fuel
  induction fuel with
  | zero => intro g i j g' h; simp [settleColumn] at h
  | succ fuel ih =>
    intro g i j g' h hsq
    unfold settleColumn at h
    split at h
    · split at h
      · rename_i hsw
        simp only [Bool.and_eq_true, beq_iff_eq] at hsw
        obtain ⟨h1, h2⟩ := ih _ _ _ _ h (square_swapDown g j i hsq)
        exact ⟨by rw [h1, occupied_swapDown g j i hsw.1 hsw.2], h2⟩
      · exact ih _ _ _ _ h hsq
    · simp at h; subst h; exact ⟨rfl, hsq⟩

theorem settleColumns_occupied (fuel : Nat) :
    ∀ (cols : List Nat) (g g' : Grid), settleColumns fuel g cols = some g' → Square g →
      occupied g' = occupied g ∧ Square g' := by
  intro cols
  induction cols with
  | nil => intro g g' h hsq; simp [settleColumns] at h; subst h; exact ⟨rfl, hsq⟩
  | cons i cols ih =>
    intro g g' h hsq
    unfold settleColumns at h
    split at h
    · simp at h
    · rename_i g1 h1
      obtain ⟨e1, s1⟩ := settleColumn_occupied _ _ _ _ _ h1 hsq
      obtain ⟨e2, s2⟩ := ih _ _ h s1
      exact ⟨by rw [e2, e1], s2⟩

theorem markPath_occupied :
    ∀ (pts : List Point) (g : Grid), Square g → pts.Nodup →
      (∀ pt ∈ pts, inGrid g pt ∧ readCell g pt.x pt.y ≠ GRID_USED) →
      occupied (markPath g pts) + pts.length = occupied g ∧ Square (markPath g pts) := by
  intro pts
  induction pts with
  | nil => intro g hsq _ _; exact ⟨rfl, hsq⟩
  | cons p pts ih =>
    intro g hsq hnd hin
    obtain ⟨hp, hnd'⟩ := List.nodup_cons.1 hnd
    obtain ⟨⟨h1, h2, h3, h4⟩, h5⟩ := hin p (List.mem_cons_self _ _)
    have hw : writeCell g p.x p.y GRID_USED = g.setAt p.x.toNat p.y.toNat GRID_USED := by
      simp [writeCell, h1, h3]
    have hr : p.x.toNat < g.length := by omega
    have hrow : (g.getD p.x.toNat []).length = g.length := by
      rw [List.getD_eq_getElem _ _ hr]
      exact hsq _ (List.getElem_mem hr)
    have hc : p.y.toNat < (g.getD p.x.toNat []).length := by rw [hrow]; omega
    have hocc := occupied_setAt g p.x.toNat p.y.toNat GRID_USED hr hc
    have hcell : (g.cellAt p.x.toNat p.y.toNat != GRID_USED) = true := by
      have : readCell g p.x p.y = g.cellAt p.x.toNat p.y.toNat := by simp [readCell, h1, h3]
      rw [this] at h5
      simpa using h5
    rw [hcell] at hocc
    simp only [bne_self_eq_false, Bool.false_eq_true, if_false, if_true] at hocc
    have hrec := ih (g.setAt p.x.toNat p.y.toNat GRID_USED) (square_setAt _ _ _ _ hsq) hnd'
      (fun pt hpt => by
        obtain ⟨⟨a1, a2, a3, a4⟩, a5⟩ := hin pt (List.mem_cons_of_mem _ hpt)
        refine ⟨⟨a1, by rw [length_setAt]; exact a2, a3, by rw [length_setAt]; exact a4⟩, ?_⟩
        have hne : ¬ (pt.x.toNat = p.x.toNat ∧ pt.y.toNat = p.y.toNat) := by
          rintro ⟨e1, e2⟩
          apply hp
          have : pt = p := by
            cases pt; cases p
            simp only [Point.mk.injEq]
            simp only at e1 e2 a1 a3 h1 h3
            omega
          rw [← this]; exact hpt
        simp only [readCell, a1, a3, and_self, if_true] at a5 ⊢
        rw [cellAt_setAt_ne _ _ _ _ _ _ hne]
        exact a5)
    simp only [markPath, List.foldl_cons, List.length_cons] at hrec ⊢
    rw [hw]
    exact ⟨by omega, hrec.2⟩

theorem adjustGrid_occupied (fuel : Nat) (grid : Grid) (p : Path) (g' : Grid)
    (hsq : Square grid) (ht : TracesOn grid p) (h : adjustGrid fuel grid p = some g') :
    occupied g' + p.size = occupied grid ∧ Square g' := by
  unfold adjustGrid at h
  obtain ⟨h1, s1⟩ := markPath_occupied p.points grid hsq ht.nodup ht.inside
  obtain ⟨h2, s2⟩ := settleColumns_occupied _ _ _ _ h s1
  exact ⟨by rw [h2]; exact h1, s2⟩

theorem sum_map_le {α : Type} (f : α → Nat) (n : Nat) :
    ∀ l : List α, (∀ x ∈ l, f x ≤ n) → (l.map f).sum ≤ l.length * n := by
  intro l
  induction l with
  | nil => intro _; simp
  | cons a t ih =>
    intro h
    have h1 := h a (List.mem_cons_self _ _)
    have h2 := ih (fun x hx => h x (List.mem_cons_of_mem _ hx))
    simp only [List.map_cons, List.sum_cons, List.length_cons]
    have : (t.length + 1) * n = t.length * n + n := by ring
    omega

theorem occupied_le (g : Grid) (hsq : Square g) : occupied g ≤ g.length * g.length := by
  unfold occupied
  apply sum_map_le
  intro row hrow
  rw [← hsq row hrow]
  exact List.countP_le_length _

theorem realizes_sum (grid : Grid) (ps : List Path) (ws : List Str)
    (h : Realizes grid ps ws) :
    Square grid → (ps.map Path.size).sum ≤ occupied grid := by
  induction h with
  | nil => intro _; simp
  | cons htr hadj _ ih =>
    intro hsq
    obtain ⟨h1, h2⟩ := adjustGrid_occupied _ _ _ _ hsq htr hadj
    have := ih h2
    simp only [List.map_cons, List.sum_cons]
    omega

theorem sum_sizes_cast (ps : List Path) :
    (ps.map (fun p => (p.size : Int))).sum = (((ps.map Path.size).sum : Nat) : Int) := by
  induction ps with
  | nil => simp
  | cons p ps ih => simp only [List.map_cons, List.sum_cons, ih]; push_cast; rfl

/-- C7.  For every square grid, every pair of sets and every list of target
lengths whose sum is greater than `dim * dim`, the result set is empty after
`findPossibilities(0, ...)` returns: each accepted word removes exactly its
length in non-empty cells and `adjustGrid` never creates a non-empty cell. -/
theorem no_sequence_beyond_board (lengths : List Int) (grid : Grid) (pd dict : List Str)
    (fuel : Nat) (hsq : Square grid)
    (hsum : ((grid.length * grid.length : Nat) : Int) < lengths.sum)
    (hf : searchFuel grid.length lengths.length ≤ fuel) :
    findPossibilities fuel 0 lengths grid pd dict [] [] = some [] := by
  obtain ⟨found, h⟩ := findPossibilities_total lengths pd dict grid.length lengths.length
    fuel 0 grid [] [] rfl rfl (by simp) hf
  rw [h]
  congr 1
  apply List.eq_nil_iff_forall_not_mem.2
  intro seq hs
  obtain ⟨ps, hreal, hmap, _⟩ := found_iff_realizes lengths grid pd dict fuel found h seq hs
  have h1 := realizes_sum grid ps seq hreal hsq
  have h2 := occupied_le grid hsq
  rw [← hmap, sum_sizes_cast] at hsum
  have : (ps.map Path.size).sum ≤ grid.length * grid.length := le_trans h1 h2
  omega

/-- Witness of C7: the 2 × 2 board `ca / ts` with target lengths `[3, 2]`. -/
theorem no_sequence_beyond_board_witness :
    Square scenarioGrid ∧
    ((scenarioGrid.length * scenarioGrid.length : Nat) : Int) < ([3, 2] : List Int).sum ∧
    searchFuel scenarioGrid.length ([3, 2] : List Int).length ≤ 100000 ∧
    findPossibilities 100000 0 [3, 2] scenarioGrid
      (readDict (some scenarioWords) [] []).2.1 (readDict (some scenarioWords) [] []).2.2
      [] [] = some [] :=
  ⟨by decide, by decide, by decide,
    no_sequence_beyond_board _ _ _ _ 100000 (by decide) (by decide) (by decide)⟩

/-! ## The search of `wordbrain_multi.cpp`: seeds and neighbours -/

theorem mem_pushIf (b : Bool) (grid : Grid) (cur : Path) (p : Point) (st : List Path)
    (x : Path) :
    x ∈ Multi.pushIf b grid cur p st ↔
      (b = true ∧ readCell grid p.x p.y ≠ GRID_USED ∧ p ∉ cur.points ∧
        x = cur.extend p (readCell grid p.x p.y)) ∨ x ∈ st := by
  unfold Multi.pushIf Path.contains
  split
  · rename_i h
    simp only [Bool.and_eq_true, bne_iff_ne, ne_eq, Bool.not_eq_true', decide_eq_false_iff_not]
      at h
    simp only [List.mem_cons]
    tauto
  · rename_i h
    simp only [Bool.and_eq_true, bne_iff_ne, ne_eq, Bool.not_eq_true', decide_eq_false_iff_not]
      at h
    tauto

theorem length_pushIf (b : Bool) (grid : Grid) (cur : Path) (p : Point) (st : List Path) :
    (Multi.pushIf b grid cur p st).length ≤ st.length + 1 := by
  unfold Multi.pushIf
  split <;> simp

theorem multi_kids_length_le (grid : Grid) (cur : Path) : (Multi.kids grid cur).length ≤ 9 := by
  unfold Multi.kids Multi.pushNeighbours
  cases cur.points.getLast? with
  | none => simp
  | some loc =>
    simp only
    have h := fun b p st => length_pushIf b grid cur p st
    refine le_trans (h _ _ _) ?_
    refine le_trans (Nat.succ_le_succ (h _ _ _)) ?_
    refine le_trans (Nat.succ_le_succ (Nat.succ_le_succ (h _ _ _))) ?_
    refine le_trans (Nat.succ_le_succ (Nat.succ_le_succ (Nat.succ_le_succ (h _ _ _)))) ?_
    refine le_trans (Nat.succ_le_succ (Nat.succ_le_succ (Nat.succ_le_succ
      (Nat.succ_le_succ (h _ _ _))))) ?_
    refine le_trans (Nat.succ_le_succ (Nat.succ_le_succ (Nat.succ_le_succ
      (Nat.succ_le_succ (Nat.succ_le_succ (h _ _ _)))))) ?_
    refine le_trans (Nat.succ_le_succ (Nat.succ_le_succ (Nat.succ_le_succ
      (Nat.succ_le_succ (Nat.succ_le_succ (Nat.succ_le_succ (h _ _ _))))))) ?_
    refine le_trans (Nat.succ_le_succ (Nat.succ_le_succ (Nat.succ_le_succ
      (Nat.succ_le_succ (Nat.succ_le_succ (Nat.succ_le_succ (Nat.succ_le_succ (h _ _ _)))))))) ?_
    simp

theorem multi_kid_cases (grid : Grid) (cur c : Path) (hc : c ∈ Multi.kids grid cur) :
    ∃ loc, cur.points.getLast? = some loc ∧ ∃ pt,
      c = cur.extend pt (readCell grid pt.x pt.y) ∧ pt ∉ cur.points ∧
      readCell grid pt.x pt.y ≠ GRID_USED ∧
      ((0 ≤ loc.x ∧ loc.x < grid.length ∧ 0 ≤ loc.y ∧ loc.y < grid.length) →
        (0 ≤ pt.x ∧ pt.x < grid.length ∧ 0 ≤ pt.y ∧ pt.y < grid.length)) := by
  unfold Multi.kids Multi.pushNeighbours at hc
  cases hl : cur.points.getLast? with
  | none => rw [hl] at hc; simp at hc
  | some loc =>
    rw [hl] at hc
    simp only [mem_pushIf, List.not_mem_nil, or_false, Multi.ltSize, Bool.and_eq_true,
      decide_eq_true_eq] at hc
    refine ⟨loc, rfl, ?_⟩
    rcases hc with ⟨hb, h1, h2, h3⟩ | ⟨hb, h1, h2, h3⟩ | ⟨hb, h1, h2, h3⟩ | ⟨hb, h1, h2, h3⟩ |
      ⟨hb, h1, h2, h3⟩ | ⟨hb, h1, h2, h3⟩ | ⟨hb, h1, h2, h3⟩ | ⟨hb, h1, h2, h3⟩ <;>
    exact ⟨_, h3, h2, h1, fun hloc => by simp only; omega⟩

theorem multi_good_kids (grid : Grid) (cur c : Path) (hg : GoodPath grid.length cur)
    (hc : c ∈ Multi.kids grid cur) : GoodPath grid.length c ∧ c.size = cur.size + 1 := by
  obtain ⟨loc, hloc, pt, rfl, hnot, _, hin⟩ := multi_kid_cases grid cur c hc
  have hmem := mem_of_getLast? hloc
  have hpt := hin (hg.2 loc hmem)
  refine ⟨⟨?_, ?_⟩, by simp [Path.extend, Path.insert, Path.size]⟩
  · simp only [Path.extend, Path.insert]
    rw [List.nodup_append]
    refine ⟨hg.1, by simp, ?_⟩
    intro x hx hx'
    simp only [List.mem_singleton] at hx'
    subst hx'
    exact hnot hx
  · intro q hq
    simp only [Path.extend, Path.insert, List.mem_append, List.mem_singleton] at hq
    rcases hq with hq | rfl
    · exact hg.2 q hq
    · exact hpt

theorem mem_kRange (s e k : Int) : k ∈ Multi.kRange s e ↔ s ≤ k ∧ k < e := by
  unfold Multi.kRange
  simp only [List.mem_map, List.mem_range]
  constructor
  · rintro ⟨d, hd, rfl⟩
    omega
  · intro h
    exact ⟨(k - s).toNat, by omega, by omega⟩

theorem kRange_length (s e : Int) : (Multi.kRange s e).length = (e - s).toNat := by
  simp [Multi.kRange]

theorem foldl_congr_mem {α β : Type} (f g : β → α → β) (l : List α)
    (h : ∀ x ∈ l, ∀ s, f s x = g s x) : ∀ b, l.foldl f b = l.foldl g b := by
  induction l with
  | nil => intro b; rfl
  | cons x l ih =>
    intro b
    simp only [List.foldl_cons]
    rw [h x (List.mem_cons_self _ _) b]
    exact ih (fun y hy s => h y (List.mem_cons_of_mem _ hy) s) _

theorem trySeedAt_eq (grid : Grid) (k : Int) (h0 : 0 ≤ k) (h1 : k < 2 ^ 31) (st : List Path) :
    Multi.trySeedAt grid k st =
      trySeed grid (k.toNat / grid.length) (k.toNat % grid.length) st := by
  obtain ⟨k', rfl⟩ : ∃ k' : Nat, k = (k' : Int) := ⟨k.toNat, by omega⟩
  have hk : k' < 2 ^ 31 := by omega
  unfold Multi.trySeedAt trySeed
  simp only [Int.toNat_ofNat]
  rw [Multi.intToSizeT_of_nat k' (by omega),
    Multi.toInt32_of_lt _ (lt_of_le_of_lt (Nat.div_le_self _ _) hk),
    Multi.toInt32_of_lt _ (lt_of_le_of_lt (Nat.mod_le _ _) hk)]
  simp only [readCell_cast]

theorem multi_seedStack_eq (grid : Grid) (s e : Int) (hs : 0 ≤ s) (he : e ≤ 2 ^ 31) :
    Multi.seedStack grid s e =
      (Multi.kRange s e).foldl
        (fun st k => trySeed grid (k.toNat / grid.length) (k.toNat % grid.length) st) [] := by
  unfold Multi.seedStack
  have hne : ¬ (s = -1 ∧ e = -1) := by omega
  simp only [hne, if_false]
  apply foldl_congr_mem
  intro k hk st
  rw [mem_kRange] at hk
  exact trySeedAt_eq grid k (by omega) (by omega) st

theorem multi_seedStack_default (grid : Grid) :
    Multi.seedStack grid (-1) (-1) =
      Multi.seedStack grid 0 (Multi.toInt32 (Multi.toSizeT (grid.length * grid.length))) := by
  unfold Multi.seedStack
  simp

theorem defaultEnd_eq (n : Nat) (h : n * n < 2 ^ 31) :
    Multi.toInt32 (Multi.toSizeT (n * n)) = ((n * n : Nat) : Int) := by
  rw [Multi.toSizeT_of_lt _ (by omega), Multi.toInt32_of_lt _ h]

theorem defaultEnd_le (n : Nat) :
    Multi.toInt32 (Multi.toSizeT (n * n)) ≤ ((n * n : Nat) : Int) := by
  by_cases h : n * n < 2 ^ 31
  · rw [defaultEnd_eq n h]
  · have := Multi.toInt32_lt (Multi.toSizeT (n * n))
    omega

theorem mem_multi_seedStack (grid : Grid) (s e : Int) (hs : 0 ≤ s) (he : e ≤ 2 ^ 31)
    (p : Path) :
    p ∈ Multi.seedStack grid s e ↔
      ∃ k : Nat, s ≤ (k : Int) ∧ (k : Int) < e ∧
        grid.cellAt (k / grid.length) (k % grid.length) ≠ GRID_USED ∧
        p = Path.single ⟨((k / grid.length : Nat) : Int), ((k % grid.length : Nat) : Int)⟩
          (grid.cellAt (k / grid.length) (k % grid.length)) := by
  rw [multi_seedStack_eq grid s e hs he]
  rw [mem_foldl_push
    (fun (k : Int) (s : List Path) =>
      trySeed grid (k.toNat / grid.length) (k.toNat % grid.length) s)
    (fun k x s => trySeed_append grid _ _ x s)]
  simp only [List.not_mem_nil, false_or, mem_kRange, mem_trySeed]
  constructor
  · rintro ⟨k, ⟨h1, h2⟩, h3, h4⟩
    exact ⟨k.toNat, by omega, by omega, h3, h4⟩
  · rintro ⟨k, h1, h2, h3, h4⟩
    exact ⟨(k : Int), ⟨by omega, by omega⟩, by simpa using h3, by simpa using h4⟩

theorem multi_seedStack_length_le (grid : Grid) (s e : Int) (hs : 0 ≤ s) (he : e ≤ 2 ^ 31) :
    (Multi.seedStack grid s e).length ≤ (e - s).toNat := by
  rw [multi_seedStack_eq grid s e hs he]
  have h := length_foldl_push
    (fun (k : Int) (s : List Path) =>
      trySeed grid (k.toNat / grid.length) (k.toNat % grid.length) s) 1
    (fun k x => by simp only [trySeed]; split <;> simp) (Multi.kRange s e) []
  rw [kRange_length] at h
  simp only [List.length_nil, Nat.zero_add, Nat.mul_one] at h
  exact h

theorem multi_seedAll_eq (grid : Grid) (h : grid.length * grid.length < 2 ^ 31) :
    Multi.seedAll grid =
      Multi.seedStack grid 0 ((grid.length * grid.length : Nat) : Int) := by
  unfold Multi.seedAll
  rw [multi_seedStack_default, defaultEnd_eq _ h]

theorem multi_seed_good (grid : Grid) (s e : Int) (hs : 0 ≤ s) (he : e ≤ 2 ^ 31)
    (hb : e ≤ ((grid.length * grid.length : Nat) : Int))
    (p : Path) (hp : p ∈ Multi.seedStack grid s e) : GoodPath grid.length p := by
  obtain ⟨k, _, hk, _, rfl⟩ := (mem_multi_seedStack grid s e hs he p).1 hp
  have hlt : k < grid.length * grid.length := by omega
  have hpos : 0 < grid.length := by
    rcases Nat.eq_zero_or_pos grid.length with h | h
    · rw [h] at hlt; simp at hlt
    · exact h
  have h1 : k / grid.length < grid.length := Nat.div_lt_of_lt_mul hlt
  have h2 : k % grid.length < grid.length := Nat.mod_lt _ hpos
  refine ⟨by simp [Path.single, Path.insert], ?_⟩
  intro pt hpt
  simp only [Path.single, Path.insert, List.nil_append, List.mem_singleton] at hpt
  subst hpt
  exact ⟨Int.natCast_nonneg _, Int.ofNat_lt.2 h1, Int.natCast_nonneg _, Int.ofNat_lt.2 h2⟩

/-- The ranges on which the seeding loop stays inside the grid: the default
pair, or a range of starting cells of the board that fits an `int`. -/
theorem multi_range_norm (grid : Grid) (s e : Int)
    (hr : (s = -1 ∧ e = -1) ∨
      (0 ≤ s ∧ e ≤ ((grid.length * grid.length : Nat) : Int) ∧ e ≤ 2 ^ 31)) :
    ∃ s1 e1 : Int, 0 ≤ s1 ∧ e1 ≤ ((grid.length * grid.length : Nat) : Int) ∧ e1 ≤ 2 ^ 31 ∧
      Multi.seedStack grid s e = Multi.seedStack grid s1 e1 := by
  rcases hr with ⟨rfl, rfl⟩ | ⟨h1, h2, h3⟩
  · exact ⟨0, _, le_refl _, defaultEnd_le _,
      le_of_lt (Multi.toInt32_lt _), multi_seedStack_default grid⟩
  · exact ⟨s, e, h1, h2, h3, rfl⟩

theorem multi_findPossibilities_total (lengths : List Int) (pd dict : List Str) (n : Nat) :
    ∀ (k fuel idx : Nat) (grid : Grid) (cw : List Str) (found : Found) (s e : Int),
      grid.length = n → cw.length = idx → idx + k = lengths.length → searchFuel n k ≤ fuel →
      ((s = -1 ∧ e = -1) ∨
        (0 ≤ s ∧ e ≤ ((grid.length * grid.length : Nat) : Int) ∧ e ≤ 2 ^ 31)) →
      ∃ r, Multi.findPossibilities fuel idx lengths grid pd dict cw found s e = some r := by
  intro k
  induction k with
  | zero =>
    intro fuel idx grid cw found s e _ hcw hk hf _
    cases fuel with
    | zero => simp [searchFuel] at hf
    | succ fuel =>
      unfold Multi.findPossibilities
      rw [if_pos (by omega)]
      exact ⟨_, rfl⟩
  | succ k ih =>
    intro fuel idx grid cw found s e hn hcw hk hf hr
    cases fuel with
    | zero => simp [searchFuel] at hf
    | succ fuel =>
      unfold Multi.findPossibilities
      rw [if_neg (by omega)]
      have hlt : idx < lengths.length := by omega
      have hget : lengths.get? idx = some lengths[idx] := by
        rw [List.get?_eq_getElem?]; exact List.getElem?_eq_getElem hlt
      rw [hget]
      simp only
      obtain ⟨s1, e1, hs1, he1, he2, heq⟩ := multi_range_norm grid s e hr
      rw [heq]
      unfold searchFuel at hf
      apply searchLoop_total _ _ (Multi.kids grid) _ grid pd dict cw n hn
        (multi_pushNeighbours_eq grid)
        (fun cur hc c hcm => by subst hn; exact multi_good_kids grid cur c hc hcm)
        (multi_kids_length_le grid)
        (fun g w f hg =>
          ih fuel (idx + 1) g (cw ++ [w]) f (-1) (-1) hg (by simp [hcw]) (by omega)
            (by omega) (Or.inl ⟨rfl, rfl⟩))
      · intro p hp
        subst hn
        exact multi_seed_good grid s1 e1 hs1 he2 he1 p hp
      · have h1 := stackWeight_le n (10 ^ (n * n)) (Multi.seedStack grid s1 e1)
          (fun p _ => by
            unfold pathWeight
            exact Nat.pow_le_pow_right (by decide) (Nat.sub_le _ _))
        have h2 := multi_seedStack_length_le grid s1 e1 hs1 he2
        have h3 : (Multi.seedStack grid s1 e1).length * 10 ^ (n * n) ≤ n * n * 10 ^ (n * n) := by
          apply Nat.mul_le_mul_right
          subst hn
          omega
        omega
/-! ## The workers of `main` -/

theorem rangeStart_nonneg (d K i : Nat) (hd : d * d < 2 ^ 31) (hK : K < 2 ^ 31) (hi : i ≤ K) :
    0 ≤ Multi.rangeStart d K i := by
  rw [Multi.rangeStart_eq_cut d K i hd hK hi]
  exact Int.natCast_nonneg _

theorem rangeEnd_le (d K i : Nat) (hd : d * d < 2 ^ 31) (hK : K < 2 ^ 31) (hi : i < K) :
    Multi.rangeEnd d K i ≤ ((d * d : Nat) : Int) := by
  rw [Multi.rangeEnd_eq_cut d K i hd hK hi]
  exact Int.ofNat_le.2 (Multi.cut_le d K (i + 1) (by omega) hi)

theorem runWorkers_spec (fuel K : Nat) (lengths : List Int) (grid : Grid) (pd dict : List Str) :
    ∀ (ws : List Nat) (found r : Found),
      Multi.runWorkers fuel K lengths grid pd dict ws found = some r →
      ∀ seq, seq ∈ r ↔ seq ∈ found ∨ ∃ i ∈ ws,
        StageFrom (Multi.kids grid)
          (Multi.seedStack grid (Multi.rangeStart grid.length K i)
            (Multi.rangeEnd grid.length K i))
          lengths pd dict (Sol Multi.kids Multi.seedAll lengths pd dict 1) 0 grid [] seq := by
  intro ws
  induction ws with
  | nil =>
    intro found r h seq
    simp only [Multi.runWorkers, Option.some.injEq] at h
    subst h
    simp
  | cons i ws ih =>
    intro found r h seq
    unfold Multi.runWorkers at h
    split at h
    · simp at h
    · rename_i f' hf'
      rw [ih f' r h seq, multi_findPossibilities_spec lengths pd dict fuel 0 grid [] found f'
        _ _ hf' seq]
      simp only [List.mem_cons, exists_eq_or_imp]
      tauto

theorem runWorkers_total (fuel K : Nat) (lengths : List Int) (grid : Grid) (pd dict : List Str)
    (hf : searchFuel grid.length lengths.length ≤ fuel) :
    ∀ (ws : List Nat) (found : Found),
      (∀ i ∈ ws, 0 ≤ Multi.rangeStart grid.length K i ∧
        Multi.rangeEnd grid.length K i ≤ ((grid.length * grid.length : Nat) : Int) ∧
        Multi.rangeEnd grid.length K i ≤ 2 ^ 31) →
      ∃ r, Multi.runWorkers fuel K lengths grid pd dict ws found = some r := by
  intro ws
  induction ws with
  | nil => intro found _; exact ⟨found, rfl⟩
  | cons i ws ih =>
    intro found hws
    have hi := hws i (List.mem_cons_self _ _)
    obtain ⟨f', hf'⟩ := multi_findPossibilities_total lengths pd dict grid.length
      lengths.length fuel 0 grid [] found (Multi.rangeStart grid.length K i)
      (Multi.rangeEnd grid.length K i) rfl rfl (by simp) hf (Or.inr hi)
    obtain ⟨r, hr⟩ := ih f' (fun j hj => hws j (List.mem_cons_of_mem _ hj))
    exact ⟨r, by unfold Multi.runWorkers; rw [hf']; exact hr⟩

theorem ranges_fit (grid : Grid) (K : Nat) (hd : grid.length * grid.length < 2 ^ 31)
    (hK : K < 2 ^ 31) (i : Nat) (hi : i < K) :
    0 ≤ Multi.rangeStart grid.length K i ∧
      Multi.rangeEnd grid.length K i ≤ ((grid.length * grid.length : Nat) : Int) ∧
      Multi.rangeEnd grid.length K i ≤ 2 ^ 31 := by
  have h1 := rangeStart_nonneg grid.length K i hd hK (Nat.le_of_lt hi)
  have h2 := rangeEnd_le grid.length K i hd hK hi
  exact ⟨h1, h2, by omega⟩

theorem seeds_partition (grid : Grid) (K : Nat) (hK : 1 ≤ K) (hK2 : K < 2 ^ 31)
    (hd : grid.length * grid.length < 2 ^ 31) (p : Path) :
    (∃ i, i < K ∧ p ∈ Multi.seedStack grid (Multi.rangeStart grid.length K i)
        (Multi.rangeEnd grid.length K i)) ↔
      p ∈ Multi.seedStack grid (Multi.rangeStart grid.length 1 0)
        (Multi.rangeEnd grid.length 1 0) := by
  have h0 : Multi.rangeStart grid.length 1 0 = 0 := by
    rw [Multi.rangeStart_eq_cut _ 1 0 hd (by decide) (by decide), Multi.cut_zero]; rfl
  have h1 : Multi.rangeEnd grid.length 1 0 = ((grid.length * grid.length : Nat) : Int) := by
    rw [Multi.rangeEnd_eq_cut _ 1 0 hd (by decide) (by decide)]
    exact congrArg _ (Multi.cut_last _ 1 (by decide))
  rw [h0, h1, mem_multi_seedStack grid 0 _ (le_refl _) (by omega)]
  constructor
  · rintro ⟨i, hi, hp⟩
    obtain ⟨hs, he, he2⟩ := ranges_fit grid K hd hK2 i hi
    obtain ⟨k, _, hk2, hk3, hk4⟩ := (mem_multi_seedStack grid _ _ hs he2 p).1 hp
    exact ⟨k, by omega, by omega, hk3, hk4⟩
  · rintro ⟨k, _, hk2, hk3, hk4⟩
    have hk' : k < Multi.cut grid.length K K := by
      rw [Multi.cut_last grid.length K (by omega)]; omega
    obtain ⟨i, hi, h1, h2⟩ := Multi.cut_cover_aux grid.length K k K hk'
    obtain ⟨hs, he, he2⟩ := ranges_fit grid K hd hK2 i hi
    refine ⟨i, hi, (mem_multi_seedStack grid _ _ hs he2 p).2 ⟨k, ?_, ?_, hk3, hk4⟩⟩
    · rw [Multi.rangeStart_eq_cut _ K i hd hK2 (Nat.le_of_lt hi)]; omega
    · rw [Multi.rangeEnd_eq_cut _ K i hd hK2 hi]; omega

/-! ### A board whose number of cells is not an `int` -/

theorem uniform_cellAt (n : Nat) (c : Char) (hn : 0 < n) :
    Grid.cellAt (List.replicate n (List.replicate n c)) 0 0 = c := by
  obtain ⟨m, rfl⟩ : ∃ m, n = m + 1 := ⟨n - 1, by omega⟩
  simp [Grid.cellAt, List.replicate_succ]

theorem largeBoard_length : largeBoard.length = 46341 := by
  unfold largeBoard
  exact List.length_replicate _ _

theorem largeBoard_corner : largeBoard.cellAt 0 0 = 'a' :=
  uniform_cellAt 46341 'a' (by decide)

theorem largeBoard_square : Square largeBoard := by
  intro row hrow
  rw [largeBoard_length]
  unfold largeBoard at hrow
  rw [List.eq_of_mem_replicate hrow]
  exact List.length_replicate _ _

/-- The stage that looks for the single target length 1 inserts the word `a`
as soon as the cell `(0, 0)`, holding `a`, is among its seeds. -/
theorem stage_finds_corner (kidsTop : Path → List Path) (seeds : List Path) (grid : Grid)
    (pd : List Str) (N : Grid → List Str → List Str → Prop)
    (hseed : Path.single ⟨0, 0⟩ 'a' ∈ seeds) (hN : ∀ g, N g [['a']] [['a']]) :
    StageFrom kidsTop seeds [1] pd [['a']] N 0 grid [] [['a']] := by
  obtain ⟨g', hg'⟩ := adjustGrid_total (settleFuel grid.length) grid (Path.single ⟨0, 0⟩ 'a')
    (le_refl _)
  refine Or.inr ⟨by simp, 1, rfl, Path.single ⟨0, 0⟩ 'a', hseed, Path.single ⟨0, 0⟩ 'a',
    Reach.here _, by simp [Path.single, Path.insert, Path.size],
    by simp [Path.single, Path.insert], _, g', hg', ?_⟩
  simpa [Path.single, Path.insert] using hN g'

theorem stage_of_no_seed (kidsTop : Path → List Path) (grid : Grid) (pd dict : List Str)
    (N : Grid → List Str → List Str → Prop) (seq : List Str) :
    ¬ StageFrom kidsTop [] [1] pd dict N 0 grid [] seq := by
  unfold StageFrom
  rintro (⟨h, _⟩ | ⟨_, L, _, p, hp, _⟩)
  · simp at h
  · simp at hp

/-- C5 as stated fails on the board of 46341 rows of `a`, for the target
lengths `[1]` and the dictionary `{a}`.  With one worker the range handed to
it is `[0, -2147479015)`, no cell is a starting cell and nothing is found;
with two workers the first has the range `[0, 1073744140)` and finds `a`. -/
theorem partition_fails_on_large_board :
    Square largeBoard ∧ largeBoard.length = 46341 ∧
    Multi.rangeStart 46341 1 0 = 0 ∧ Multi.rangeEnd 46341 1 0 = -2147479015 ∧
    Multi.rangeStart 46341 2 0 = 0 ∧ Multi.rangeEnd 46341 2 0 = 1073744140 ∧
    Multi.searchAll (searchFuel 46341 1) 1 [1] largeBoard [['a']] [['a']] = some [] ∧
    ∃ r2, Multi.searchAll (searchFuel 46341 1) 2 [1] largeBoard [['a']] [['a']] = some r2 ∧
      [['a']] ∈ r2 := by
  have hs1 : Multi.rangeStart 46341 1 0 = 0 := by decide
  have he1 : Multi.rangeEnd 46341 1 0 = -2147479015 := by decide
  have hs2 : Multi.rangeStart 46341 2 0 = 0 := by decide
  have he2 : Multi.rangeEnd 46341 2 0 = 1073744140 := by decide
  have hs3 : Multi.rangeStart 46341 2 1 = 1073744140 := by decide
  have he3 : Multi.rangeEnd 46341 2 1 = -2147479015 := by decide
  refine ⟨largeBoard_square, largeBoard_length, hs1, he1, hs2, he2, ?_, ?_⟩
  · generalize hF : searchFuel 46341 1 = F
    have hf : searchFuel largeBoard.length ([1] : List Int).length ≤ F := by
      rw [largeBoard_length, ← hF]; exact le_refl _
    obtain ⟨r, hr⟩ := runWorkers_total F 1 [1] largeBoard [['a']] [['a']] hf (List.range 1) []
      (fun i hi => by
        have hi0 : i = 0 := by simpa using hi
        subst hi0
        rw [largeBoard_length, hs1, he1]
        omega)
    have hnil : r = [] := by
      rw [List.eq_nil_iff_forall_not_mem]
      intro seq hseq
      rw [runWorkers_spec F 1 [1] largeBoard [['a']] [['a']] _ _ _ hr seq] at hseq
      rcases hseq with h | ⟨i, hi, hst⟩
      · simp at h
      · have hi0 : i = 0 := by simpa using hi
        subst hi0
        rw [largeBoard_length, hs1, he1] at hst
        have hempty : Multi.seedStack largeBoard 0 (-2147479015) = [] := by
          rw [multi_seedStack_eq largeBoard 0 _ (le_refl _) (by omega)]
          rfl
        rw [hempty] at hst
        exact stage_of_no_seed _ _ _ _ _ _ hst
    unfold Multi.searchAll
    rw [hr, hnil]
  · generalize hF : searchFuel 46341 1 = F
    have hf : searchFuel largeBoard.length ([1] : List Int).length ≤ F := by
      rw [largeBoard_length, ← hF]; exact le_refl _
    obtain ⟨r, hr⟩ := runWorkers_total F 2 [1] largeBoard [['a']] [['a']] hf (List.range 2) []
      (fun i hi => by
        have hi2 : i = 0 ∨ i = 1 := by
          have : i < 2 := List.mem_range.1 hi
          omega
        rw [largeBoard_length]
        rcases hi2 with rfl | rfl
        · rw [hs2, he2]; omega
        · rw [hs3, he3]; omega)
    refine ⟨r, hr, ?_⟩
    rw [runWorkers_spec F 2 [1] largeBoard [['a']] [['a']] _ _ _ hr]
    refine Or.inr ⟨0, by simp, ?_⟩
    rw [largeBoard_length, hs2, he2]
    apply stage_finds_corner
    · rw [mem_multi_seedStack largeBoard 0 _ (le_refl _) (by omega)]
      refine ⟨0, by omega, by omega, ?_, ?_⟩
      · rw [largeBoard_length]
        simp only [Nat.zero_div, Nat.zero_mod]
        rw [largeBoard_corner]
        decide
      · rw [largeBoard_length]
        simp only [Nat.zero_div, Nat.zero_mod]
        rw [largeBoard_corner]
        rfl
    · intro g
      exact Sol.done rfl

/-- C5, amended.  Partition invariance on the boards whose cells are counted
by an `int`.  For every grid with `dim * dim < 2^31`, every worker count
`1 ≤ K < 2^31`, target-length list and pair of sets, the workers of `main`,
run one after another on one result set with the ranges
`[i * dim * dim / K, (i + 1) * dim * dim / K)`, return, and they leave
exactly the sequences that the single worker of `K = 1` leaves, whose range
is `[0, dim * dim)`. -/
theorem partition_invariance (K : Nat) (hK : 1 ≤ K) (hK2 : K < 2 ^ 31) (lengths : List Int)
    (grid : Grid) (hd : grid.length * grid.length < 2 ^ 31)
    (pd dict : List Str) (fuel : Nat) (hf : searchFuel grid.length lengths.length ≤ fuel) :
    (∀ i, i < K →
      Multi.rangeStart grid.length K i = ((i * grid.length * grid.length / K : Nat) : Int) ∧
      Multi.rangeEnd grid.length K i =
        (((i + 1) * grid.length * grid.length / K : Nat) : Int)) ∧
    Multi.rangeStart grid.length 1 0 = 0 ∧
    Multi.rangeEnd grid.length 1 0 = ((grid.length * grid.length : Nat) : Int) ∧
    ∃ rK r1, Multi.searchAll fuel K lengths grid pd dict = some rK ∧
      Multi.searchAll fuel 1 lengths grid pd dict = some r1 ∧
      ∀ seq, seq ∈ rK ↔ seq ∈ r1 := by
  refine ⟨fun i hi => ⟨Multi.rangeStart_eq_cut _ K i hd hK2 (Nat.le_of_lt hi),
    Multi.rangeEnd_eq_cut _ K i hd hK2 hi⟩, ?_, ?_, ?_⟩
  · rw [Multi.rangeStart_eq_cut _ 1 0 hd (by decide) (by decide), Multi.cut_zero]; rfl
  · rw [Multi.rangeEnd_eq_cut _ 1 0 hd (by decide) (by decide)]
    exact congrArg _ (Multi.cut_last _ 1 (by decide))
  obtain ⟨rK, hrK⟩ := runWorkers_total fuel K lengths grid pd dict hf (List.range K) []
    (fun i hi => ranges_fit grid K hd hK2 i (List.mem_range.1 hi))
  obtain ⟨r1, hr1⟩ := runWorkers_total fuel 1 lengths grid pd dict hf (List.range 1) []
    (fun i hi => ranges_fit grid 1 hd (by decide) i (List.mem_range.1 hi))
  refine ⟨rK, r1, hrK, hr1, fun seq => ?_⟩
  rw [runWorkers_spec fuel K lengths grid pd dict _ _ _ hrK seq,
    runWorkers_spec fuel 1 lengths grid pd dict _ _ _ hr1 seq]
  simp only [List.not_mem_nil, false_or, List.mem_range, Nat.lt_one_iff, exists_eq_left]
  unfold StageFrom
  constructor
  · rintro ⟨i, hi, h | ⟨hb, L, hL, p, hp, hy⟩⟩
    · exact Or.inl h
    · exact Or.inr ⟨hb, L, hL, p, (seeds_partition grid K hK hK2 hd p).1 ⟨i, hi, hp⟩, hy⟩
  · rintro (h | ⟨hb, L, hL, p, hp, hy⟩)
    · exact ⟨0, by omega, Or.inl h⟩
    · obtain ⟨i, hi, hp'⟩ := (seeds_partition grid K hK hK2 hd p).2 hp
      exact ⟨i, hi, Or.inr ⟨hb, L, hL, p, hp', hy⟩⟩

/-- Witness of the amended C5: three workers on the board `ca / ts`, whose
ranges are `[0, 1)`, `[1, 2)` and `[2, 4)`; together they find `cat` and
`act`, as the single worker does. -/
theorem partition_invariance_witness :
    1 ≤ 3 ∧ 3 < 2 ^ 31 ∧ scenarioGrid.length * scenarioGrid.length < 2 ^ 31 ∧
    searchFuel scenarioGrid.length ([3] : List Int).length ≤ 50000 ∧
    Multi.rangeStart 2 3 0 = 0 ∧ Multi.rangeEnd 2 3 0 = 1 ∧ Multi.rangeEnd 2 3 1 = 2 ∧
    Multi.rangeEnd 2 3 2 = 4 ∧
    ∃ rK r1,
      Multi.searchAll 50000 3 [3] scenarioGrid (readDict (some scenarioWords) [] []).2.1
        (readDict (some scenarioWords) [] []).2.2 = some rK ∧
      Multi.searchAll 50000 1 [3] scenarioGrid (readDict (some scenarioWords) [] []).2.1
        (readDict (some scenarioWords) [] []).2.2 = some r1 ∧
      ∀ seq, seq ∈ rK ↔ seq ∈ r1 :=
  ⟨by decide, by decide, by decide, by decide, by decide, by decide, by decide, by decide,
    (partition_invariance 3 (by decide) (by decide) _ scenarioGrid (by decide) _ _ 50000
      (by decide)).2.2.2⟩

/-! ## The hash of the result set -/

theorem hash_foldl (strHash : Str → Nat) (v : List Str) :
    ∀ h0, v.foldl (fun hash s => (hash + strHash s) % 2 ^ 64) h0 % 2 ^ 64 =
      (h0 + (v.map strHash).sum) % 2 ^ 64 := by
  induction v with
  | nil => intro h0; simp
  | cons s v ih =>
    intro h0
    simp only [List.foldl_cons, List.map_cons, List.sum_cons]
    rw [ih]
    omega

theorem hash_lt (strHash : Str → Nat) (v : List Str) :
    ∀ h0, h0 < 2 ^ 64 → v.foldl (fun hash s => (hash + strHash s) % 2 ^ 64) h0 < 2 ^ 64 := by
  induction v with
  | nil => intro h0 h; simpa using h
  | cons s v ih =>
    intro h0 _
    simp only [List.foldl_cons]
    exact ih _ (Nat.mod_lt _ (by decide))

theorem hash_eq_sum (strHash : Str → Nat) (v : List Str) :
    Hash strHash v = (v.map strHash).sum % 2 ^ 64 := by
  have h1 := hash_foldl strHash v 0
  have h2 := hash_lt strHash v 0 (by decide)
  unfold Hash
  rw [Nat.mod_eq_of_lt h2] at h1
  simpa using h1

theorem hashInsert_eq {α : Type} [DecidableEq α] (hash : α → Nat) (s : List α) (a : α) :
    hashInsert hash s a = setInsert s a := by
  unfold hashInsert setInsert
  have : (s.any (fun b => hash b == hash a && decide (b = a))) = true ↔ a ∈ s := by
    simp only [List.any_eq_true, Bool.and_eq_true, beq_iff_eq, decide_eq_true_eq]
    constructor
    · rintro ⟨b, hb, _, rfl⟩; exact hb
    · intro h; exact ⟨a, h, rfl, rfl⟩
  by_cases h : a ∈ s
  · rw [if_pos (this.2 h), if_pos h]
  · rw [if_neg (fun hh => h (this.1 hh)), if_neg h]

/-- C20.  The hash of a word sequence is the sum modulo `2^64` of the string
hashes of its words, whatever the string hash function; two sequences that
are permutations of one another therefore have equal hashes; and the result
set still keeps two different sequences, permutations of one another or not,
as two elements, because an element is only taken as present when it is equal
word for word, in order. -/
theorem hash_is_prefilter (strHash : Str → Nat) (v w : List Str) (found : Found)
    (hperm : v.Perm w) (hne : v ≠ w) :
    Hash strHash v = (v.map strHash).sum % 2 ^ 64 ∧
    Hash strHash v = Hash strHash w ∧
    hashInsert (Hash strHash) found v = setInsert found v ∧
    v ∈ hashInsert (Hash strHash) (hashInsert (Hash strHash) found v) w ∧
    w ∈ hashInsert (Hash strHash) (hashInsert (Hash strHash) found v) w ∧
    hashInsert (Hash strHash) (hashInsert (Hash strHash) [] v) w = [v, w] := by
  refine ⟨hash_eq_sum strHash v, ?_, hashInsert_eq _ _ _, ?_, ?_, ?_⟩
  · rw [hash_eq_sum, hash_eq_sum, (hperm.map strHash).sum_eq]
  · rw [hashInsert_eq, hashInsert_eq, mem_setInsert, mem_setInsert]
    exact Or.inl (Or.inr rfl)
  · rw [hashInsert_eq, mem_setInsert]
    exact Or.inr rfl
  · rw [hashInsert_eq, hashInsert_eq]
    simp [setInsert, hne, Ne.symm hne]

/-- Witness of C20: the sequences `[ab, cd]` and `[cd, ab]`, hashed by the
length of the string. -/
theorem hash_is_prefilter_witness :
    ([['a', 'b'], ['c', 'd']] : List Str).Perm [['c', 'd'], ['a', 'b']] ∧
    ([['a', 'b'], ['c', 'd']] : List Str) ≠ [['c', 'd'], ['a', 'b']] ∧
    Hash List.length [['a', 'b'], ['c', 'd']] = Hash List.length [['c', 'd'], ['a', 'b']] ∧
    hashInsert (Hash List.length) (hashInsert (Hash List.length) [] [['a', 'b'], ['c', 'd']])
      [['c', 'd'], ['a', 'b']] = [[['a', 'b'], ['c', 'd']], [['c', 'd'], ['a', 'b']]] :=
  have hp : ([['a', 'b'], ['c', 'd']] : List Str).Perm [['c', 'd'], ['a', 'b']] :=
    List.Perm.swap _ _ _
  have hn : ([['a', 'b'], ['c', 'd']] : List Str) ≠ [['c', 'd'], ['a', 'b']] := by decide
  have h := hash_is_prefilter List.length _ _ [] hp hn
  ⟨hp, hn, h.2.1, h.2.2.2.2.2⟩

/-! ## Scenario B and termination -/

/-- C12.  Scenario B: for every grid, every pair of sets and every list of
target lengths, if for some position `k` the full-word set contains no word
of `lengths[k]` characters, then the result set is empty after
`findPossibilities(0, ...)` returns. -/
theorem no_word_of_requested_length (lengths : List Int) (grid : Grid) (pd dict : List Str)
    (fuel : Nat) (k : Nat) (hk : k < lengths.length)
    (hno : ∀ w ∈ dict, ((w.length : Nat) : Int) ≠ lengths.get ⟨k, hk⟩)
    (hf : searchFuel grid.length lengths.length ≤ fuel) :
    findPossibilities fuel 0 lengths grid pd dict [] [] = some [] := by
  obtain ⟨found, h⟩ := findPossibilities_total lengths pd dict grid.length lengths.length
    fuel 0 grid [] [] rfl rfl (by simp) hf
  rw [h]
  congr 1
  apply List.eq_nil_iff_forall_not_mem.2
  intro seq hs
  obtain ⟨ps, hreal, hmap, hws⟩ := found_iff_realizes lengths grid pd dict fuel found h seq hs
  have h2 := forall2_lengths dict ps seq (realizes_words grid ps seq hreal) hws
  rw [hmap] at h2
  obtain ⟨hlen, hall⟩ := List.forall₂_iff_get.1 h2
  have := hall k (by omega) hk
  exact hno _ this.1 this.2

/-- Witness of C12: the words `cat`, `cats`, `act` hold no word of two
characters. -/
theorem no_word_of_requested_length_witness :
    (∀ w ∈ (readDict (some scenarioWords) [] []).2.2,
      ((w.length : Nat) : Int) ≠ ([3, 2] : List Int).get ⟨1, by decide⟩) ∧
    searchFuel scenarioGrid.length ([3, 2] : List Int).length ≤ 100000 ∧
    findPossibilities 100000 0 [3, 2] scenarioGrid
      (readDict (some scenarioWords) [] []).2.1 (readDict (some scenarioWords) [] []).2.2
      [] [] = some [] :=
  ⟨by decide, by decide,
    no_word_of_requested_length [3, 2] scenarioGrid _ _ 100000 1 (by decide) (by decide)
      (by decide)⟩

/-- C18.  Termination.  For every grid, every list of target lengths (a
length of 0, a negative length and a length greater than `dim * dim`
included), every pair of sets and every result set so far, a call of
`findPossibilities` whose `currentWords` holds `targetLengthIndex` words, at
most `wordLengths.size()` of them, returns for every step budget from
`searchFuel` on; and the restart loop of `adjustGrid` returns on every grid
and path for every step budget from `settleFuel` on. -/
theorem search_terminates (lengths : List Int) (grid : Grid) (pd dict : List Str) :
    (∀ (idx : Nat) (cw : List Str) (found : Found) (fuel : Nat),
      cw.length = idx → idx ≤ lengths.length →
      searchFuel grid.length (lengths.length - idx) ≤ fuel →
      ∃ r, findPossibilities fuel idx lengths grid pd dict cw found = some r) ∧
    (∀ (path : Path) (fuel : Nat), settleFuel grid.length ≤ fuel →
      ∃ g', adjustGrid fuel grid path = some g') := by
  constructor
  · intro idx cw found fuel hcw hidx hf
    exact findPossibilities_total lengths pd dict grid.length (lengths.length - idx) fuel idx
      grid cw found rfl hcw (by omega) hf
  · intro path fuel hf
    exact adjustGrid_total fuel grid path hf

/-! ## The worker count -/

theorem parseArgs_numThreads (stoul : Str → Option Nat) (N : Nat) (hN : 1 ≤ N) :
    ∀ (args : List Str) (o o' : Options), 1 ≤ o.numThreads → o.numThreads ≤ N →
      Multi.parseArgs stoul N args o = some o' → 1 ≤ o'.numThreads ∧ o'.numThreads ≤ N := by
  intro args
  induction args with
  | nil =>
    intro o o' h1 h2 h
    simp only [Multi.parseArgs, Option.some.injEq] at h
    subst h
    exact ⟨h1, h2⟩
  | cons a rest ih =>
    intro o o' h1 h2 h
    simp only [Multi.parseArgs] at h
    have hq : (if a = "--noquery".toList then { o with query := false } else o).numThreads
        = o.numThreads := by split <;> rfl
    split at h
    · simp at h
    · rename_i o2 ho2
      have hb2 : 1 ≤ o2.numThreads ∧ o2.numThreads ≤ N := by
        split at ho2
        · split at ho2
          · simp at ho2
          · split at ho2
            · simp at ho2
            · simp only [Option.some.injEq] at ho2
              subst ho2
              simp only
              omega
        · simp only [Option.some.injEq] at ho2
          subst ho2
          rw [hq]
          exact ⟨h1, h2⟩
      split at h
      · simp at h
      · rename_i o3 ho3
        have hb3 : 1 ≤ o3.numThreads ∧ o3.numThreads ≤ N := by
          split at ho3
          · split at ho3
            · simp at ho3
            · simp only [Option.some.injEq] at ho3
              subst ho3
              exact hb2
          · simp only [Option.some.injEq] at ho3
            subst ho3
            exact hb2
        exact ih o3 o' hb3.1 hb3.2 h

/-- C15 as stated fails when the hardware parallelism is reported as 0 (the
value `thread::hardware_concurrency()` returns when it cannot tell): with
`--threads 4` the effective worker count is `min(max(1, 4), 0) = 0`, and
without `--threads` it is `NUM_THREADS = 0`. -/
theorem zero_workers_when_parallelism_unknown :
    (Multi.options (fun _ => some 4) 0 ["--threads".toList, "4".toList]).map
      (fun o => o.numThreads) = some 0 ∧
    (Multi.options (fun _ => some 4) 0 []).map (fun o => o.numThreads) = some 0 := by
  constructor <;> decide

/-- C15, amended.  For every value requested with `--threads`, whatever the
other arguments, and every reported hardware parallelism of at least 1, the
effective worker count `numThreads` is at least 1 and at most the hardware
parallelism; without `--threads` it is the hardware parallelism itself. -/
theorem worker_count_bounds (stoul : Str → Option Nat) (NUM_THREADS : Nat) (args : List Str)
    (o : Options) (hN : 1 ≤ NUM_THREADS) (h : Multi.options stoul NUM_THREADS args = some o) :
    1 ≤ o.numThreads ∧ o.numThreads ≤ NUM_THREADS ∧
    (Multi.options stoul NUM_THREADS []).map (fun o => o.numThreads) = some NUM_THREADS :=
  ⟨(parseArgs_numThreads stoul NUM_THREADS hN args _ o hN (Nat.le_refl _) h).1,
    (parseArgs_numThreads stoul NUM_THREADS hN args _ o hN (Nat.le_refl _) h).2, rfl⟩

/-- Witness of the amended C15: `--threads 100` on a machine of 8 hardware
threads gives 8 workers. -/
theorem worker_count_bounds_witness :
    1 ≤ 8 ∧
    Multi.options (fun _ => some 100) 8 ["--threads".toList, "100".toList] =
      some ⟨true, DEFAULT_DICT_PATH, 8⟩ ∧
    (1 ≤ (⟨true, DEFAULT_DICT_PATH, 8⟩ : Options).numThreads ∧
     (⟨true, DEFAULT_DICT_PATH, 8⟩ : Options).numThreads ≤ 8 ∧
     (Multi.options (fun _ => some 100) 8 []).map (fun o => o.numThreads) = some 8) :=
  ⟨by decide, by decide,
    worker_count_bounds (fun _ => some 100) 8 ["--threads".toList, "100".toList]
      ⟨true, DEFAULT_DICT_PATH, 8⟩ (by decide) (by decide)⟩

/-! ## The input of `main` -/

theorem dropWhile_filter_nil {α : Type} (p : α → Bool) :
    ∀ l : List α, l.dropWhile p = [] → l.filter (fun c => !p c) = [] := by
  intro l
  induction l with
  | nil => intro _; rfl
  | cons a l ih =>
    intro h
    rw [List.dropWhile_cons] at h
    split at h
    · rename_i hp
      simp only [List.filter_cons, hp, Bool.not_true, Bool.false_eq_true, if_false]
      exact ih h
    · simp at h

theorem dropWhile_filter_cons {α : Type} (p : α → Bool) (c : α) (r : List α) :
    ∀ l : List α, l.dropWhile p = c :: r →
      l.filter (fun c => !p c) = c :: r.filter (fun c => !p c) := by
  intro l
  induction l with
  | nil => intro h; simp at h
  | cons a l ih =>
    intro h
    rw [List.dropWhile_cons] at h
    split at h
    · rename_i hp
      simp only [List.filter_cons, hp, Bool.not_true, Bool.false_eq_true, if_false]
      exact ih h
    · rename_i hp
      simp only [List.cons.injEq] at h
      obtain ⟨rfl, rfl⟩ := h
      simp only [List.filter_cons, hp, Bool.not_false, if_true]

theorem extractChar_pending (s : Stream) :
    (extractChar s).1 = (pending s).head? ∧ pending (extractChar s).2 = (pending s).tail := by
  unfold extractChar pending
  cases hf : s.failed with
  | true => simp [hf]
  | false =>
    simp only [Bool.false_eq_true, if_false]
    cases hd : s.rest.dropWhile isSpace with
    | nil =>
      simp only
      rw [dropWhile_filter_nil isSpace _ hd]
      simp
    | cons c r =>
      simp only
      rw [dropWhile_filter_cons isSpace c r _ hd]
      simp

theorem readRow_spec : ∀ (n : Nat) (s : Stream),
    (readRow n s).1 = (List.range n).map (fun j => ((pending s).getD j '\x00').toLower) ∧
    pending (readRow n s).2 = (pending s).drop n := by
  intro n
  induction n with
  | zero => intro s; simp [readRow]
  | succ n ih =>
    intro s
    obtain ⟨h1, h2⟩ := extractChar_pending s
    obtain ⟨i1, i2⟩ := ih (extractChar s).2
    simp only [readRow]
    rw [i1, i2, h1, h2]
    constructor
    · rw [List.range_succ_eq_map]
      simp only [List.map_cons, List.map_map]
      congr 1
      · cases pending s <;> rfl
      · apply List.map_congr_left
        intro j _
        cases pending s <;> simp
    · cases pending s <;> simp

theorem readRows_spec (dim : Nat) : ∀ (n : Nat) (s : Stream),
    (readRows dim n s).1 = (List.range n).map (fun i =>
      (List.range dim).map (fun j => ((pending s).getD (i * dim + j) '\x00').toLower)) := by
  intro n
  induction n with
  | zero => intro s; simp [readRows]
  | succ n ih =>
    intro s
    obtain ⟨h1, h2⟩ := readRow_spec dim s
    simp only [readRows]
    rw [ih, h1, h2, List.range_succ_eq_map]
    simp only [List.map_cons, List.map_map, Nat.zero_mul, Nat.zero_add]
    congr 1
    apply List.map_congr_left
    intro i _
    apply List.map_congr_left
    intro j _
    congr 1
    rw [List.getD_eq_getElem?_getD, List.getD_eq_getElem?_getD, List.getElem?_drop]
    congr 2
    rw [Nat.succ_eq_add_one]
    ring

theorem readGrid_spec (dim : Nat) (s : Stream) :
    readGrid dim s = (List.range dim).map (fun i =>
      (List.range dim).map (fun j => ((pending s).getD (i * dim + j) '\x00').toLower)) :=
  readRows_spec dim dim s

theorem readGrid_square (dim : Nat) (s : Stream) :
    Square (readGrid dim s) ∧ (readGrid dim s).length = dim := by
  rw [readGrid_spec]
  unfold Square
  constructor
  · intro row hrow
    simp only [List.mem_map, List.mem_range] at hrow
    obtain ⟨i, _, rfl⟩ := hrow
    simp
  · simp

theorem readLengths_length : ∀ (n : Nat) (s : Stream), (readLengths n s).1.length = n := by
  intro n
  induction n with
  | zero => intro s; rfl
  | succ n ih => intro s; simp [readLengths, ih]


theorem readInput_aborted (stdin : List Char) (dim numWords : Int) (s1 s2 : Stream)
    (hdim : extractInt ⟨stdin, false⟩ = (some dim, s1))
    (hnum : extractInt s1 = (some numWords, s2)) (h : numWords < 0 ∨ dim < 0) :
    readInput stdin = Parsed.aborted := by
  unfold readInput
  rw [hdim]
  simp only
  rw [hnum]
  simp only
  by_cases h1 : numWords < 0
  · rw [if_pos h1]
  · rw [if_neg h1, if_pos (by omega)]

theorem readInput_ready (stdin : List Char) (dim numWords : Int) (s1 s2 : Stream)
    (hdim : extractInt ⟨stdin, false⟩ = (some dim, s1))
    (hnum : extractInt s1 = (some numWords, s2)) (h1 : 0 ≤ numWords) (h2 : 0 ≤ dim) :
    readInput stdin = Parsed.ready (readLengths numWords.toNat s2).1
      (readGrid dim.toNat (readLengths numWords.toNat s2).2) := by
  unfold readInput
  rw [hdim]
  simp only
  rw [hnum]
  simp only
  rw [if_neg (by omega), if_neg (by omega)]

theorem main_of_ready (fuel : Nat) (lines : List Str) (stdin : List Char)
    (wordLengths : List Int) (grid : Grid) (h : readInput stdin = Parsed.ready wordLengths grid) :
    main fuel (some lines) stdin =
      (findPossibilities fuel 0 wordLengths grid (readDict (some lines) [] []).2.1
        (readDict (some lines) [] []).2.2 [] []).map (Outcome.returned 0) := by
  have h1 : (readDict (some lines) [] []).1 = 1 := rfl
  unfold main
  simp only [h1, h]
  rw [if_neg (by decide)]
  cases findPossibilities fuel 0 wordLengths grid (readDict (some lines) [] []).2.1
    (readDict (some lines) [] []).2.2 [] [] <;> rfl

theorem multi_main_of_ready (fuel numThreads : Nat) (lines : List Str) (stdin : List Char)
    (wordLengths : List Int) (grid : Grid) (h : readInput stdin = Parsed.ready wordLengths grid) :
    Multi.main fuel numThreads (some lines) stdin =
      (Multi.searchAll fuel numThreads wordLengths grid (readDict (some lines) [] []).2.1
        (readDict (some lines) [] []).2.2).map (Outcome.returned 0) := by
  have h1 : (readDict (some lines) [] []).1 = 1 := rfl
  unfold Multi.main
  simp only [h1, h]
  rw [if_neg (by decide)]
  cases Multi.searchAll fuel numThreads wordLengths grid (readDict (some lines) [] []).2.1
    (readDict (some lines) [] []).2.2 <;> rfl

theorem main_of_aborted (fuel numThreads : Nat) (lines : List Str) (stdin : List Char)
    (h : readInput stdin = Parsed.aborted) :
    main fuel (some lines) stdin = some Outcome.aborted ∧
    Multi.main fuel numThreads (some lines) stdin = some Outcome.aborted := by
  have h1 : (readDict (some lines) [] []).1 = 1 := rfl
  unfold main Multi.main
  simp only [h1, h]
  exact ⟨by rw [if_neg (by decide)], by rw [if_neg (by decide)]⟩

/-- C14 as stated fails.  On the input `2 1 3 C1 tS` with the one-word
dictionary `c1t`, the board `c1 / ts` is built, whose second cell is not a
letter, and both programs return with status 0 after a search that ran on
that board and traced the word `c1t` through the non-letter cell.  On the
input `2 2 3 ca ts`, which announces two lengths and supplies one, the
program searches with the lengths `[3, 0]` on a board of `'\0'` cells and
returns with status 0. -/
theorem non_letter_board_is_searched :
    readInput "2 1 3 C1 tS".toList = Parsed.ready [3] [['c', '1'], ['t', 's']] ∧
    ('1' : Char).isAlpha = false ∧
    main 1000 (some [['c', '1', 't']]) "2 1 3 C1 tS".toList =
      some (Outcome.returned 0 [[['c', '1', 't']]]) ∧
    Multi.main 1000 2 (some [['c', '1', 't']]) "2 1 3 C1 tS".toList =
      some (Outcome.returned 0 [[['c', '1', 't']]]) ∧
    readInput "2 2 3 ca ts".toList =
      Parsed.ready [3, 0] [['\x00', '\x00'], ['\x00', '\x00']] ∧
    main 1000 (some [['c', 'a', 't']]) "2 2 3 ca ts".toList = some (Outcome.returned 0 []) := by
  refine ⟨by decide, by decide, by decide, by decide, by decide, by decide⟩

/-- C14, amended.  Neither program validates the board or the lengths.  When
`cin >> dim` and `cin >> numWords` store two values, a negative one makes a
vector constructor throw and the program is terminated before the search,
without a message that names the cause.  Otherwise `wordLengths` has
`numWords` entries, the board is square by construction, `dim` rows of `dim`
cells that hold, row-major, the lower-cased characters read after the
lengths, letters or not (a cell for which no character could be read keeps
`'\0'`), and the search is run on that board: the program returns with
status 0 when the search returns, which it does for every step budget from
`searchFuel` on (in `wordbrain_multi.cpp`, on the boards and worker counts
that fit an `int`).  With an unreadable dictionary file both programs return
with status 1 before anything is read from standard input. -/
theorem main_runs_search_unvalidated (fuel numThreads : Nat) (lines : List Str)
    (stdin : List Char) (dim numWords : Int) (s1 s2 : Stream)
    (hdim : extractInt ⟨stdin, false⟩ = (some dim, s1))
    (hnum : extractInt s1 = (some numWords, s2)) :
    ((numWords < 0 ∨ dim < 0) →
      readInput stdin = Parsed.aborted ∧
      main fuel (some lines) stdin = some Outcome.aborted ∧
      Multi.main fuel numThreads (some lines) stdin = some Outcome.aborted) ∧
    (0 ≤ numWords → 0 ≤ dim →
      readInput stdin = Parsed.ready (readLengths numWords.toNat s2).1
        (readGrid dim.toNat (readLengths numWords.toNat s2).2) ∧
      (readLengths numWords.toNat s2).1.length = numWords.toNat ∧
      Square (readGrid dim.toNat (readLengths numWords.toNat s2).2) ∧
      (readGrid dim.toNat (readLengths numWords.toNat s2).2).length = dim.toNat ∧
      readGrid dim.toNat (readLengths numWords.toNat s2).2 =
        (List.range dim.toNat).map (fun i => (List.range dim.toNat).map (fun j =>
          ((pending (readLengths numWords.toNat s2).2).getD (i * dim.toNat + j) '\x00').toLower)) ∧
      main fuel (some lines) stdin =
        (findPossibilities fuel 0 (readLengths numWords.toNat s2).1
          (readGrid dim.toNat (readLengths numWords.toNat s2).2)
          (readDict (some lines) [] []).2.1 (readDict (some lines) [] []).2.2 [] []).map
          (Outcome.returned 0) ∧
      Multi.main fuel numThreads (some lines) stdin =
        (Multi.searchAll fuel numThreads (readLengths numWords.toNat s2).1
          (readGrid dim.toNat (readLengths numWords.toNat s2).2)
          (readDict (some lines) [] []).2.1 (readDict (some lines) [] []).2.2).map
          (Outcome.returned 0) ∧
      (searchFuel dim.toNat numWords.toNat ≤ fuel →
        (∃ foundWords, main fuel (some lines) stdin = some (Outcome.returned 0 foundWords)) ∧
        (dim.toNat * dim.toNat < 2 ^ 31 → numThreads < 2 ^ 31 →
          ∃ foundWords,
            Multi.main fuel numThreads (some lines) stdin =
              some (Outcome.returned 0 foundWords)))) ∧
    main fuel none stdin = some (Outcome.returned 1 []) ∧
    Multi.main fuel numThreads none stdin = some (Outcome.returned 1 []) := by
  refine ⟨fun h => ?_, fun h1 h2 => ?_, rfl, rfl⟩
  · have ha := readInput_aborted stdin dim numWords s1 s2 hdim hnum h
    exact ⟨ha, main_of_aborted fuel numThreads lines stdin ha⟩
  · have hr := readInput_ready stdin dim numWords s1 s2 hdim hnum h1 h2
    have hsq := readGrid_square dim.toNat (readLengths numWords.toNat s2).2
    have hlen := readLengths_length numWords.toNat s2
    have hm := main_of_ready fuel lines stdin _ _ hr
    have hmm := multi_main_of_ready fuel numThreads lines stdin _ _ hr
    refine ⟨hr, hlen, hsq.1, hsq.2, readGrid_spec _ _, hm, hmm, fun hf => ⟨?_, fun hd hK => ?_⟩⟩
    · obtain ⟨r, hr'⟩ := findPossibilities_total (readLengths numWords.toNat s2).1
        (readDict (some lines) [] []).2.1 (readDict (some lines) [] []).2.2 dim.toNat
        numWords.toNat fuel 0 (readGrid dim.toNat (readLengths numWords.toNat s2).2) [] []
        hsq.2 rfl (by rw [hlen]; simp) hf
      exact ⟨r, by rw [hm, hr']; rfl⟩
    · obtain ⟨r, hr'⟩ := runWorkers_total fuel numThreads (readLengths numWords.toNat s2).1
        (readGrid dim.toNat (readLengths numWords.toNat s2).2)
        (readDict (some lines) [] []).2.1 (readDict (some lines) [] []).2.2
        (by rw [hsq.2, hlen]; exact hf) (List.range numThreads) []
        (fun i hi => ranges_fit _ numThreads (by rw [hsq.2]; exact hd) hK i
          (List.mem_range.1 hi))
      refine ⟨r, ?_⟩
      rw [hmm]
      unfold Multi.searchAll
      rw [hr']
      rfl

/-- Witness of the amended C14: the input `2 1 3 C1 tS`, on which `dim = 2`
and `numWords = 1` are read and the board built is `c1 / ts`. -/
theorem main_runs_search_unvalidated_witness :
    extractInt ⟨"2 1 3 C1 tS".toList, false⟩ = (some 2, ⟨" 1 3 C1 tS".toList, false⟩) ∧
    extractInt ⟨" 1 3 C1 tS".toList, false⟩ = (some 1, ⟨" 3 C1 tS".toList, false⟩) ∧
    readInput "2 1 3 C1 tS".toList = Parsed.ready [3] [['c', '1'], ['t', 's']] ∧
    main 1000 (some [['c', '1', 't']]) "2 1 3 C1 tS".toList =
      (findPossibilities 1000 0 [3] [['c', '1'], ['t', 's']]
        (readDict (some [['c', '1', 't']]) [] []).2.1
        (readDict (some [['c', '1', 't']]) [] []).2.2 [] []).map (Outcome.returned 0) :=
  have h := (main_runs_search_unvalidated 1000 2 [['c', '1', 't']] "2 1 3 C1 tS".toList 2 1
    ⟨" 1 3 C1 tS".toList, false⟩ ⟨" 3 C1 tS".toList, false⟩ (by decide) (by decide)).2.1
    (by decide) (by decide)
  ⟨by decide, by decide, h.1, h.2.2.2.2.2.1⟩


/-! ## The paths on the stack -/

theorem searchLoop_step (next : Grid → List Str → Found → Option Found)
    (expand : Path → List Path → List Path) (L : Int) (grid : Grid)
    (pd dict : List Str) (cw : List Str) (fuel : Nat) (cur : Path) (st : List Path)
    (found r : Found)
    (h : searchLoop next expand L grid pd dict cw (fuel + 1) (cur :: st) found = some r) :
    ∃ found', searchLoop next expand L grid pd dict cw fuel
      (stackStep expand L pd (cur :: st)) found' = some r := by
  simp only [searchLoop] at h
  simp only [stackStep]
  split at h
  · rename_i hs
    rw [if_pos hs]
    split at h
    · split at h
      · simp at h
      · split at h
        · simp at h
        · rename_i f' _
          exact ⟨f', h⟩
    · exact ⟨found, h⟩
  · rename_i hs
    rw [if_neg hs]
    split at h
    · rename_i hp
      rw [if_pos hp]
      exact ⟨found, h⟩
    · rename_i hp
      rw [if_neg hp]
      exact ⟨found, h⟩

theorem stackStep_invariant (expand : Path → List Path → List Path)
    (kids : Path → List Path) (L : Int) (pd : List Str) (P : Path → Prop)
    (hexp : ∀ cur st, expand cur st = kids cur ++ st)
    (hkids : ∀ cur, P cur → (cur.size : Int) ≠ L → ∀ c ∈ kids cur, P c)
    (st : List Path) (h : ∀ p ∈ st, P p) : ∀ p ∈ stackStep expand L pd st, P p := by
  cases st with
  | nil => intro p hp; simp [stackStep] at hp
  | cons cur st =>
    have hst : ∀ p ∈ st, P p := fun p hp => h p (List.mem_cons_of_mem _ hp)
    simp only [stackStep]
    split
    · exact hst
    · rename_i hs
      split
      · rw [hexp]
        intro p hp
        rcases List.mem_append.1 hp with hp | hp
        · exact hkids cur (h cur (List.mem_cons_self _ _)) hs p hp
        · exact hst p hp
      · exact hst

theorem stackAfter_invariant (expand : Path → List Path → List Path)
    (kids : Path → List Path) (L : Int) (pd : List Str) (P : Path → Prop)
    (hexp : ∀ cur st, expand cur st = kids cur ++ st)
    (hkids : ∀ cur, P cur → (cur.size : Int) ≠ L → ∀ c ∈ kids cur, P c) :
    ∀ (k : Nat) (st : List Path), (∀ p ∈ st, P p) →
      ∀ p ∈ stackAfter expand L pd k st, P p := by
  intro k
  induction k with
  | zero => intro st h; exact h
  | succ k ih =>
    intro st h
    exact ih _ (stackStep_invariant expand kids L pd P hexp hkids st h)

theorem kid_size (grid : Grid) (cur c : Path) (hc : c ∈ kids grid cur) :
    c.size = cur.size + 1 := by
  obtain ⟨loc, _, i, _, j, _, _, rfl⟩ := (mem_kids grid cur c).1 hc
  simp [Path.extend, Path.insert, Path.size]

theorem stack_paths_trace (grid : Grid) (L : Int) (pd : List Str) (k : Nat) (p : Path)
    (hp : p ∈ stackAfter (pushNeighbours grid) L pd k (seedStack grid)) : TracesOn grid p :=
  stackAfter_invariant (pushNeighbours grid) (kids grid) L pd (TracesOn grid)
    (pushNeighbours_eq grid) (fun cur hcur _ c hc => tracesOn_kid grid cur c hcur hc)
    k (seedStack grid) (tracesOn_seed grid) p hp

theorem stack_paths_short (grid : Grid) (L : Int) (hL : 1 ≤ L) (pd : List Str) (k : Nat)
    (p : Path) (hp : p ∈ stackAfter (pushNeighbours grid) L pd k (seedStack grid)) :
    (p.size : Int) ≤ L :=
  stackAfter_invariant (pushNeighbours grid) (kids grid) L pd (fun p => (p.size : Int) ≤ L)
    (pushNeighbours_eq grid)
    (fun cur hcur hne c hc => by
      have := kid_size grid cur c hc
      simp only at hcur ⊢
      omega)
    k (seedStack grid)
    (fun p hp => by
      obtain ⟨i, _, j, _, _, rfl⟩ := (mem_seedStack grid p).1 hp
      simp only [Path.single, Path.insert, Path.size, List.nil_append, List.length_singleton]
      omega)
    p hp

/-- C16 as stated fails for a target length of 0: on the board `ca / ts`
the seeding loop puts four single-cell paths on the stack, and one cell is
more than 0. -/
theorem stack_path_longer_than_zero_target :
    ¬ (∀ p ∈ stackAfter (pushNeighbours scenarioGrid) 0 [] 0 (seedStack scenarioGrid),
        (p.size : Int) ≤ 0) := by
  intro h
  have := h (Path.single ⟨0, 0⟩ 'c') (by decide)
  revert this
  decide

/-- C16, amended.  Every path that is on the stack of `findPossibilities`
after any number of iterations of the loop, on any grid and for any target
length `L`, has no repeated cell, has every consecutive pair of cells
8-adjacent, and has a word with one character per cell; when `L` is at least
1 its number of cells never exceeds `L`. -/
theorem stack_path_invariant (grid : Grid) (L : Int) (pd : List Str) (k : Nat) (p : Path)
    (hp : p ∈ stackAfter (pushNeighbours grid) L pd k (seedStack grid)) :
    p.points.Nodup ∧ p.points.Chain' adjacent ∧ p.word.length = p.size ∧
    (1 ≤ L → (p.size : Int) ≤ L) := by
  have ht := stack_paths_trace grid L pd k p hp
  refine ⟨ht.nodup, ht.linked, ?_, fun hL => stack_paths_short grid L hL pd k p hp⟩
  rw [ht.spells]
  simp [Path.size]

/-- Witness of the amended C16: on the board `ca / ts`, with the prefixes of
`cat`, `cats`, `act` and the target length 3, the stack after twelve
iterations holds the paths of `cas` and `cat`; the path
`c(0,0) → a(0,1) → t(1,0)` of `cat` has three distinct cells, each adjacent to
the next. -/
theorem stack_path_invariant_witness :
    (stackAfter (pushNeighbours scenarioGrid) 3 (readDict (some scenarioWords) [] []).2.1 12
      (seedStack scenarioGrid)).map (fun p => p.word) =
      [['c', 'a', 's'], ['c', 'a', 't']] ∧
    scenarioPath ∈
      stackAfter (pushNeighbours scenarioGrid) 3 (readDict (some scenarioWords) [] []).2.1 12
        (seedStack scenarioGrid) ∧
    (scenarioPath.points.Nodup ∧ scenarioPath.points.Chain' adjacent ∧
     scenarioPath.word.length = scenarioPath.size ∧
     ((1 : Int) ≤ 3 → (scenarioPath.size : Int) ≤ 3)) ∧
    scenarioPath.size = 3 :=
  ⟨by decide, by decide,
    stack_path_invariant scenarioGrid 3 (readDict (some scenarioWords) [] []).2.1 12
      scenarioPath (by decide), by decide⟩

/-! ## The two programs push the same neighbours -/

theorem multi_kids_iff (grid : Grid) (cur c : Path)
    (hloc : ∀ loc, cur.points.getLast? = some loc → inGrid grid loc) :
    c ∈ Multi.kids grid cur ↔ c ∈ kids grid cur := by
  rw [mem_kids]
  unfold Multi.kids Multi.pushNeighbours
  cases hl : cur.points.getLast? with
  | none => simp
  | some loc =>
    obtain ⟨h1, h2, h3, h4⟩ := hloc loc hl
    have hmem : loc ∈ cur.points := mem_of_getLast? hl
    simp only [mem_pushIf, List.not_mem_nil, or_false, Multi.ltSize, Bool.and_eq_true,
      decide_eq_true_eq, Option.some.injEq, exists_eq_left']
    constructor
    · rintro (⟨hb, a1, a2, a3⟩ | ⟨hb, a1, a2, a3⟩ | ⟨hb, a1, a2, a3⟩ | ⟨hb, a1, a2, a3⟩ |
        ⟨hb, a1, a2, a3⟩ | ⟨hb, a1, a2, a3⟩ | ⟨hb, a1, a2, a3⟩ | ⟨hb, a1, a2, a3⟩)
      · exact ⟨-1, by simp, -1, by simp,
          (canStep_iff grid cur _).2 ⟨⟨by simp only; omega, by simp only; omega,
            by simp only; omega, by simp only; omega⟩, a1, a2⟩, a3⟩
      · exact ⟨-1, by simp, 0, by simp,
          (canStep_iff grid cur _).2 ⟨⟨by simp only; omega, by simp only; omega,
            by simp only; omega, by simp only; omega⟩, a1, a2⟩, a3⟩
      · exact ⟨-1, by simp, 1, by simp,
          (canStep_iff grid cur _).2 ⟨⟨by simp only; omega, by simp only; omega,
            by simp only; omega, by simp only; omega⟩, a1, a2⟩, a3⟩
      · exact ⟨0, by simp, -1, by simp,
          (canStep_iff grid cur _).2 ⟨⟨by simp only; omega, by simp only; omega,
            by simp only; omega, by simp only; omega⟩, a1, a2⟩, a3⟩
      · exact ⟨0, by simp, 1, by simp,
          (canStep_iff grid cur _).2 ⟨⟨by simp only; omega, by simp only; omega,
            by simp only; omega, by simp only; omega⟩, a1, a2⟩, a3⟩
      · exact ⟨1, by simp, -1, by simp,
          (canStep_iff grid cur _).2 ⟨⟨by simp only; omega, by simp only; omega,
            by simp only; omega, by simp only; omega⟩, a1, a2⟩, a3⟩
      · exact ⟨1, by simp, 0, by simp,
          (canStep_iff grid cur _).2 ⟨⟨by simp only; omega, by simp only; omega,
            by simp only; omega, by simp only; omega⟩, a1, a2⟩, a3⟩
      · exact ⟨1, by simp, 1, by simp,
          (canStep_iff grid cur _).2 ⟨⟨by simp only; omega, by simp only; omega,
            by simp only; omega, by simp only; omega⟩, a1, a2⟩, a3⟩
    · rintro ⟨i, hi, j, hj, hstep, hc⟩
      obtain ⟨⟨b1, b2, b3, b4⟩, b5, b6⟩ := (canStep_iff grid cur _).1 hstep
      simp only at b1 b2 b3 b4
      simp only [List.mem_cons, List.mem_singleton, List.not_mem_nil, or_false] at hi hj
      rcases hi with rfl | rfl | rfl <;> rcases hj with rfl | rfl | rfl
      · exact Or.inl ⟨⟨by omega, by omega⟩, b5, b6, hc⟩
      · exact Or.inr (Or.inl ⟨by omega, b5, b6, hc⟩)
      · exact Or.inr (Or.inr (Or.inl ⟨⟨by omega, by omega, by omega⟩, b5, b6, hc⟩))
      · exact Or.inr (Or.inr (Or.inr (Or.inl ⟨by omega, b5, b6, hc⟩)))
      · exfalso
        apply b6
        simpa using hmem
      · exact Or.inr (Or.inr (Or.inr (Or.inr (Or.inl ⟨⟨by omega, by omega⟩, b5, b6, hc⟩))))
      · exact Or.inr (Or.inr (Or.inr (Or.inr (Or.inr (Or.inl
          ⟨⟨⟨by omega, by omega⟩, by omega⟩, b5, b6, hc⟩)))))
      · exact Or.inr (Or.inr (Or.inr (Or.inr (Or.inr (Or.inr (Or.inl
          ⟨⟨by omega, by omega⟩, b5, b6, hc⟩))))))
      · exact Or.inr (Or.inr (Or.inr (Or.inr (Or.inr (Or.inr (Or.inr
          ⟨⟨⟨by omega, by omega⟩, by omega, by omega⟩, b5, b6, hc⟩))))))

theorem multi_kids_iff_good (grid : Grid) (cur c : Path) (hg : GoodPath grid.length cur) :
    c ∈ Multi.kids grid cur ↔ c ∈ kids grid cur :=
  multi_kids_iff grid cur c (fun loc hl => hg.2 loc (mem_of_getLast? hl))

theorem multi_seedAll_iff (grid : Grid) (hd : grid.length * grid.length < 2 ^ 31) (p : Path) :
    p ∈ Multi.seedAll grid ↔ p ∈ seedStack grid := by
  rw [multi_seedAll_eq grid hd, mem_multi_seedStack grid 0 _ (le_refl _) (by omega),
    mem_seedStack]
  constructor
  · rintro ⟨k, _, hk, h1, h2⟩
    have hk' : k < grid.length * grid.length := by omega
    have hpos : 0 < grid.length := by
      rcases Nat.eq_zero_or_pos grid.length with h | h
      · rw [h] at hk'; simp at hk'
      · exact h
    exact ⟨k / grid.length, Nat.div_lt_of_lt_mul hk', k % grid.length, Nat.mod_lt _ hpos, h1, h2⟩
  · rintro ⟨i, hi, j, hj, h1, h2⟩
    have hpos : 0 < grid.length := by omega
    have e1 : (i * grid.length + j) / grid.length = i := by
      rw [Nat.add_comm, Nat.add_mul_div_right _ _ hpos, Nat.div_eq_of_lt hj]
      simp
    have e2 : (i * grid.length + j) % grid.length = j := by
      rw [Nat.add_comm, Nat.add_mul_mod_self_right, Nat.mod_eq_of_lt hj]
    refine ⟨i * grid.length + j, by omega, ?_, ?_, ?_⟩
    · have : (i + 1) * grid.length ≤ grid.length * grid.length :=
        Nat.mul_le_mul_right _ hi
      have e : (i + 1) * grid.length = i * grid.length + grid.length := by ring
      have : i * grid.length + j < grid.length * grid.length := by omega
      exact Int.ofNat_lt.2 this
    · rw [e1, e2]; exact h1
    · rw [e1, e2]; exact h2

theorem reach_multi_to_single (grid : Grid) (pd : List Str) (L : Int) (p q : Path)
    (h : Reach (Multi.kids grid) pd L p q) :
    GoodPath grid.length p → Reach (kids grid) pd L p q := by
  induction h with
  | here p => intro _; exact Reach.here p
  | step h1 h2 h3 _ ih =>
    intro hg
    have hc := (multi_kids_iff_good grid _ _ hg).1 h3
    exact Reach.step h1 h2 hc (ih (good_kids grid _ _ hg hc).1)

theorem reach_single_to_multi (grid : Grid) (pd : List Str) (L : Int) (p q : Path)
    (h : Reach (kids grid) pd L p q) :
    GoodPath grid.length p → Reach (Multi.kids grid) pd L p q := by
  induction h with
  | here p => intro _; exact Reach.here p
  | step h1 h2 h3 _ ih =>
    intro hg
    exact Reach.step h1 h2 ((multi_kids_iff_good grid _ _ hg).2 h3)
      (ih (good_kids grid _ _ hg h3).1)

theorem sol_multi_to_single (lengths : List Int) (pd dict : List Str) (idx : Nat) (grid : Grid)
    (cw seq : List Str) (h : Sol Multi.kids Multi.seedAll lengths pd dict idx grid cw seq) :
    grid.length * grid.length < 2 ^ 31 → Sol kids seedStack lengths pd dict idx grid cw seq := by
  induction h with
  | done hb => intro _; exact Sol.done hb
  | word hb hL hseed hreach hsize hdict hadj _ ih =>
    intro hd
    have hs := (multi_seedAll_iff _ hd _).1 hseed
    exact Sol.word hb hL hs
      (reach_multi_to_single _ pd _ _ _ hreach (tracesOn_good _ _ (tracesOn_seed _ _ hs)))
      hsize hdict hadj (ih (by rw [adjustGrid_length _ _ _ _ hadj]; exact hd))

theorem sol_single_to_multi (lengths : List Int) (pd dict : List Str) (idx : Nat) (grid : Grid)
    (cw seq : List Str) (h : Sol kids seedStack lengths pd dict idx grid cw seq) :
    grid.length * grid.length < 2 ^ 31 →
      Sol Multi.kids Multi.seedAll lengths pd dict idx grid cw seq := by
  induction h with
  | done hb => intro _; exact Sol.done hb
  | word hb hL hseed hreach hsize hdict hadj _ ih =>
    intro hd
    exact Sol.word hb hL ((multi_seedAll_iff _ hd _).2 hseed)
      (reach_single_to_multi _ pd _ _ _ hreach (tracesOn_good _ _ (tracesOn_seed _ _ hseed)))
      hsize hdict hadj (ih (by rw [adjustGrid_length _ _ _ _ hadj]; exact hd))

theorem stack_paths_good (grid : Grid) (L : Int) (pd : List Str) (k : Nat) (p : Path)
    (hp : p ∈ stackAfter (pushNeighbours grid) L pd k (seedStack grid)) :
    ∀ loc, p.points.getLast? = some loc → inGrid grid loc := by
  intro loc hl
  exact ((stack_paths_trace grid L pd k p hp).inside loc (mem_of_getLast? hl)).1

/-- C11 as stated fails on the board of 46341 rows of `a`, for the target
lengths `[1]` and the dictionary `{a}`: `wordbrain.cpp` seeds every cell and
finds `a`, while in `wordbrain_multi.cpp` the default `end`,
`grid.size() * grid.size() = 2147488281` stored in an `int`, is
`-2147479015`, so that no cell is a starting cell and nothing is found. -/
theorem default_range_empty_on_large_board :
    Multi.toInt32 (Multi.toSizeT (largeBoard.length * largeBoard.length)) = -2147479015 ∧
    Multi.seedStack largeBoard (-1) (-1) = [] ∧
    Path.single ⟨0, 0⟩ 'a' ∈ seedStack largeBoard ∧
    (∃ r1, findPossibilities (searchFuel 46341 1) 0 [1] largeBoard [['a']] [['a']] [] [] =
        some r1 ∧ [['a']] ∈ r1) ∧
    Multi.findPossibilities (searchFuel 46341 1) 0 [1] largeBoard [['a']] [['a']] [] []
      (-1) (-1) = some [] := by
  have hend : Multi.toInt32 (Multi.toSizeT (largeBoard.length * largeBoard.length)) =
      -2147479015 := by
    rw [largeBoard_length]; decide
  have hseeds : Multi.seedStack largeBoard (-1) (-1) = [] := by
    rw [multi_seedStack_default, hend,
      multi_seedStack_eq largeBoard 0 _ (le_refl _) (by omega)]
    rfl
  have hcorner : Path.single ⟨0, 0⟩ 'a' ∈ seedStack largeBoard := by
    rw [mem_seedStack]
    refine ⟨0, by rw [largeBoard_length]; decide, 0, by rw [largeBoard_length]; decide, ?_, ?_⟩
    · rw [largeBoard_corner]; decide
    · rw [largeBoard_corner]; rfl
  refine ⟨hend, hseeds, hcorner, ?_, ?_⟩
  · generalize hF : searchFuel 46341 1 = F
    obtain ⟨r1, h1⟩ := findPossibilities_total [1] [['a']] [['a']] 46341 1 F 0 largeBoard [] []
      largeBoard_length rfl rfl (by rw [← hF])
    refine ⟨r1, h1, ?_⟩
    rw [findPossibilities_spec [1] [['a']] [['a']] F 0 largeBoard [] [] r1 h1, sol_iff]
    exact Or.inr (stage_finds_corner _ _ _ _ _ hcorner (fun g => Sol.done rfl))
  · generalize hF : searchFuel 46341 1 = F
    obtain ⟨r2, h2⟩ := multi_findPossibilities_total [1] [['a']] [['a']] 46341 1 F 0
      largeBoard [] [] (-1) (-1) largeBoard_length rfl rfl (by rw [← hF]) (Or.inl ⟨rfl, rfl⟩)
    have hnil : r2 = [] := by
      rw [List.eq_nil_iff_forall_not_mem]
      intro seq hseq
      rw [multi_findPossibilities_spec [1] [['a']] [['a']] F 0 largeBoard [] [] r2 (-1) (-1)
        h2 seq, hseeds] at hseq
      rcases hseq with h | h
      · simp at h
      · exact stage_of_no_seed _ _ _ _ _ _ h
    rw [h2, hnil]

/-- C11, amended.  Neighbour order does not affect the result.  For every
grid and every path whose last cell lies inside the grid, as it does for
every path that is ever on the stack of the search whatever the target
length, the eight unrolled neighbour checks of `wordbrain_multi.cpp` push
exactly the same paths as the nested loop of `wordbrain.cpp`; and for every
input whose board has fewer than `2^31` cells, `findPossibilities` of
`wordbrain_multi.cpp`, called with the default `start`, `end`, and
`findPossibilities` of `wordbrain.cpp` both return, with the same set of
sequences. -/
theorem neighbour_order_irrelevant (lengths : List Int) (grid : Grid) (pd dict : List Str)
    (fuel : Nat) (hf : searchFuel grid.length lengths.length ≤ fuel) :
    (∀ (cur : Path) (st : List Path) (c : Path),
      (∀ loc, cur.points.getLast? = some loc → inGrid grid loc) →
      (c ∈ Multi.pushNeighbours grid cur st ↔ c ∈ pushNeighbours grid cur st)) ∧
    (∀ (L : Int) (k : Nat) (cur : Path),
      cur ∈ stackAfter (pushNeighbours grid) L pd k (seedStack grid) →
      ∀ (st : List Path) (c : Path),
        c ∈ Multi.pushNeighbours grid cur st ↔ c ∈ pushNeighbours grid cur st) ∧
    (grid.length * grid.length < 2 ^ 31 →
      ∃ r1 r2, findPossibilities fuel 0 lengths grid pd dict [] [] = some r1 ∧
        Multi.findPossibilities fuel 0 lengths grid pd dict [] [] (-1) (-1) = some r2 ∧
        ∀ seq, seq ∈ r1 ↔ seq ∈ r2) := by
  have hpush : ∀ (cur : Path) (st : List Path) (c : Path),
      (∀ loc, cur.points.getLast? = some loc → inGrid grid loc) →
      (c ∈ Multi.pushNeighbours grid cur st ↔ c ∈ pushNeighbours grid cur st) := by
    intro cur st c hloc
    rw [multi_pushNeighbours_eq, pushNeighbours_eq, List.mem_append, List.mem_append,
      multi_kids_iff grid cur c hloc]
  refine ⟨hpush, fun L k cur hcur st c =>
    hpush cur st c (stack_paths_good grid L pd k cur hcur), fun hd => ?_⟩
  obtain ⟨r1, h1⟩ := findPossibilities_total lengths pd dict grid.length lengths.length
    fuel 0 grid [] [] rfl rfl (by simp) hf
  obtain ⟨r2, h2⟩ := multi_findPossibilities_total lengths pd dict grid.length lengths.length
    fuel 0 grid [] [] (-1) (-1) rfl rfl (by simp) hf (Or.inl ⟨rfl, rfl⟩)
  refine ⟨r1, r2, h1, h2, fun seq => ?_⟩
  rw [findPossibilities_spec lengths pd dict fuel 0 grid [] [] r1 h1 seq,
    multi_findPossibilities_spec lengths pd dict fuel 0 grid [] [] r2 (-1) (-1) h2 seq]
  have e : StageFrom (Multi.kids grid) (Multi.seedStack grid (-1) (-1)) lengths pd dict
      (Sol Multi.kids Multi.seedAll lengths pd dict (0 + 1)) 0 grid [] seq ↔
      Sol Multi.kids Multi.seedAll lengths pd dict 0 grid [] seq :=
    (sol_iff Multi.kids Multi.seedAll lengths pd dict 0 grid [] seq).symm
  rw [e]
  constructor
  · rintro (h | h)
    · exact Or.inl h
    · exact Or.inr (sol_single_to_multi _ _ _ _ _ _ _ h hd)
  · rintro (h | h)
    · exact Or.inl h
    · exact Or.inr (sol_multi_to_single _ _ _ _ _ _ _ h hd)

/-- Witness of the amended C11 on the board `ca / ts` with target lengths
`[3]`: both programs find `cat` and `act`. -/
theorem neighbour_order_irrelevant_witness :
    searchFuel scenarioGrid.length ([3] : List Int).length ≤ 50000 ∧
    scenarioGrid.length * scenarioGrid.length < 2 ^ 31 ∧
    ∃ r1 r2, findPossibilities 50000 0 [3] scenarioGrid
        (readDict (some scenarioWords) [] []).2.1 (readDict (some scenarioWords) [] []).2.2
        [] [] = some r1 ∧
      Multi.findPossibilities 50000 0 [3] scenarioGrid
        (readDict (some scenarioWords) [] []).2.1 (readDict (some scenarioWords) [] []).2.2
        [] [] (-1) (-1) = some r2 ∧
      ∀ seq, seq ∈ r1 ↔ seq ∈ r2 :=
  ⟨by decide, by decide,
    (neighbour_order_irrelevant [3] scenarioGrid _ _ 50000 (by decide)).2.2 (by decide)⟩

/-! ## Reference description of gravity -/

theorem square_row (g : Grid) (hsq : Square g) (r : Nat) (hr : r < g.length) :
    (g.getD r []).length = g.length := by
  rw [List.getD_eq_getElem _ _ hr]
  exact hsq _ (List.getElem_mem hr)

theorem point_eq_iff (p : Point) (r c : Nat) (h1 : 0 ≤ p.x) (h2 : 0 ≤ p.y) :
    (⟨(r : Int), (c : Int)⟩ : Point) = p ↔ r = p.x.toNat ∧ c = p.y.toNat := by
  cases p
  simp only [Point.mk.injEq]
  simp only at h1 h2
  omega

theorem markPath_cellAt :
    ∀ (pts : List Point) (g : Grid), Square g → (∀ pt ∈ pts, inGrid g pt) →
      ∀ r c, (markPath g pts).cellAt r c =
        if (⟨(r : Int), (c : Int)⟩ : Point) ∈ pts then GRID_USED else g.cellAt r c := by
  intro pts
  induction pts with
  | nil => intro g _ _ r c; simp [markPath]
  | cons p pts ih =>
    intro g hsq hin r c
    obtain ⟨h1, h2, h3, h4⟩ := hin p (List.mem_cons_self _ _)
    have hw : writeCell g p.x p.y GRID_USED = g.setAt p.x.toNat p.y.toNat GRID_USED := by
      simp [writeCell, h1, h3]
    have hr : p.x.toNat < g.length := by omega
    have hc : p.y.toNat < (g.getD p.x.toNat []).length := by
      rw [square_row g hsq _ hr]; omega
    have hrec := ih (g.setAt p.x.toNat p.y.toNat GRID_USED) (square_setAt _ _ _ _ hsq)
      (fun pt hpt => by
        obtain ⟨a1, a2, a3, a4⟩ := hin pt (List.mem_cons_of_mem _ hpt)
        exact ⟨a1, by rw [length_setAt]; exact a2, a3, by rw [length_setAt]; exact a4⟩) r c
    simp only [markPath, List.foldl_cons] at hrec ⊢
    rw [hw, hrec]
    simp only [List.mem_cons]
    by_cases hp : (⟨(r : Int), (c : Int)⟩ : Point) = p
    · rw [if_pos (Or.inl hp)]
      obtain ⟨rfl, rfl⟩ := (point_eq_iff p r c h1 h3).1 hp
      rw [cellAt_setAt_eq _ _ _ _ hc]
      simp
    · have hne : ¬ (r = p.x.toNat ∧ c = p.y.toNat) :=
        fun h => hp ((point_eq_iff p r c h1 h3).2 h)
      rw [cellAt_setAt_ne _ _ _ _ _ _ hne]
      simp [hp]

theorem markPath_square :
    ∀ (pts : List Point) (g : Grid), Square g → Square (markPath g pts) := by
  intro pts
  induction pts with
  | nil => intro g h; exact h
  | cons p pts ih =>
    intro g hsq
    simp only [markPath, List.foldl_cons]
    apply ih
    unfold writeCell
    split
    · exact square_setAt _ _ _ _ hsq
    · exact hsq

theorem column_eq_map (g : Grid) (i : Nat) :
    column g i = (List.range g.length).map (fun r => g.cellAt r i) := by
  apply List.ext_getElem
  · simp [column_length]
  · intro n h1 h2
    have e := column_getD g i n
    rw [List.getD_eq_getElem _ _ h1] at e
    rw [e]
    simp

theorem markPath_column (pts : List Point) (g : Grid) (hsq : Square g)
    (hin : ∀ pt ∈ pts, inGrid g pt) (i : Nat) :
    column (markPath g pts) i =
      (List.range g.length).map
        (fun (r : Nat) =>
          if (⟨(r : Int), (i : Int)⟩ : Point) ∈ pts then GRID_USED else g.cellAt r i) := by
  rw [column_eq_map, markPath_length]
  apply List.map_congr_left
  intro r _
  exact markPath_cellAt pts g hsq hin r i

theorem settleColumn_filter :
    ∀ (fuel : Nat) (g : Grid) (i j : Nat) (g' : Grid),
      settleColumn fuel g i j = some g' →
      ∀ c, (column g' c).filter (fun ch => ch != GRID_USED) =
          (column g c).filter (fun ch => ch != GRID_USED) ∧
        (column g' c).Perm (column g c) := by
  intro fuel
  induction fuel with
  | zero => intro g i j g' h; simp [settleColumn] at h
  | succ fuel ih =>
    intro g i j g' h c
    unfold settleColumn at h
    split at h
    · split at h
      · rename_i hsw
        simp only [Bool.and_eq_true, beq_iff_eq] at hsw
        obtain ⟨e1, e2⟩ := ih _ _ _ _ h c
        by_cases hc : i = c
        · subst hc
          obtain ⟨pre, post, _, h2, h3⟩ := swapDown_column g j i hsw.1 hsw.2
          have hne : (g.cellAt j i != GRID_USED) = true := by
            simpa using isAlpha_ne_used hsw.1
          refine ⟨?_, e2.trans ?_⟩
          · rw [e1, h2, h3]
            simp [List.filter_cons, hne]
          · rw [h2, h3]
            exact List.Perm.append_left _ (List.Perm.swap _ _ _)
        · rw [column_swapDown_ne g j i c hc] at e1 e2
          exact ⟨e1, e2⟩
      · exact ih _ _ _ _ h c
    · simp at h
      subst h
      exact ⟨rfl, List.Perm.refl _⟩

theorem settleColumns_filter (fuel : Nat) :
    ∀ (cols : List Nat) (g g' : Grid), settleColumns fuel g cols = some g' →
      ∀ c, (column g' c).filter (fun ch => ch != GRID_USED) =
          (column g c).filter (fun ch => ch != GRID_USED) ∧
        (column g' c).Perm (column g c) := by
  intro cols
  induction cols with
  | nil =>
    intro g g' h c
    simp [settleColumns] at h
    subst h
    exact ⟨rfl, List.Perm.refl _⟩
  | cons i cols ih =>
    intro g g' h c
    unfold settleColumns at h
    split at h
    · simp at h
    · rename_i g1 h1
      obtain ⟨a1, a2⟩ := settleColumn_filter _ _ _ _ _ h1 c
      obtain ⟨b1, b2⟩ := ih _ _ h c
      exact ⟨by rw [b1, a1], b2.trans a2⟩

theorem settled_list :
    ∀ l : List Char, (∀ ch ∈ l, ch.isAlpha = true ∨ ch = GRID_USED) →
      (∀ j, j + 1 < l.length →
        ¬ ((l.getD j GRID_OOB).isAlpha = true ∧ l.getD (j + 1) GRID_OOB = GRID_USED)) →
      l = List.replicate (l.length - (l.filter (fun ch => ch != GRID_USED)).length) GRID_USED ++
        l.filter (fun ch => ch != GRID_USED) := by
  intro l
  induction l with
  | nil => intro _ _; rfl
  | cons c t ih =>
    intro hlet hset
    have ht := ih (fun ch hch => hlet ch (List.mem_cons_of_mem _ hch))
      (fun j hj => by
        have := hset (j + 1) (by simpa using hj)
        simpa using this)
    have hle : (t.filter (fun ch => ch != GRID_USED)).length ≤ t.length :=
      List.length_filter_le _ _
    rcases hlet c (List.mem_cons_self _ _) with hc | hc
    · have hne : (c != GRID_USED) = true := by simpa using isAlpha_ne_used hc
      have hk : t.length - (t.filter (fun ch => ch != GRID_USED)).length = 0 := by
        by_contra hk
        obtain ⟨k, hk'⟩ : ∃ k, t.length - (t.filter (fun ch => ch != GRID_USED)).length = k + 1 :=
          ⟨_, (Nat.succ_pred_eq_of_pos (Nat.pos_of_ne_zero hk)).symm⟩
        rw [hk'] at ht
        have hlen : 0 + 1 < (c :: t).length := by
          simp only [List.length_cons]
          omega
        apply hset 0 hlen
        refine ⟨by simpa using hc, ?_⟩
        simp only [List.getD_cons_succ]
        rw [ht]
        simp [List.replicate_succ]
      rw [hk] at ht
      simp only [List.replicate_zero, List.nil_append] at ht
      simp only [List.filter_cons, hne, if_true]
      simp only [List.length_cons]
      have : t.length = (t.filter (fun ch => ch != GRID_USED)).length := by omega
      rw [← this]
      simp only [Nat.sub_self, List.replicate_zero, List.nil_append]
      rw [← ht]
    · subst hc
      simp only [List.filter_cons, bne_self_eq_false, Bool.false_eq_true, if_false]
      simp only [List.length_cons]
      have : t.length + 1 - (t.filter (fun ch => ch != GRID_USED)).length =
          (t.length - (t.filter (fun ch => ch != GRID_USED)).length) + 1 := by omega
      rw [this, List.replicate_succ, List.cons_append, ← ht]

theorem marked_filter (grid : Grid) (path : Path) (i : Nat) :
    ((List.range grid.length).map
        (fun (r : Nat) => if (⟨(r : Int), (i : Int)⟩ : Point) ∈ path.points then GRID_USED
          else grid.cellAt r i)).filter (fun ch => ch != GRID_USED) =
      survivors grid path i := by
  unfold survivors Path.contains
  induction List.range grid.length with
  | nil => rfl
  | cons r rs ih =>
    simp only [List.map_cons, List.filter_cons]
    by_cases hp : (⟨(r : Int), (i : Int)⟩ : Point) ∈ path.points
    · simp only [hp, if_true, bne_self_eq_false, Bool.false_eq_true, if_false, decide_True,
        Bool.not_true, Bool.and_false]
      exact ih
    · simp only [hp, if_false, decide_False, Bool.not_false, Bool.and_true]
      split
      · rw [List.map_cons, ih]
      · exact ih

theorem cellAt_mem (g : Grid) (hsq : Square g) (r c : Nat) (hr : r < g.length)
    (hc : c < g.length) : ∃ row ∈ g, g.cellAt r c ∈ row := by
  have hrow := square_row g hsq r hr
  refine ⟨g.getD r [], ?_, ?_⟩
  · rw [List.getD_eq_getElem _ _ hr]
    exact List.getElem_mem hr
  · unfold Grid.cellAt
    have hc' : c < (g.getD r []).length := by rw [hrow]; exact hc
    rw [List.getD_eq_getElem _ _ hc']
    exact List.getElem_mem _

theorem markPath_taken :
    ∀ (pts : List Point) (g : Grid), Square g → (∀ pt ∈ pts, inGrid g pt) →
      occupied (markPath g pts) +
        (pts.toFinset.filter (fun pt => readCell g pt.x pt.y ≠ GRID_USED)).card =
        occupied g := by
  intro pts
  induction pts with
  | nil => intro g _ _; simp [markPath]
  | cons p pts ih =>
    intro g hsq hin
    obtain ⟨h1, h2, h3, h4⟩ := hin p (List.mem_cons_self _ _)
    have hw : writeCell g p.x p.y GRID_USED = g.setAt p.x.toNat p.y.toNat GRID_USED := by
      simp [writeCell, h1, h3]
    have hr : p.x.toNat < g.length := by omega
    have hc : p.y.toNat < (g.getD p.x.toNat []).length := by
      rw [square_row g hsq _ hr]; omega
    have hread : readCell g p.x p.y = g.cellAt p.x.toNat p.y.toNat := by
      simp [readCell, h1, h3]
    have hocc := occupied_setAt g p.x.toNat p.y.toNat GRID_USED hr hc
    simp only [bne_self_eq_false, Bool.false_eq_true, if_false, Nat.add_zero] at hocc
    have hin' : ∀ pt ∈ pts, inGrid (g.setAt p.x.toNat p.y.toNat GRID_USED) pt := by
      intro pt hpt
      obtain ⟨a1, a2, a3, a4⟩ := hin pt (List.mem_cons_of_mem _ hpt)
      exact ⟨a1, by rw [length_setAt]; exact a2, a3, by rw [length_setAt]; exact a4⟩
    have hrec := ih (g.setAt p.x.toNat p.y.toNat GRID_USED) (square_setAt _ _ _ _ hsq) hin'
    have hset : pts.toFinset.filter
        (fun pt => readCell (g.setAt p.x.toNat p.y.toNat GRID_USED) pt.x pt.y ≠ GRID_USED) =
        (pts.toFinset.filter (fun pt => readCell g pt.x pt.y ≠ GRID_USED)).erase p := by
      ext q
      simp only [Finset.mem_filter, List.mem_toFinset, Finset.mem_erase]
      constructor
      · rintro ⟨hq, hne⟩
        obtain ⟨a1, _, a3, _⟩ := hin q (List.mem_cons_of_mem _ hq)
        simp only [readCell, a1, a3, and_self, if_true] at hne ⊢
        by_cases hqp : q = p
        · subst hqp
          rw [cellAt_setAt_eq _ _ _ _ hc] at hne
          exact absurd rfl hne
        · have hne' : ¬ (q.x.toNat = p.x.toNat ∧ q.y.toNat = p.y.toNat) := by
            rintro ⟨e1, e2⟩
            apply hqp
            cases q; cases p
            simp only [Point.mk.injEq]
            simp only at e1 e2 a1 a3 h1 h3
            omega
          rw [cellAt_setAt_ne _ _ _ _ _ _ hne'] at hne
          exact ⟨hqp, hq, hne⟩
      · rintro ⟨hqp, hq, hne⟩
        obtain ⟨a1, _, a3, _⟩ := hin q (List.mem_cons_of_mem _ hq)
        simp only [readCell, a1, a3, and_self, if_true] at hne ⊢
        have hne' : ¬ (q.x.toNat = p.x.toNat ∧ q.y.toNat = p.y.toNat) := by
          rintro ⟨e1, e2⟩
          apply hqp
          cases q; cases p
          simp only [Point.mk.injEq]
          simp only at e1 e2 a1 a3 h1 h3
          omega
        rw [cellAt_setAt_ne _ _ _ _ _ _ hne']
        exact ⟨hq, hne⟩
    rw [hset] at hrec
    simp only [markPath, List.foldl_cons] at hrec ⊢
    rw [hw, List.toFinset_cons, Finset.filter_insert]
    by_cases hp : readCell g p.x p.y ≠ GRID_USED
    · rw [if_pos hp]
      have hb : (g.cellAt p.x.toNat p.y.toNat != GRID_USED) = true := by
        rw [← hread]; simpa using hp
      rw [hb] at hocc
      simp only [if_true] at hocc
      have hcard := Finset.card_erase_add_one
        (Finset.mem_insert_self p
          (pts.toFinset.filter (fun pt => readCell g pt.x pt.y ≠ GRID_USED)))
      rw [Finset.erase_insert_eq_erase] at hcard
      omega
    · rw [if_neg hp]
      have hb : (g.cellAt p.x.toNat p.y.toNat != GRID_USED) = false := by
        rw [← hread]; simpa using hp
      rw [hb] at hocc
      simp only [Bool.false_eq_true, if_false, Nat.add_zero] at hocc
      have hnot : p ∉ pts.toFinset.filter (fun pt => readCell g pt.x pt.y ≠ GRID_USED) := by
        intro hmem
        exact hp (Finset.mem_filter.1 hmem).2
      rw [Finset.erase_eq_of_not_mem hnot] at hrec
      omega

/-- C17.  Reference definition of gravity.  For every square grid whose
cells each hold a letter or the empty marker and every path of cells inside
the grid, `adjustGrid` returns a square grid of the same size in which every
column is a run of empty markers followed by exactly the letters of that
column of the input grid that are not on the path, in their original
top-to-bottom order (so no letter changes column, is lost or is duplicated),
and the number of non-empty cells has dropped by exactly the number of
distinct non-empty cells on the path. -/
theorem gravity_reference (grid : Grid) (path : Path) (fuel : Nat) (hsq : Square grid)
    (hlet : LettersOnly grid) (hin : ∀ pt ∈ path.points, inGrid grid pt)
    (hf : settleFuel grid.length ≤ fuel) :
    ∃ g', adjustGrid fuel grid path = some g' ∧ Square g' ∧ g'.length = grid.length ∧
      (∀ i, i < grid.length →
        column g' i =
          List.replicate (grid.length - (survivors grid path i).length) GRID_USED ++
            survivors grid path i) ∧
      occupied g' + cellsTaken grid path = occupied grid := by
  obtain ⟨g', h⟩ := adjustGrid_total fuel grid path hf
  have hl := adjustGrid_length _ _ _ _ h
  unfold adjustGrid at h
  have hmsq := markPath_square path.points grid hsq
  obtain ⟨hocc, hsq'⟩ := settleColumns_occupied _ _ _ _ h hmsq
  refine ⟨g', by unfold adjustGrid; exact h, hsq', hl, fun i hi => ?_, ?_⟩
  · obtain ⟨hfil, hperm⟩ := settleColumns_filter _ _ _ _ h i
    have hset := (settleColumns_settled fuel _ _ _ (List.nodup_range _) h).1 i
      (by rw [List.mem_range]; exact hi)
    have hmark := markPath_column path.points grid hsq hin i
    have hlist := settled_list (column g' i)
      (fun ch hch => by
        have hm := hperm.subset hch
        rw [hmark] at hm
        simp only [List.mem_map, List.mem_range] at hm
        obtain ⟨r, hr, rfl⟩ := hm
        split
        · exact Or.inr rfl
        · obtain ⟨row, hrow, hmem⟩ := cellAt_mem grid hsq r i hr hi
          exact hlet row hrow _ hmem)
      (fun j hj => by
        rw [column_getD, column_getD]
        exact hset j (by rw [column_length] at hj; exact hj))
    rw [hfil, hmark, marked_filter, column_length, hl] at hlist
    exact hlist
  · rw [hocc]
    exact markPath_taken path.points grid hsq hin

/-- Witness of C17: the path `c(0,0) → a(0,1) → t(1,0)` on the board
`ca / ts`. -/
theorem gravity_reference_witness :
    Square scenarioGrid ∧ LettersOnly scenarioGrid ∧
    (∀ pt ∈ scenarioPath.points, inGrid scenarioGrid pt) ∧
    settleFuel scenarioGrid.length ≤ 16 ∧
    ∃ g', adjustGrid 16 scenarioGrid scenarioPath = some g' ∧ Square g' ∧
      g'.length = scenarioGrid.length ∧
      (∀ i, i < scenarioGrid.length →
        column g' i =
          List.replicate (scenarioGrid.length - (survivors scenarioGrid scenarioPath i).length)
            GRID_USED ++ survivors scenarioGrid scenarioPath i) ∧
      occupied g' + cellsTaken scenarioGrid scenarioPath = occupied scenarioGrid :=
  ⟨by decide, by decide, by decide, by decide,
    gravity_reference scenarioGrid scenarioPath 16 (by decide) (by decide) (by decide)
      (by decide)⟩

/-! ## Index safety -/

theorem ok_bind {α β : Type} (a : α) (f : α → Except Fault β) :
    (Except.ok a : Except Fault α) >>= f = f a := rfl

theorem readAt_ok (g : Grid) (r c : Nat) (hr : r < g.length)
    (hc : c < (g.getD r []).length) : Checked.readAt g r c = Except.ok (g.cellAt r c) := by
  unfold Checked.readAt Grid.cellAt
  have e1 : g.get? r = some (g.getD r []) := by
    rw [List.get?_eq_getElem?, List.getElem?_eq_getElem hr, List.getD_eq_getElem _ _ hr]
  rw [e1]
  simp only
  have e2 : (g.getD r []).get? c = some ((g.getD r []).getD c GRID_OOB) := by
    rw [List.get?_eq_getElem?, List.getElem?_eq_getElem hc, List.getD_eq_getElem _ _ hc]
  rw [e2]

theorem writeAt_ok (g : Grid) (r c : Nat) (ch : Char) (hr : r < g.length)
    (hc : c < (g.getD r []).length) :
    Checked.writeAt g r c ch = Except.ok (g.setAt r c ch) := by
  unfold Checked.writeAt Grid.setAt
  have e1 : g.get? r = some (g.getD r []) := by
    rw [List.get?_eq_getElem?, List.getElem?_eq_getElem hr, List.getD_eq_getElem _ _ hr]
  rw [e1]
  simp only
  rw [if_pos hc]

theorem inGrid_range (g : Grid) (hsq : Square g) (p : Point) (h : inGrid g p) :
    p.x.toNat < g.length ∧ p.y.toNat < (g.getD p.x.toNat []).length := by
  obtain ⟨h1, h2, h3, h4⟩ := h
  have hr : p.x.toNat < g.length := by omega
  refine ⟨hr, ?_⟩
  rw [square_row g hsq _ hr]
  omega

theorem readCell_ok (g : Grid) (hsq : Square g) (p : Point) (h : inGrid g p) :
    Checked.readCell g p.x p.y = Except.ok (readCell g p.x p.y) := by
  obtain ⟨hr, hc⟩ := inGrid_range g hsq p h
  unfold Checked.readCell readCell
  rw [if_pos ⟨h.1, h.2.2.1⟩, if_pos ⟨h.1, h.2.2.1⟩]
  exact readAt_ok g _ _ hr hc

theorem writeCell_ok (g : Grid) (hsq : Square g) (p : Point) (h : inGrid g p) (ch : Char) :
    Checked.writeCell g p.x p.y ch = Except.ok (writeCell g p.x p.y ch) := by
  obtain ⟨hr, hc⟩ := inGrid_range g hsq p h
  unfold Checked.writeCell writeCell
  rw [if_pos ⟨h.1, h.2.2.1⟩, if_pos ⟨h.1, h.2.2.1⟩]
  exact writeAt_ok g _ _ ch hr hc

theorem square_writeCell (g : Grid) (x y : Int) (ch : Char) (h : Square g) :
    Square (writeCell g x y ch) := by
  unfold writeCell
  split
  · exact square_setAt _ _ _ _ h
  · exact h

theorem markPath_ok :
    ∀ (pts : List Point) (g : Grid), Square g → (∀ pt ∈ pts, inGrid g pt) →
      Checked.markPath g pts = Except.ok (markPath g pts) := by
  intro pts
  induction pts with
  | nil => intro g _ _; rfl
  | cons p pts ih =>
    intro g hsq hin
    unfold Checked.markPath markPath
    rw [List.foldlM_cons, List.foldl_cons,
      writeCell_ok g hsq p (hin p (List.mem_cons_self _ _)), ok_bind]
    exact ih _ (square_writeCell g _ _ _ hsq) (fun pt hpt => by
      obtain ⟨a1, a2, a3, a4⟩ := hin pt (List.mem_cons_of_mem _ hpt)
      exact ⟨a1, by rw [length_writeCell]; exact a2, a3, by rw [length_writeCell]; exact a4⟩)

theorem canFall_ok (g : Grid) (hsq : Square g) (j i : Nat) (hi : i < g.length)
    (hj : j + 1 < g.length) :
    Checked.canFall g j i =
      Except.ok ((g.cellAt j i).isAlpha && g.cellAt (j + 1) i == GRID_USED) := by
  unfold Checked.canFall
  rw [readAt_ok g j i (by omega) (by rw [square_row g hsq _ (by omega)]; exact hi), ok_bind]
  split
  · rename_i ha
    rw [readAt_ok g (j + 1) i hj (by rw [square_row g hsq _ hj]; exact hi), ok_bind, ha]
    rfl
  · rename_i ha
    simp only [Bool.not_eq_true] at ha
    rw [ha]
    rfl

theorem swapDown_ok (g : Grid) (hsq : Square g) (j i : Nat) (hi : i < g.length)
    (hj : j + 1 < g.length) : Checked.swapDown g j i = Except.ok (swapDown g j i) := by
  unfold Checked.swapDown swapDown
  have hc1 : i < (g.getD j []).length := by rw [square_row g hsq _ (by omega)]; exact hi
  have hc2 : i < (g.getD (j + 1) []).length := by rw [square_row g hsq _ hj]; exact hi
  rw [readAt_ok g j i (by omega) hc1, ok_bind, readAt_ok g (j + 1) i hj hc2, ok_bind,
    writeAt_ok g j i _ (by omega) hc1, ok_bind]
  exact writeAt_ok _ _ _ _ (by rw [length_setAt]; exact hj) (by rw [rowLength_setAt]; exact hc2)

theorem settleColumn_lift :
    ∀ (fuel : Nat) (g : Grid) (i j : Nat), Square g → i < g.length →
      Checked.settleColumn fuel g i j = liftResult (settleColumn fuel g i j) := by
  intro fuel
  induction fuel with
  | zero => intro g i j _ _; rfl
  | succ fuel ih =>
    intro g i j hsq hi
    unfold Checked.settleColumn settleColumn
    split
    · rename_i hj
      rw [canFall_ok g hsq j i hi (by omega)]
      cases hb : ((g.cellAt j i).isAlpha && g.cellAt (j + 1) i == GRID_USED) with
      | true =>
        simp only [if_true]
        rw [swapDown_ok g hsq j i hi (by omega)]
        simp only
        exact ih _ _ _ (square_swapDown g j i hsq) (by rw [length_swapDown]; exact hi)
      | false =>
        simp only [Bool.false_eq_true, if_false]
        exact ih _ _ _ hsq hi
    · rfl

theorem settleColumns_lift (fuel : Nat) :
    ∀ (cols : List Nat) (g : Grid), Square g → (∀ i ∈ cols, i < g.length) →
      Checked.settleColumns fuel g cols = liftResult (settleColumns fuel g cols) := by
  intro cols
  induction cols with
  | nil => intro g _ _; rfl
  | cons i cols ih =>
    intro g hsq hcols
    unfold Checked.settleColumns settleColumns
    rw [settleColumn_lift fuel g i 0 hsq (hcols i (List.mem_cons_self _ _))]
    cases h : settleColumn fuel g i 0 with
    | none => rfl
    | some g1 =>
      simp only [liftResult]
      obtain ⟨_, hsq1⟩ := settleColumn_occupied _ _ _ _ _ h hsq
      exact ih g1 hsq1 (fun c hc => by
        rw [settleColumn_length _ _ _ _ _ h]
        exact hcols c (List.mem_cons_of_mem _ hc))

theorem adjustGrid_lift (fuel : Nat) (grid : Grid) (path : Path) (hsq : Square grid)
    (hin : ∀ pt ∈ path.points, inGrid grid pt) :
    Checked.adjustGrid fuel grid path = liftResult (adjustGrid fuel grid path) := by
  unfold Checked.adjustGrid adjustGrid
  rw [markPath_ok path.points grid hsq hin]
  simp only
  exact settleColumns_lift fuel _ _ (markPath_square _ _ hsq)
    (fun i hi => by rw [markPath_length]; exact List.mem_range.1 hi)

theorem adjustGrid_square (fuel : Nat) (grid : Grid) (path : Path) (g' : Grid)
    (hsq : Square grid) (h : adjustGrid fuel grid path = some g') : Square g' := by
  unfold adjustGrid at h
  exact (settleColumns_occupied _ _ _ _ h (markPath_square _ _ hsq)).2

theorem foldlM_ok {α β : Type} (fC : α → β → Except Fault α) (f : α → β → α) :
    ∀ (bs : List β) (a : α), (∀ b ∈ bs, ∀ a, fC a b = Except.ok (f a b)) →
      bs.foldlM fC a = Except.ok (bs.foldl f a) := by
  intro bs
  induction bs with
  | nil => intro a _; rfl
  | cons b bs ih =>
    intro a h
    rw [List.foldlM_cons, h b (List.mem_cons_self _ _) a, ok_bind, List.foldl_cons]
    exact ih _ (fun b' hb' => h b' (List.mem_cons_of_mem _ hb'))

theorem tryPush_ok (grid : Grid) (hsq : Square grid) (cur : Path) (p : Point)
    (st : List Path) : Checked.tryPush grid cur p st = Except.ok (tryPush grid cur p st) := by
  unfold Checked.tryPush tryPush canStep
  by_cases hb : (decide (0 ≤ p.x) && decide (p.x < grid.length) &&
      decide (0 ≤ p.y) && decide (p.y < grid.length)) = true
  · have hin : inGrid grid p := by
      simp only [Bool.and_eq_true, decide_eq_true_eq] at hb
      exact ⟨hb.1.1.1, hb.1.1.2, hb.1.2, hb.2⟩
    rw [if_pos hb, readCell_ok grid hsq p hin, ok_bind, hb]
    simp only [Bool.true_and]
    split
    · rw [ok_bind]; rfl
    · rfl
  · rw [if_neg hb]
    simp only [Bool.not_eq_true] at hb
    rw [hb]
    rfl

theorem pushNeighbours_ok (grid : Grid) (hsq : Square grid) (cur : Path) (st : List Path)
    (hne : cur.points ≠ []) :
    Checked.pushNeighbours grid cur st = Except.ok (pushNeighbours grid cur st) := by
  unfold Checked.pushNeighbours pushNeighbours
  cases hl : cur.points.getLast? with
  | none => exact absurd (List.getLast?_eq_none_iff.1 hl) hne
  | some loc =>
    simp only
    exact foldlM_ok _ _ _ _ (fun i _ a =>
      foldlM_ok _ _ _ _ (fun j _ a' => tryPush_ok grid hsq cur _ a'))

theorem pushIf_ok (b : Bool) (grid : Grid) (hsq : Square grid) (cur : Path) (p : Point)
    (st : List Path) (hin : b = true → inGrid grid p) :
    Checked.Multi.pushIf b grid cur p st = Except.ok (Multi.pushIf b grid cur p st) := by
  unfold Checked.Multi.pushIf Multi.pushIf
  cases b with
  | true =>
    rw [if_pos rfl, readCell_ok grid hsq p (hin rfl), ok_bind]
    simp only [Bool.true_and]
    split
    · rw [ok_bind]; rfl
    · rfl
  | false => rfl

theorem multi_pushNeighbours_ok (grid : Grid) (hsq : Square grid) (cur : Path)
    (st : List Path) (hne : cur.points ≠ []) (hin : ∀ pt ∈ cur.points, inGrid grid pt) :
    Checked.Multi.pushNeighbours grid cur st = Except.ok (Multi.pushNeighbours grid cur st) := by
  unfold Checked.Multi.pushNeighbours Multi.pushNeighbours
  cases hl : cur.points.getLast? with
  | none => exact absurd (List.getLast?_eq_none_iff.1 hl) hne
  | some loc =>
    obtain ⟨h1, h2, h3, h4⟩ := hin loc (mem_of_getLast? hl)
    simp only
    have hp : ∀ (b : Bool) (p : Point) (s : List Path), (b = true → inGrid grid p) →
        Checked.Multi.pushIf b grid cur p s = Except.ok (Multi.pushIf b grid cur p s) :=
      fun b p s h => pushIf_ok b grid hsq cur p s h
    rw [hp _ _ _ (by
      intro hb
      simp only [Multi.ltSize, Bool.and_eq_true, decide_eq_true_eq] at hb
      exact ⟨by simp only; omega, by simp only; omega, by simp only; omega, by simp only; omega⟩),
      ok_bind]
    rw [hp _ _ _ (by
      intro hb
      simp only [Multi.ltSize, Bool.and_eq_true, decide_eq_true_eq] at hb
      exact ⟨by simp only; omega, by simp only; omega, by simp only; omega, by simp only; omega⟩),
      ok_bind]
    rw [hp _ _ _ (by
      intro hb
      simp only [Multi.ltSize, Bool.and_eq_true, decide_eq_true_eq] at hb
      exact ⟨by simp only; omega, by simp only; omega, by simp only; omega, by simp only; omega⟩),
      ok_bind]
    rw [hp _ _ _ (by
      intro hb
      simp only [Multi.ltSize, Bool.and_eq_true, decide_eq_true_eq] at hb
      exact ⟨by simp only; omega, by simp only; omega, by simp only; omega, by simp only; omega⟩),
      ok_bind]
    rw [hp _ _ _ (by
      intro hb
      simp only [decide_eq_true_eq] at hb
      exact ⟨by simp only; omega, by simp only; omega, by simp only; omega, by simp only; omega⟩),
      ok_bind]
    rw [hp _ _ _ (by
      intro hb
      simp only [Multi.ltSize, Bool.and_eq_true, decide_eq_true_eq] at hb
      exact ⟨by simp only; omega, by simp only; omega, by simp only; omega, by simp only; omega⟩),
      ok_bind]
    rw [hp _ _ _ (by
      intro hb
      simp only [decide_eq_true_eq] at hb
      exact ⟨by simp only; omega, by simp only; omega, by simp only; omega, by simp only; omega⟩),
      ok_bind]
    exact hp _ _ _ (by
      intro hb
      simp only [Bool.and_eq_true, decide_eq_true_eq] at hb
      exact ⟨by simp only; omega, by simp only; omega, by simp only; omega, by simp only; omega⟩)

theorem trySeed_ok (grid : Grid) (hsq : Square grid) (i j : Nat) (hi : i < grid.length)
    (hj : j < grid.length) (st : List Path) :
    Checked.trySeed grid i j st = Except.ok (trySeed grid i j st) := by
  unfold Checked.trySeed trySeed
  have hc : j < (grid.getD i []).length := by rw [square_row grid hsq _ hi]; exact hj
  rw [readAt_ok grid i j hi hc, ok_bind]
  split
  · rw [ok_bind]; rfl
  · rfl

theorem seedStack_ok (grid : Grid) (hsq : Square grid) :
    Checked.seedStack grid = Except.ok (seedStack grid) := by
  unfold Checked.seedStack seedStack
  exact foldlM_ok _ _ _ _ (fun i hi a =>
    foldlM_ok _ _ _ _ (fun j hj a' =>
      trySeed_ok grid hsq i j (List.mem_range.1 hi) (List.mem_range.1 hj) a'))

theorem trySeedAt_ok (grid : Grid) (hsq : Square grid) (k : Int) (h0 : 0 ≤ k)
    (h1 : k < 2 ^ 31) (hk : k < ((grid.length * grid.length : Nat) : Int)) (st : List Path) :
    Checked.Multi.trySeedAt grid k st = Except.ok (Multi.trySeedAt grid k st) := by
  obtain ⟨k', rfl⟩ : ∃ k' : Nat, k = (k' : Int) := ⟨k.toNat, by omega⟩
  have hk' : k' < 2 ^ 31 := by omega
  have hkn : k' < grid.length * grid.length := by omega
  have hpos : 0 < grid.length := by
    rcases Nat.eq_zero_or_pos grid.length with h | h
    · rw [h] at hkn; simp at hkn
    · exact h
  have hin : inGrid grid ⟨((k' / grid.length : Nat) : Int), ((k' % grid.length : Nat) : Int)⟩ :=
    ⟨Int.natCast_nonneg _, Int.ofNat_lt.2 (Nat.div_lt_of_lt_mul hkn), Int.natCast_nonneg _,
      Int.ofNat_lt.2 (Nat.mod_lt _ hpos)⟩
  have hread := readCell_ok grid hsq _ hin
  simp only at hread
  unfold Checked.Multi.trySeedAt Multi.trySeedAt
  simp only [Multi.intToSizeT_of_nat k' (by omega),
    Multi.toInt32_of_lt _ (lt_of_le_of_lt (Nat.div_le_self _ _) hk'),
    Multi.toInt32_of_lt _ (lt_of_le_of_lt (Nat.mod_le _ _) hk')]
  rw [hread, ok_bind]
  split
  · rw [ok_bind]; rfl
  · rfl

theorem multi_seedStack_ok (grid : Grid) (hsq : Square grid) (start finish : Int)
    (hr : (start = -1 ∧ finish = -1) ∨
      (0 ≤ start ∧ finish ≤ ((grid.length * grid.length : Nat) : Int) ∧ finish ≤ 2 ^ 31)) :
    Checked.Multi.seedStack grid start finish = Except.ok (Multi.seedStack grid start finish) := by
  unfold Checked.Multi.seedStack Multi.seedStack
  simp only
  apply foldlM_ok
  intro k hk a
  rw [mem_kRange] at hk
  have hle := defaultEnd_le grid.length
  have hlt := Multi.toInt32_lt (Multi.toSizeT (grid.length * grid.length))
  have hb : 0 ≤ k ∧ k < 2 ^ 31 ∧ k < ((grid.length * grid.length : Nat) : Int) := by
    by_cases hs : start = -1 ∧ finish = -1
    · rw [if_pos hs, if_pos hs] at hk; omega
    · rw [if_neg hs, if_neg hs] at hk
      rcases hr with h | ⟨h1, h2, h3⟩
      · exact absurd h hs
      · omega
  exact trySeedAt_ok grid hsq k hb.1 hb.2.1 hb.2.2 a

theorem searchLoop_lift (nextC : Grid → List Str → Found → Except Fault Found)
    (next : Grid → List Str → Found → Option Found)
    (expandC : Path → List Path → Except Fault (List Path))
    (expand : Path → List Path → List Path) (kids : Path → List Path)
    (lengths : List Int) (idx : Nat) (L : Int) (grid : Grid) (pd dict : List Str)
    (cw : List Str) (hL : lengths.get? idx = some L) (hsq : Square grid)
    (hexpC : ∀ cur st, TracesOn grid cur → expandC cur st = Except.ok (expand cur st))
    (hexp : ∀ cur st, expand cur st = kids cur ++ st)
    (hkids : ∀ cur, TracesOn grid cur → ∀ c ∈ kids cur, TracesOn grid c)
    (hnext : ∀ g w f, Square g → g.length = grid.length →
      nextC g (cw ++ [w]) f = liftResult (next g (cw ++ [w]) f)) :
    ∀ (fuel : Nat) (st : List Path) (found : Found), (∀ p ∈ st, TracesOn grid p) →
      Checked.searchLoop nextC expandC lengths idx grid pd dict cw fuel st found =
        liftResult (searchLoop next expand L grid pd dict cw fuel st found) := by
  intro fuel
  induction fuel with
  | zero => intro st found _; rfl
  | succ fuel ih =>
    intro st found hst
    cases st with
    | nil => rfl
    | cons cur st =>
      have hcur := hst cur (List.mem_cons_self _ _)
      have hst' : ∀ p ∈ st, TracesOn grid p := fun p hp => hst p (List.mem_cons_of_mem _ hp)
      simp only [Checked.searchLoop, searchLoop, hL]
      split
      · split
        · rw [adjustGrid_lift fuel grid cur hsq (fun pt hpt => (hcur.inside pt hpt).1)]
          cases hg : adjustGrid fuel grid cur with
          | none => rfl
          | some g' =>
            simp only [liftResult]
            rw [hnext g' cur.word found (adjustGrid_square _ _ _ _ hsq hg)
              (adjustGrid_length _ _ _ _ hg)]
            cases hn : next g' (cw ++ [cur.word]) found with
            | none => rfl
            | some f' =>
              simp only [liftResult]
              exact ih st f' hst'
        · exact ih st found hst'
      · split
        · rw [hexpC cur st hcur]
          simp only
          apply ih
          intro p hp
          rw [hexp] at hp
          rcases List.mem_append.1 hp with hp | hp
          · exact hkids cur hcur p hp
          · exact hst' p hp
        · exact ih st found hst'

theorem findPossibilities_lift (lengths : List Int) (pd dict : List Str) :
    ∀ (fuel idx : Nat) (grid : Grid) (cw : List Str) (found : Found),
      Square grid → cw.length = idx → idx ≤ lengths.length →
      Checked.findPossibilities fuel idx lengths grid pd dict cw found =
        liftResult (findPossibilities fuel idx lengths grid pd dict cw found) := by
  intro fuel
  induction fuel with
  | zero => intro idx grid cw found _ _ _; rfl
  | succ fuel ih =>
    intro idx grid cw found hsq hcw hidx
    unfold Checked.findPossibilities findPossibilities
    split
    · rfl
    · rename_i hb
      have hlt : idx < lengths.length := by omega
      have hget : lengths.get? idx = some lengths[idx] := by
        rw [List.get?_eq_getElem?]; exact List.getElem?_eq_getElem hlt
      rw [hget, seedStack_ok grid hsq]
      simp only
      exact searchLoop_lift _ _ _ _ (kids grid) lengths idx _ grid pd dict cw hget hsq
        (fun cur st hc => pushNeighbours_ok grid hsq cur st hc.nonempty)
        (pushNeighbours_eq grid)
        (fun cur hc c hcm => tracesOn_kid grid cur c hc hcm)
        (fun g w f hg _ => ih (idx + 1) g (cw ++ [w]) f hg (by simp [hcw]) (by omega))
        fuel (seedStack grid) found (tracesOn_seed grid)

theorem multi_tracesOn_kid (grid : Grid) (cur c : Path) (ht : TracesOn grid cur)
    (hc : c ∈ Multi.kids grid cur) : TracesOn grid c :=
  tracesOn_kid grid cur c ht
    ((multi_kids_iff grid cur c
      (fun loc hl => (ht.inside loc (mem_of_getLast? hl)).1)).1 hc)

theorem multi_seed_traces (grid : Grid) (start finish : Int)
    (hr : (start = -1 ∧ finish = -1) ∨
      (0 ≤ start ∧ finish ≤ ((grid.length * grid.length : Nat) : Int) ∧ finish ≤ 2 ^ 31))
    (p : Path) (hp : p ∈ Multi.seedStack grid start finish) : TracesOn grid p := by
  obtain ⟨s1, e1, hs1, he1, he2, heq⟩ := multi_range_norm grid start finish hr
  rw [heq] at hp
  obtain ⟨k, _, hk, hc, rfl⟩ := (mem_multi_seedStack grid s1 e1 hs1 he2 p).1 hp
  have hlt : k < grid.length * grid.length := by omega
  have hpos : 0 < grid.length := by
    rcases Nat.eq_zero_or_pos grid.length with h | h
    · rw [h] at hlt; simp at hlt
    · exact h
  exact tracesOn_single grid _ _ (Nat.div_lt_of_lt_mul hlt) (Nat.mod_lt _ hpos) hc

theorem multi_findPossibilities_lift (lengths : List Int) (pd dict : List Str) :
    ∀ (fuel idx : Nat) (grid : Grid) (cw : List Str) (found : Found) (start finish : Int),
      Square grid → cw.length = idx → idx ≤ lengths.length →
      ((start = -1 ∧ finish = -1) ∨
        (0 ≤ start ∧ finish ≤ ((grid.length * grid.length : Nat) : Int) ∧ finish ≤ 2 ^ 31)) →
      Checked.Multi.findPossibilities fuel idx lengths grid pd dict cw found start finish =
        liftResult (Multi.findPossibilities fuel idx lengths grid pd dict cw found
          start finish) := by
  intro fuel
  induction fuel with
  | zero => intro idx grid cw found s e _ _ _ _; rfl
  | succ fuel ih =>
    intro idx grid cw found s e hsq hcw hidx hr
    unfold Checked.Multi.findPossibilities Multi.findPossibilities
    split
    · rfl
    · rename_i hb
      have hlt : idx < lengths.length := by omega
      have hget : lengths.get? idx = some lengths[idx] := by
        rw [List.get?_eq_getElem?]; exact List.getElem?_eq_getElem hlt
      rw [hget, multi_seedStack_ok grid hsq s e hr]
      simp only
      exact searchLoop_lift _ _ _ _ (Multi.kids grid) lengths idx _ grid pd dict cw hget hsq
        (fun cur st hc => multi_pushNeighbours_ok grid hsq cur st hc.nonempty
          (fun pt hpt => (hc.inside pt hpt).1))
        (multi_pushNeighbours_eq grid)
        (fun cur hc c hcm => multi_tracesOn_kid grid cur c hc hcm)
        (fun g w f hg _ => ih (idx + 1) g (cw ++ [w]) f (-1) (-1) hg (by simp [hcw])
          (by omega) (Or.inl ⟨rfl, rfl⟩))
        fuel (Multi.seedStack grid s e) found (multi_seed_traces grid s e hr)

theorem liftResult_ne_badIndex {α : Type} (o : Option α) :
    liftResult o ≠ Except.error Fault.badIndex := by
  cases o with
  | none => intro h; simp [liftResult] at h
  | some a => intro h; simp [liftResult] at h

/-- C19.  Index safety.  For a square grid, a range with
`0 ≤ start ≤ end ≤ dim * dim` or the default `-1`, `-1` (`end` being an
`int`, so below `2^31`), and a top-level call (`targetLengthIndex = 0`, no
current words), the run of `findPossibilities` of either program in which
every subscript is checked — the seed cells, the neighbour cells read,
`cur.points.back()`, `wordLengths[targetLengthIndex]`, and in `adjustGrid`
the path cells written and the cells read and swapped — never stops on an
index out of range: it is the unchecked run, it stops without a result only
when the step budget is exhausted, and it returns a result for every budget
from `searchFuel` on. -/
theorem index_safety (lengths : List Int) (grid : Grid) (pd dict : List Str) (found : Found)
    (start finish : Int) (fuel : Nat) (hsq : Square grid)
    (hr : (start = -1 ∧ finish = -1) ∨
      (0 ≤ start ∧ start ≤ finish ∧ finish ≤ ((grid.length * grid.length : Nat) : Int)))
    (hint : finish < 2 ^ 31) :
    Checked.Multi.findPossibilities fuel 0 lengths grid pd dict [] found start finish =
      liftResult (Multi.findPossibilities fuel 0 lengths grid pd dict [] found start finish) ∧
    Checked.findPossibilities fuel 0 lengths grid pd dict [] found =
      liftResult (findPossibilities fuel 0 lengths grid pd dict [] found) ∧
    Checked.Multi.findPossibilities fuel 0 lengths grid pd dict [] found start finish ≠
      Except.error Fault.badIndex ∧
    Checked.findPossibilities fuel 0 lengths grid pd dict [] found ≠
      Except.error Fault.badIndex ∧
    (searchFuel grid.length lengths.length ≤ fuel →
      ∃ r1 r2,
        Checked.Multi.findPossibilities fuel 0 lengths grid pd dict [] found start finish =
          Except.ok r1 ∧
        Checked.findPossibilities fuel 0 lengths grid pd dict [] found = Except.ok r2) := by
  have hr' : (start = -1 ∧ finish = -1) ∨
      (0 ≤ start ∧ finish ≤ ((grid.length * grid.length : Nat) : Int) ∧ finish ≤ 2 ^ 31) := by
    rcases hr with h | ⟨h1, _, h3⟩
    · exact Or.inl h
    · exact Or.inr ⟨h1, h3, le_of_lt hint⟩
  have e1 := multi_findPossibilities_lift lengths pd dict fuel 0 grid [] found start finish
    hsq rfl (Nat.zero_le _) hr'
  have e2 := findPossibilities_lift lengths pd dict fuel 0 grid [] found hsq rfl
    (Nat.zero_le _)
  refine ⟨e1, e2, ?_, ?_, ?_⟩
  · rw [e1]; exact liftResult_ne_badIndex _
  · rw [e2]; exact liftResult_ne_badIndex _
  · intro hf
    obtain ⟨r1, h1⟩ := multi_findPossibilities_total lengths pd dict grid.length lengths.length
      fuel 0 grid [] found start finish rfl rfl (by simp) hf hr'
    obtain ⟨r2, h2⟩ := findPossibilities_total lengths pd dict grid.length lengths.length
      fuel 0 grid [] found rfl rfl (by simp) hf
    exact ⟨r1, r2, by rw [e1, h1]; rfl, by rw [e2, h2]; rfl⟩

/-- Witness of C19: the board `ca / ts` with the range `[1, 3)`. -/
theorem index_safety_witness :
    Square scenarioGrid ∧
    (((1 : Int) = -1 ∧ (3 : Int) = -1) ∨
      ((0 : Int) ≤ 1 ∧ (1 : Int) ≤ 3 ∧
        (3 : Int) ≤ ((scenarioGrid.length * scenarioGrid.length : Nat) : Int))) ∧
    (3 : Int) < 2 ^ 31 ∧
    Checked.Multi.findPossibilities 100 0 [3] scenarioGrid
        (readDict (some scenarioWords) [] []).2.1 (readDict (some scenarioWords) [] []).2.2
        [] [] 1 3 ≠ Except.error Fault.badIndex ∧
    Checked.findPossibilities 100 0 [3] scenarioGrid
        (readDict (some scenarioWords) [] []).2.1 (readDict (some scenarioWords) [] []).2.2
        [] [] ≠ Except.error Fault.badIndex :=
  have hr : ((1 : Int) = -1 ∧ (3 : Int) = -1) ∨
      ((0 : Int) ≤ 1 ∧ (1 : Int) ≤ 3 ∧
        (3 : Int) ≤ ((scenarioGrid.length * scenarioGrid.length : Nat) : Int)) :=
    Or.inr (by decide)
  have h := index_safety [3] scenarioGrid (readDict (some scenarioWords) [] []).2.1
    (readDict (some scenarioWords) [] []).2.2 [] 1 3 100 (by decide) hr (by decide)
  ⟨by decide, hr, by decide, h.2.2.1, h.2.2.2.1⟩

end WordBrain
